import Mathlib

/-!
# Verification of the keyflare hot-key detection engine

Shallow embedding of the core data structures of the keyflare repository
(Count-Min Sketch, Space-Saving heap, detector, local-cache policy, policy
manager, snapshot history, lifecycle) together with proofs and refutations of
the specification claims.

Machine integers (`uint64`, `uint32`) are embedded as `Nat` with explicit
`% 2^64` / `% 2^32` at every operation where the Go code performs modular
arithmetic.
-/

set_option autoImplicit false

namespace Keyflare

/-! ## Byte strings and the FNV-1a hash

Go strings are UTF-8 byte sequences; `[]byte(key)` yields those bytes.
We embed byte strings as `List Nat` (each element a byte value) and encode
Lean `String`s through a UTF-8 encoder so that concrete Go string literals
have their exact byte representation. -/

/-- A byte string: the Go `[]byte` value, each entry `< 256`. -/
abbrev Bytes := List Nat

/-- UTF-8 encoding of a single Unicode code point, as in Go's string layout. -/
def charUtf8 (n : Nat) : List Nat :=
  if n < 0x80 then [n]
  else if n < 0x800 then [0xC0 + n / 0x40, 0x80 + n % 0x40]
  else if n < 0x10000 then
    [0xE0 + n / 0x1000, 0x80 + (n / 0x40) % 0x40, 0x80 + n % 0x40]
  else
    [0xF0 + n / 0x40000, 0x80 + (n / 0x1000) % 0x40,
     0x80 + (n / 0x40) % 0x40, 0x80 + n % 0x40]

/-- The bytes of a Go string (`[]byte(s)`): UTF-8 encoding of its characters. -/
def strBytes (s : String) : Bytes :=
  s.data.foldr (fun c acc => charUtf8 c.toNat ++ acc) []

/-- FNV-1a 32-bit offset basis (`fnv.New32a` initial state). -/
def fnvOffset : Nat := 2166136261

/-- FNV-1a 32-bit prime. -/
def fnvPrime : Nat := 16777619

/-- One step of streaming FNV-1a over a byte: `h = (h XOR b) * prime` in
`uint32` arithmetic. -/
def fnvStep (h b : Nat) : Nat := ((h ^^^ (b % 256)) * fnvPrime) % 2 ^ 32

/-- FNV-1a 32-bit hash of a byte string (`h.Write(data); h.Sum32()`). -/
def fnv32a (data : Bytes) : Nat := data.foldl fnvStep fnvOffset

/-- The four little-endian bytes of a `uint32` seed, as written by the source:
`byte(s), byte(s>>8), byte(s>>16), byte(s>>24)`. -/
def seedBytes (s : Nat) : Bytes :=
  [s % 256, (s / 2 ^ 8) % 256, (s / 2 ^ 16) % 256, (s / 2 ^ 24) % 256]

/-- The hash function family of `countminsketch.go`: FNV-1a over the key bytes
followed by the four seed bytes (row index as seed). -/
def cmsHash (data : Bytes) (seed : Nat) : Nat := fnv32a (data ++ seedBytes seed)

/-! ## Count-Min Sketch (`internal/algorithm/countminsketch.go`)

`NewCountMinSketch(epsilon, delta)` computes `depth = ⌈ln(1/δ)⌉` and
`width = ⌈e/ε⌉` through floating-point arithmetic; we parameterize the
structure by the resulting integer `depth` and `width`.  The counter matrix of
`uint64`s is embedded as a function `Nat → Nat → Nat` with values `< 2^64`. -/

structure CountMinSketch where
  depth : Nat
  width : Nat
  matrix : Nat → Nat → Nat

/-- Column selected for `key` in row `i`:
`hashFuncs[i](key, uint32(i)) % uint32(width)`.  The `int → uint32` conversion
of `width` is `% 2^32`. -/
def colOf (width : Nat) (key : Bytes) (i : Nat) : Nat :=
  cmsHash key i % (width % 2 ^ 32)

/-- A freshly created sketch: all counters zero. -/
def cmsNew (depth width : Nat) : CountMinSketch :=
  ⟨depth, width, fun _ _ => 0⟩

/-- `CountMinSketch.Add`: for each row `i < depth`, add `count` to the cell in
the key's column (in `uint64` arithmetic). -/
def cmsAdd (cms : CountMinSketch) (key : Bytes) (count : Nat) : CountMinSketch :=
  { cms with
    matrix := fun i j =>
      if i < cms.depth ∧ j = colOf cms.width key i then
        (cms.matrix i j + count) % 2 ^ 64
      else cms.matrix i j }

/-- `CountMinSketch.Estimate`: minimum over the rows of the key's cell,
starting from `math.MaxUint64`. -/
def cmsEstimate (cms : CountMinSketch) (key : Bytes) : Nat :=
  (List.range cms.depth).foldl
    (fun m i =>
      if cms.matrix i (colOf cms.width key i) < m then
        cms.matrix i (colOf cms.width key i)
      else m)
    (2 ^ 64 - 1)

/-- `CountMinSketch.Reset`: zero all counters. -/
def cmsReset (cms : CountMinSketch) : CountMinSketch :=
  { cms with matrix := fun _ _ => 0 }

/-- Run a sequence of `Add` operations left to right. -/
def cmsAddAll (cms : CountMinSketch) (ops : List (Bytes × Nat)) : CountMinSketch :=
  ops.foldl (fun c p => cmsAdd c p.1 p.2) cms

/-- Total count added for one key across a sequence of operations. -/
def keySum (ops : List (Bytes × Nat)) (k : Bytes) : Nat :=
  (ops.map fun p => if p.1 = k then p.2 else 0).sum

/-- Total count added across a sequence of operations (the whole stream). -/
def totalSum (ops : List (Bytes × Nat)) : Nat := (ops.map Prod.snd).sum

/-- Count accumulated in cell `(i, j)` by a sequence of operations. -/
def cellSum (width : Nat) (ops : List (Bytes × Nat)) (i j : Nat) : Nat :=
  (ops.map fun p => if colOf width p.1 i = j then p.2 else 0).sum

theorem cmsAdd_depth (cms : CountMinSketch) (k : Bytes) (n : Nat) :
    (cmsAdd cms k n).depth = cms.depth := rfl

theorem cmsAdd_width (cms : CountMinSketch) (k : Bytes) (n : Nat) :
    (cmsAdd cms k n).width = cms.width := rfl

theorem cmsAddAll_depth (cms : CountMinSketch) (ops : List (Bytes × Nat)) :
    (cmsAddAll cms ops).depth = cms.depth := by
  induction ops generalizing cms with
  | nil => rfl
  | cons p t ih => simpa [cmsAddAll] using ih (cmsAdd cms p.1 p.2)

theorem cmsAddAll_width (cms : CountMinSketch) (ops : List (Bytes × Nat)) :
    (cmsAddAll cms ops).width = cms.width := by
  induction ops generalizing cms with
  | nil => rfl
  | cons p t ih => simpa [cmsAddAll] using ih (cmsAdd cms p.1 p.2)

/-- As long as no cell can overflow, the matrix after a run of `Add`s is the
initial matrix plus the per-cell accumulated count (no wrap-around). -/
theorem cmsAddAll_matrix (ops : List (Bytes × Nat)) (cms : CountMinSketch)
    (hov : ∀ i j, cms.matrix i j + totalSum ops < 2 ^ 64)
    (i j : Nat) (hi : i < cms.depth) :
    (cmsAddAll cms ops).matrix i j = cms.matrix i j + cellSum cms.width ops i j := by
  induction ops generalizing cms with
  | nil => simp [cmsAddAll, cellSum]
  | cons p t ih =>
    have hdep : (cmsAdd cms p.1 p.2).depth = cms.depth := rfl
    have hwid : (cmsAdd cms p.1 p.2).width = cms.width := rfl
    have hstep : ∀ i' j', (cmsAdd cms p.1 p.2).matrix i' j' ≤ cms.matrix i' j' + p.2 := by
      intro i' j'
      show (if i' < cms.depth ∧ j' = colOf cms.width p.1 i' then
          (cms.matrix i' j' + p.2) % 2 ^ 64 else cms.matrix i' j') ≤ cms.matrix i' j' + p.2
      by_cases hc : i' < cms.depth ∧ j' = colOf cms.width p.1 i'
      · rw [if_pos hc]
        exact Nat.mod_le _ _
      · rw [if_neg hc]
        exact Nat.le_add_right _ _
    have htot : totalSum (p :: t) = p.2 + totalSum t := by
      show (List.map Prod.snd (p :: t)).sum = _
      simp [totalSum]
    have hov' : ∀ i' j', (cmsAdd cms p.1 p.2).matrix i' j' + totalSum t < 2 ^ 64 := by
      intro i' j'
      have h1 := hstep i' j'
      have h2 := hov i' j'
      omega
    have hih := ih (cmsAdd cms p.1 p.2) hov' (by rw [hdep]; exact hi)
    rw [cmsAddAll, List.foldl_cons, ← cmsAddAll]
    rw [hih, hwid]
    have hnw : (cms.matrix i j + p.2) % 2 ^ 64 = cms.matrix i j + p.2 := by
      apply Nat.mod_eq_of_lt
      have h2 := hov i j
      omega
    by_cases hc : colOf cms.width p.1 i = j
    · have heq : (cmsAdd cms p.1 p.2).matrix i j = (cms.matrix i j + p.2) % 2 ^ 64 := by
        show (if i < cms.depth ∧ j = colOf cms.width p.1 i then
            (cms.matrix i j + p.2) % 2 ^ 64 else cms.matrix i j) = _
        rw [if_pos ⟨hi, hc.symm⟩]
      rw [heq, hnw]
      simp only [cellSum, List.map_cons, List.sum_cons, if_pos hc]
      have : cellSum cms.width t i j = (t.map fun p => if colOf cms.width p.1 i = j then p.2 else 0).sum := rfl
      omega
    · have heq : (cmsAdd cms p.1 p.2).matrix i j = cms.matrix i j := by
        show (if i < cms.depth ∧ j = colOf cms.width p.1 i then
            (cms.matrix i j + p.2) % 2 ^ 64 else cms.matrix i j) = _
        rw [if_neg (by intro ⟨_, h2⟩; exact hc h2.symm)]
      rw [heq]
      simp only [cellSum, List.map_cons, List.sum_cons, if_neg hc]
      have : cellSum cms.width t i j = (t.map fun p => if colOf cms.width p.1 i = j then p.2 else 0).sum := rfl
      omega

/-- The accumulated count in the key's own cell dominates the key's total. -/
theorem keySum_le_cellSum (width : Nat) (ops : List (Bytes × Nat)) (k : Bytes) (i : Nat) :
    keySum ops k ≤ cellSum width ops i (colOf width k i) := by
  unfold keySum cellSum
  induction ops with
  | nil => simp
  | cons p t ih =>
    simp only [List.map_cons, List.sum_cons]
    have hhd : (if p.1 = k then p.2 else 0) ≤
        (if colOf width p.1 i = colOf width k i then p.2 else 0) := by
      by_cases h : p.1 = k
      · rw [if_pos h, h, if_pos rfl]
      · rw [if_neg h]
        exact Nat.zero_le _
    omega

theorem keySum_le_totalSum (ops : List (Bytes × Nat)) (k : Bytes) :
    keySum ops k ≤ totalSum ops := by
  unfold keySum totalSum
  induction ops with
  | nil => simp
  | cons p t ih =>
    simp only [List.map_cons, List.sum_cons]
    by_cases h : p.1 = k
    · rw [if_pos h]; omega
    · rw [if_neg h]; omega

theorem foldl_min_ge {f : Nat → Nat} {b : Nat} :
    ∀ (l : List Nat) (acc : Nat), (∀ x ∈ l, b ≤ f x) → b ≤ acc →
      b ≤ l.foldl (fun m i => if f i < m then f i else m) acc
  | [], acc, _, hacc => hacc
  | x :: t, acc, hl, hacc => by
    apply foldl_min_ge t
    · intro y hy; exact hl y (List.mem_cons_of_mem _ hy)
    · by_cases h : f x < acc
      · simpa [h] using hl x (List.mem_cons_self _ _)
      · simpa [h] using hacc

theorem foldl_min_le_acc {f : Nat → Nat} :
    ∀ (l : List Nat) (acc : Nat),
      l.foldl (fun m i => if f i < m then f i else m) acc ≤ acc
  | [], acc => Nat.le_refl acc
  | x :: t, acc => by
    by_cases h : f x < acc
    · simp only [List.foldl_cons, if_pos h]
      exact Nat.le_trans (foldl_min_le_acc t (f x)) (Nat.le_of_lt h)
    · simpa [h] using foldl_min_le_acc t acc

theorem foldl_min_le_mem {f : Nat → Nat} :
    ∀ (l : List Nat) (acc : Nat) (x : Nat), x ∈ l →
      l.foldl (fun m i => if f i < m then f i else m) acc ≤ f x
  | [], _, x, hx => absurd hx (List.not_mem_nil x)
  | y :: t, acc, x, hx => by
    rcases List.mem_cons.1 hx with h | h
    · subst h
      by_cases hy : f x < acc
      · simpa [hy] using foldl_min_le_acc t (f x)
      · simp only [List.foldl_cons, if_neg hy]
        exact Nat.le_trans (foldl_min_le_acc t acc) (Nat.le_of_not_lt hy)
    · exact foldl_min_le_mem t _ x h

/-- **C1 (amended), part of the development**: on a fresh sketch, after any
sequence of `Add` operations whose total stream fits in a `uint64`,
`Estimate(k)` is at least the total added for `k`; and `Estimate(k) = 0`
whenever some row maps `k` to a column not hit by any operation (which,
in particular, requires that `k` itself was never added with positive count). -/
theorem cms_estimate_spec (depth width : Nat) (ops : List (Bytes × Nat)) (k : Bytes)
    (hov : totalSum ops < 2 ^ 64) :
    keySum ops k ≤ cmsEstimate (cmsAddAll (cmsNew depth width) ops) k
    ∧ ((∃ i, i < depth ∧ ∀ p ∈ ops, colOf width p.1 i ≠ colOf width k i) →
        cmsEstimate (cmsAddAll (cmsNew depth width) ops) k = 0) := by
  have hdep : (cmsAddAll (cmsNew depth width) ops).depth = depth :=
    cmsAddAll_depth _ _
  have hwid : (cmsAddAll (cmsNew depth width) ops).width = width :=
    cmsAddAll_width _ _
  have hmat : ∀ i j, i < depth →
      (cmsAddAll (cmsNew depth width) ops).matrix i j = cellSum width ops i j := by
    intro i j hi
    have := cmsAddAll_matrix ops (cmsNew depth width)
      (fun _ _ => by simpa [cmsNew] using hov) i j (by simpa [cmsNew] using hi)
    simpa [cmsNew] using this
  have hksum : keySum ops k ≤ totalSum ops := keySum_le_totalSum ops k
  constructor
  · unfold cmsEstimate
    rw [hdep, hwid]
    apply foldl_min_ge (f := fun i =>
      (cmsAddAll (cmsNew depth width) ops).matrix i (colOf width k i))
    · intro i hi
      rw [hmat i _ (List.mem_range.1 hi)]
      exact keySum_le_cellSum width ops k i
    · omega
  · rintro ⟨i, hi, hcols⟩
    have hcell : cellSum width ops i (colOf width k i) = 0 := by
      unfold cellSum
      rw [List.sum_eq_zero]
      intro x hx
      rcases List.mem_map.1 hx with ⟨p, hp, hpx⟩
      rw [if_neg (hcols p hp)] at hpx
      exact hpx.symm
    have hle : cmsEstimate (cmsAddAll (cmsNew depth width) ops) k ≤ 0 := by
      unfold cmsEstimate
      rw [hdep, hwid]
      have hmem : i ∈ List.range depth := List.mem_range.2 hi
      have hb := foldl_min_le_mem (f := fun i =>
        (cmsAddAll (cmsNew depth width) ops).matrix i (colOf width k i))
        (List.range depth) (2 ^ 64 - 1) i hmem
      simp only at hb
      rw [hmat i _ hi, hcell] at hb
      exact hb
    omega

/-- **C1 counterexample**: on the sketch built by `NewCountMinSketch` with
parameters giving `depth = 1`, `width = 1` (e.g. `ε = 2.8, δ = 0.5`), after
`Add("a", 5)` the never-added key `"b"` has `Estimate = 5 ≠ 0`: every added key
collides with `"b"` in every row, so the absent-key sentinel claim fails. -/
theorem cms_absent_key_counterexample :
    strBytes "b" ∉ [(strBytes "a", 5)].map Prod.fst
    ∧ cmsEstimate (cmsAddAll (cmsNew 1 1) [(strBytes "a", 5)]) (strBytes "b") = 5 := by
  constructor
  · decide
  · decide

/-- Witness for `cms_estimate_spec` at a concrete input: two adds of key `"a"`
and one of `"b"` on a `depth 4, width 16` sketch; the estimate of `"a"` is at
least `7`, and key `"z"`, which collides with nobody in row `0`, estimates `0`. -/
theorem cms_estimate_spec_witness :
    totalSum [(strBytes "a", 5), (strBytes "b", 3), (strBytes "a", 2)] < 2 ^ 64
    ∧ (keySum [(strBytes "a", 5), (strBytes "b", 3), (strBytes "a", 2)] (strBytes "a") ≤
        cmsEstimate (cmsAddAll (cmsNew 4 16)
          [(strBytes "a", 5), (strBytes "b", 3), (strBytes "a", 2)]) (strBytes "a")
      ∧ ((∃ i, i < 4 ∧ ∀ p ∈ [(strBytes "a", 5), (strBytes "b", 3), (strBytes "a", 2)],
            colOf 16 p.1 i ≠ colOf 16 (strBytes "z") i) →
          cmsEstimate (cmsAddAll (cmsNew 4 16)
            [(strBytes "a", 5), (strBytes "b", 3), (strBytes "a", 2)]) (strBytes "z") = 0)) :=
  ⟨by decide,
   (cms_estimate_spec 4 16 [(strBytes "a", 5), (strBytes "b", 3), (strBytes "a", 2)]
     (strBytes "a") (by decide)).1,
   (cms_estimate_spec 4 16 [(strBytes "a", 5), (strBytes "b", 3), (strBytes "a", 2)]
     (strBytes "z") (by decide)).2⟩

/-! ## Space-Saving (`internal/algorithm/spacesaving.go`)

The Go structure holds a map `items : key → *Item` and a min-heap
`heap : []*Item` of shared mutable nodes; each node records its own heap slot
in `Index`.  We embed the pointer graph explicitly: nodes live in a `store`
addressed by allocation order, the heap is a list of node ids, and the map is
an association list from key to node id.  `container/heap`'s `up`, `down`,
`Fix`, `Push`, `Pop` and `Init` are embedded literally; `Swap` maintains the
`Index` fields exactly as `SpaceSavingHeap.Swap` does. -/

/-- An `Item` of the Space-Saving structure (counts are `uint64`, the heap
index is a Go `int`, set to `-1` by `Pop`). -/
structure Item where
  key : String
  count : Nat
  error : Nat
  index : Int
deriving DecidableEq, Repr

/-- The zero `Item`, used as the out-of-range default of the node store. -/
def defaultItem : Item := ⟨"", 0, 0, 0⟩

/-- The Space-Saving state: capacity, node store (allocation-ordered), heap of
node ids, and the key→node map as an association list. -/
structure SpaceSaving where
  capacity : Nat
  store : List Item
  heap : List Nat
  items : List (String × Nat)
deriving DecidableEq, Repr

/-- `NewSpaceSaving(capacity)`: empty map and heap. -/
def ssNew (capacity : Nat) : SpaceSaving := ⟨capacity, [], [], []⟩

/-- Dereference a node id in the store. -/
def getN (store : List Item) (id : Nat) : Item := store.getD id defaultItem

/-- Write a node's `Index` field. -/
def setIdx (store : List Item) (id : Nat) (v : Int) : List Item :=
  store.set id { getN store id with index := v }

/-- The node id in heap slot `p`. -/
def heapId (ss : SpaceSaving) (p : Nat) : Nat := ss.heap.getD p 0

/-- The count of the node in heap slot `p` (what `Less` compares). -/
def cnt (ss : SpaceSaving) (p : Nat) : Nat := (getN ss.store (heapId ss p)).count

/-- `SpaceSavingHeap.Swap(i, j)`: exchange the heap slots and re-point both
nodes' `Index` fields at their new positions. -/
def hswap (ss : SpaceSaving) (i j : Nat) : SpaceSaving :=
  let a := heapId ss i
  let b := heapId ss j
  { ss with
    heap := (ss.heap.set i b).set j a
    store := setIdx (setIdx ss.store b i) a j }

/-- `container/heap`'s `up`: sift the node in slot `j` towards the root while
it is smaller than its parent `(j-1)/2` (the Go loop breaks at `i == j`,
i.e. at `j = 0`). -/
def up (ss : SpaceSaving) (j : Nat) : SpaceSaving :=
  if h : 0 < j then
    if cnt ss j < cnt ss ((j - 1) / 2) then up (hswap ss ((j - 1) / 2) j) ((j - 1) / 2)
    else ss
  else ss
termination_by j
decreasing_by
  exact Nat.lt_of_le_of_lt (Nat.div_le_self _ 2) (Nat.sub_lt h Nat.one_pos)

/-- The child slot `down` descends into from slot `i`: the left child `2i+1`,
or the right child `2i+2` when it exists and compares `Less`. -/
def child (ss : SpaceSaving) (i n : Nat) : Nat :=
  if 2 * i + 2 < n ∧ cnt ss (2 * i + 2) < cnt ss (2 * i + 1) then 2 * i + 2
  else 2 * i + 1

/-- `container/heap`'s `down` on the sub-heap of the first `n` slots: sift the
node in slot `i` towards the leaves; returns the state and the final slot (the
Go function returns `i > i0`, recovered by comparing). -/
def downAux (ss : SpaceSaving) (i n : Nat) : SpaceSaving × Nat :=
  if h : 2 * i + 1 < n then
    if cnt ss (child ss i n) < cnt ss i then
      downAux (hswap ss i (child ss i n)) (child ss i n) n
    else (ss, i)
  else (ss, i)
termination_by n - i
decreasing_by
  unfold child
  split <;> omega

/-- `container/heap`'s `Fix(i)`: `down`, and if the node did not move, `up`. -/
def fixAt (ss : SpaceSaving) (i : Nat) : SpaceSaving :=
  let r := downAux ss i ss.heap.length
  if r.2 > i then r.1 else up r.1 i

/-- `container/heap`'s `Push`: append the node (its `Index` set to the new
slot, as `SpaceSavingHeap.Push` does), then `up` from the last slot.  The node
is freshly allocated, so its id is the store length. -/
def hpush (ss : SpaceSaving) (k : String) (c e : Nat) : SpaceSaving :=
  let id := ss.store.length
  let store' := ss.store ++ [⟨k, c, e, (ss.heap.length : Int)⟩]
  let heap' := ss.heap ++ [id]
  up { ss with store := store', heap := heap' } (heap'.length - 1)

/-- `container/heap`'s `Init`: `down` at slots `n/2 - 1, …, 0`. -/
def initDown (n : Nat) : SpaceSaving → Nat → SpaceSaving
  | ss, 0 => ss
  | ss, i + 1 => initDown n (downAux ss i n).1 i

/-- `heap.Init`. -/
def heapInit (ss : SpaceSaving) : SpaceSaving :=
  initDown ss.heap.length ss (ss.heap.length / 2)

/-- Look a key up in the `items` map. -/
def lookupItem (ss : SpaceSaving) (k : String) : Option Nat :=
  (ss.items.find? fun e => e.1 == k).map Prod.snd

/-- `SpaceSaving.Add(key, count)`: bump an existing node and `Fix` it; push a
fresh node below capacity; otherwise overwrite the root (current minimum),
remove the evicted key from the map, inherit `count = root.count + count`,
`error = root.count`, and re-heapify from the root.  The empty-heap case of
the at-capacity branch is Go's out-of-range panic (`ss.heap[0]`), unreachable
for capacity ≥ 1; we return the state unchanged there. -/
def ssAdd (ss : SpaceSaving) (k : String) (n : Nat) : SpaceSaving :=
  match lookupItem ss k with
  | some id =>
      let it := getN ss.store id
      let store' := ss.store.set id { it with count := (it.count + n) % 2 ^ 64 }
      fixAt { ss with store := store' } it.index.toNat
  | none =>
      if ss.heap.length < ss.capacity then
        let id := ss.store.length
        hpush { ss with items := ss.items ++ [(k, id)] } k n 0
      else
        match ss.heap with
        | [] => ss
        | r :: _ =>
            let root := getN ss.store r
            let store' := ss.store.set r
              { root with key := k, count := (root.count + n) % 2 ^ 64, error := root.count }
            let items' := (ss.items.filter fun e => ¬ (e.1 = root.key)) ++ [(k, r)]
            fixAt { ss with store := store', items := items' } 0

/-- `SpaceSaving.Count(key)`: node count if present, else 0. -/
def ssCount (ss : SpaceSaving) (k : String) : Nat :=
  match lookupItem ss k with
  | some id => (getN ss.store id).count
  | none => 0

/-- One `heap.Pop` of the Go `TopK` loop: swap root and last slot, sift the
root down over the first `n-1` slots, then detach the last slot, setting the
detached node's `Index` to `-1`; the returned `Item` is the value copy
`*item` appended to `result`. -/
def heapPopGo (ss : SpaceSaving) : SpaceSaving × Item :=
  let m := ss.heap.length - 1
  let s1 := hswap ss 0 m
  let s2 := (downAux s1 0 m).1
  let id := heapId s2 m
  ({ s2 with store := setIdx s2.store id (-1), heap := s2.heap.take m },
   { getN s2.store id with index := -1 })

/-- The `for len(copyHeap) > 0` pop loop of `SpaceSaving.TopK`, run with fuel;
each pop removes exactly one slot, so fuel `ss.heap.length` runs it to
completion. -/
def popAll : Nat → SpaceSaving → List Item
  | 0, _ => []
  | f + 1, ss =>
      if ss.heap.length = 0 then []
      else
        let r := heapPopGo ss
        r.2 :: popAll f r.1

/-- `SpaceSaving.TopK(k)`: pop everything from a copy of the heap (ascending
by count), reverse, and return the first `min(k, size)` items.  In Go the copy
shares the `*Item` nodes, so the pops scribble over the shared `Index` fields;
only the returned value copies are modelled here (their `key`/`count`/`error`
are unaffected by the scribbling). -/
def ssTopK (ss : SpaceSaving) (k : Nat) : List Item :=
  let res := popAll ss.heap.length ss
  res.reverse.take (if k > res.length then res.length else k)

/-- `SpaceSaving.Decay(factor)`: every node's count and error mapped through
the decay function, then `heap.Init`.  The Go update is
`uint64(float64(x) * factor)`; the float arithmetic is abstracted as the
function `f` (the structural claims hold for every `f`). -/
def ssDecay (ss : SpaceSaving) (f : Nat → Nat) : SpaceSaving :=
  let store' := ss.items.foldl
    (fun st e => st.set e.2
      { getN st e.2 with count := f (getN st e.2).count, error := f (getN st e.2).error })
    ss.store
  heapInit { ss with store := store' }

/-- `SpaceSaving.Clear()`: empty map and heap (the old nodes become
unreachable; the store is kept as garbage). -/
def ssClear (ss : SpaceSaving) : SpaceSaving :=
  { ss with heap := [], items := [] }

/-! ### List toolkit for the heap proofs -/

theorem getD_set_eq {α : Type} (l : List α) (i : Nat) (v d : α) (h : i < l.length) :
    (l.set i v).getD i d = v := by
  have h' : i < (l.set i v).length := by simpa using h
  rw [List.getD_eq_getElem _ _ h']
  exact List.getElem_set_self h'

theorem getD_set_ne {α : Type} (l : List α) {i j : Nat} (v d : α) (h : i ≠ j) :
    (l.set i v).getD j d = l.getD j d := by
  by_cases hj : j < l.length
  · have hj' : j < (l.set i v).length := by simpa using hj
    rw [List.getD_eq_getElem _ _ hj', List.getD_eq_getElem _ _ hj]
    exact List.getElem_set_ne h hj'
  · rw [List.getD_eq_default _ _ (by simpa using Nat.le_of_not_lt hj),
      List.getD_eq_default _ _ (Nat.le_of_not_lt hj)]

theorem set_getD_self {α : Type} (l : List α) (i : Nat) (d : α) :
    l.set i (l.getD i d) = l := by
  by_cases h : i < l.length
  · apply List.ext_getElem (by simp)
    intro n h1 h2
    by_cases hn : i = n
    · subst hn
      rw [List.getElem_set_self h1, List.getD_eq_getElem _ _ h]
    · rw [List.getElem_set_ne hn]
  · exact List.set_eq_of_length_le (Nat.le_of_not_lt h)

theorem cons_set_perm {α : Type} (x d : α) :
    ∀ (t : List α) (j : Nat), j < t.length → (t.getD j d :: t.set j x).Perm (x :: t)
  | y :: t, 0, _ => by simpa using List.Perm.swap x y t
  | y :: t, j + 1, h => by
    have ih := cons_set_perm x d t j (by simpa using h)
    have h1 : ((y :: t).getD (j + 1) d :: (y :: t).set (j + 1) x) =
        (t.getD j d :: y :: t.set j x) := rfl
    rw [h1]
    exact (List.Perm.swap y (t.getD j d) (t.set j x)).trans
      ((ih.cons y).trans (List.Perm.swap x y t))

theorem set_set_swap_perm {α : Type} (d : α) :
    ∀ (l : List α) (i j : Nat), i < l.length → j < l.length →
      ((l.set i (l.getD j d)).set j (l.getD i d)).Perm l
  | [], i, _, hi, _ => absurd hi (by simp)
  | x :: t, 0, 0, _, _ => by
    rw [List.set_set, set_getD_self]
  | x :: t, 0, j + 1, _, hj => by
    have h1 : (x :: t).getD (j + 1) d = t.getD j d := rfl
    have h2 : (x :: t).getD 0 d = x := rfl
    rw [h1, h2]
    show (t.getD j d :: t.set j x).Perm (x :: t)
    exact cons_set_perm x d t j (by simpa using hj)
  | x :: t, i + 1, 0, hi, _ => by
    have h1 : (x :: t).getD 0 d = x := rfl
    have h2 : (x :: t).getD (i + 1) d = t.getD i d := rfl
    rw [h1, h2]
    show (t.getD i d :: t.set i x).Perm (x :: t)
    exact cons_set_perm x d t i (by simpa using hi)
  | x :: t, i + 1, j + 1, hi, hj => by
    show (x :: (t.set i (t.getD j d)).set j (t.getD i d)).Perm (x :: t)
    exact (set_set_swap_perm d t i j (by simpa using hi) (by simpa using hj)).cons x

/-- The non-index content of a node. -/
def strip (it : Item) : String × Nat × Nat := (it.key, it.count, it.error)

theorem length_setIdx (st : List Item) (id : Nat) (v : Int) :
    (setIdx st id v).length = st.length := by simp [setIdx]

theorem getN_setIdx (st : List Item) (id : Nat) (v : Int) (x : Nat) :
    getN (setIdx st id v) x =
      if id = x ∧ x < st.length then { getN st x with index := v } else getN st x := by
  by_cases hx : id = x
  · subst hx
    by_cases h : id < st.length
    · rw [if_pos ⟨rfl, h⟩]
      unfold setIdx getN
      rw [getD_set_eq _ _ _ _ h]
    · rw [if_neg (by intro hc; exact h hc.2)]
      unfold setIdx
      rw [List.set_eq_of_length_le (Nat.le_of_not_lt h)]
  · rw [if_neg (by intro hc; exact hx hc.1)]
    unfold setIdx getN
    rw [getD_set_ne _ _ _ hx]

theorem strip_getN_setIdx (st : List Item) (id : Nat) (v : Int) (x : Nat) :
    strip (getN (setIdx st id v) x) = strip (getN st x) := by
  rw [getN_setIdx]
  by_cases h : id = x ∧ x < st.length
  · rw [if_pos h]; rfl
  · rw [if_neg h]

theorem hswap_capacity (ss : SpaceSaving) (i j : Nat) :
    (hswap ss i j).capacity = ss.capacity := rfl

theorem hswap_items (ss : SpaceSaving) (i j : Nat) :
    (hswap ss i j).items = ss.items := rfl

theorem hswap_heap_length (ss : SpaceSaving) (i j : Nat) :
    (hswap ss i j).heap.length = ss.heap.length := by simp [hswap]

theorem hswap_store_length (ss : SpaceSaving) (i j : Nat) :
    (hswap ss i j).store.length = ss.store.length := by
  simp [hswap, length_setIdx]

theorem hswap_strip (ss : SpaceSaving) (i j : Nat) (x : Nat) :
    strip (getN (hswap ss i j).store x) = strip (getN ss.store x) := by
  show strip (getN (setIdx (setIdx ss.store (heapId ss j) i) (heapId ss i) j) x) = _
  rw [strip_getN_setIdx, strip_getN_setIdx]

theorem hswap_heap_perm (ss : SpaceSaving) (i j : Nat)
    (hi : i < ss.heap.length) (hj : j < ss.heap.length) :
    (hswap ss i j).heap.Perm ss.heap :=
  set_set_swap_perm 0 ss.heap i j hi hj

theorem heapId_hswap (ss : SpaceSaving) (i j p : Nat)
    (hi : i < ss.heap.length) (hj : j < ss.heap.length) :
    heapId (hswap ss i j) p =
      if p = j then heapId ss i else if p = i then heapId ss j else heapId ss p := by
  show ((ss.heap.set i (heapId ss j)).set j (heapId ss i)).getD p 0 = _
  by_cases hpj : p = j
  · subst hpj
    rw [if_pos rfl, getD_set_eq _ _ _ _ (by simpa using hj)]
  · rw [if_neg hpj, getD_set_ne _ _ _ (fun h => hpj h.symm)]
    by_cases hpi : p = i
    · subst hpi
      rw [if_pos rfl, getD_set_eq _ _ _ _ hi]
    · rw [if_neg hpi, getD_set_ne _ _ _ (fun h => hpi h.symm)]
      rfl

theorem index_getN_hswap (ss : SpaceSaving) (i j x : Nat)
    (ha : heapId ss i < ss.store.length) (hb : heapId ss j < ss.store.length) :
    (getN (hswap ss i j).store x).index =
      if x = heapId ss i then (j : Int)
      else if x = heapId ss j then (i : Int)
      else (getN ss.store x).index := by
  show (getN (setIdx (setIdx ss.store (heapId ss j) i) (heapId ss i) j) x).index = _
  rw [getN_setIdx, getN_setIdx]
  by_cases hxa : x = heapId ss i
  · subst hxa
    rw [if_pos rfl, if_pos ⟨rfl, by simpa [length_setIdx] using ha⟩]
  · rw [if_neg hxa,
      if_neg (by intro ⟨h1, _⟩; exact hxa h1.symm)]
    by_cases hxb : x = heapId ss j
    · subst hxb
      rw [if_pos rfl, if_pos ⟨rfl, hb⟩]
    · rw [if_neg hxb, if_neg (by intro ⟨h1, _⟩; exact hxb h1.symm)]

theorem child_bounds (ss : SpaceSaving) (i n : Nat) (h : 2 * i + 1 < n) :
    i < child ss i n ∧ child ss i n < n := by
  unfold child
  split <;> omega

theorem heapId_mem (ss : SpaceSaving) (p : Nat) (hp : p < ss.heap.length) :
    heapId ss p ∈ ss.heap := by
  unfold heapId
  rw [List.getD_eq_getElem _ _ hp]
  exact List.getElem_mem hp

/-- Structural facts preserved by `up`: capacity, items, store length, the
heap as a multiset, and every node's non-index content. -/
theorem up_basic (j : Nat) (ss : SpaceSaving) (hj : j < ss.heap.length) :
    (up ss j).capacity = ss.capacity ∧ (up ss j).items = ss.items ∧
    (up ss j).store.length = ss.store.length ∧ (up ss j).heap.Perm ss.heap ∧
    (∀ x, strip (getN (up ss j).store x) = strip (getN ss.store x)) := by
  induction j using Nat.strong_induction_on generalizing ss with
  | _ j ih =>
    unfold up
    by_cases h0 : 0 < j
    · rw [dif_pos h0]
      by_cases hlt : cnt ss j < cnt ss ((j - 1) / 2)
      · rw [if_pos hlt]
        have hi : (j - 1) / 2 < j :=
          Nat.lt_of_le_of_lt (Nat.div_le_self _ 2) (Nat.sub_lt h0 Nat.one_pos)
        have hilen : (j - 1) / 2 < ss.heap.length := Nat.lt_trans hi hj
        obtain ⟨c1, c2, c3, c4, c5⟩ := ih ((j - 1) / 2) hi (hswap ss ((j - 1) / 2) j)
          (by rw [hswap_heap_length]; exact hilen)
        refine ⟨?_, ?_, ?_, ?_, ?_⟩
        · rw [c1, hswap_capacity]
        · rw [c2, hswap_items]
        · rw [c3, hswap_store_length]
        · exact c4.trans (hswap_heap_perm ss _ _ hilen hj)
        · intro x
          rw [c5 x, hswap_strip]
      · rw [if_neg hlt]
        exact ⟨rfl, rfl, rfl, .refl _, fun _ => rfl⟩
    · rw [dif_neg h0]
      exact ⟨rfl, rfl, rfl, .refl _, fun _ => rfl⟩

/-- Structural facts preserved by `down`, plus the final slot is at least the
starting slot (Go's `i > i0` return value compares them). -/
theorem down_basic : ∀ (k : Nat) (ss : SpaceSaving) (i n : Nat), n - i ≤ k →
    n ≤ ss.heap.length →
    ((downAux ss i n).1.capacity = ss.capacity ∧ (downAux ss i n).1.items = ss.items ∧
     (downAux ss i n).1.store.length = ss.store.length ∧
     (downAux ss i n).1.heap.Perm ss.heap ∧
     (∀ x, strip (getN (downAux ss i n).1.store x) = strip (getN ss.store x))) ∧
    i ≤ (downAux ss i n).2
  | 0, ss, i, n, hk, _ => by
    unfold downAux
    rw [dif_neg (by omega)]
    exact ⟨⟨rfl, rfl, rfl, .refl _, fun _ => rfl⟩, Nat.le_refl i⟩
  | k + 1, ss, i, n, hk, hn => by
    unfold downAux
    by_cases h : 2 * i + 1 < n
    · rw [dif_pos h]
      obtain ⟨hci, hcn⟩ := child_bounds ss i n h
      by_cases hlt : cnt ss (child ss i n) < cnt ss i
      · rw [if_pos hlt]
        obtain ⟨⟨c1, c2, c3, c4, c5⟩, c6⟩ :=
          down_basic k (hswap ss i (child ss i n)) (child ss i n) n (by omega)
            (by rw [hswap_heap_length]; exact hn)
        have hilen : i < ss.heap.length := Nat.lt_of_lt_of_le (by omega) hn
        have hclen : child ss i n < ss.heap.length := Nat.lt_of_lt_of_le hcn hn
        refine ⟨⟨?_, ?_, ?_, ?_, ?_⟩, ?_⟩
        · rw [c1, hswap_capacity]
        · rw [c2, hswap_items]
        · rw [c3, hswap_store_length]
        · exact c4.trans (hswap_heap_perm ss _ _ hilen hclen)
        · intro x
          rw [c5 x, hswap_strip]
        · omega
      · rw [if_neg hlt]
        exact ⟨⟨rfl, rfl, rfl, .refl _, fun _ => rfl⟩, Nat.le_refl i⟩
    · rw [dif_neg h]
      exact ⟨⟨rfl, rfl, rfl, .refl _, fun _ => rfl⟩, Nat.le_refl i⟩

/-- Structural facts preserved by `Fix`. -/
theorem fixAt_basic (ss : SpaceSaving) (i : Nat) (hi : i < ss.heap.length) :
    (fixAt ss i).capacity = ss.capacity ∧ (fixAt ss i).items = ss.items ∧
    (fixAt ss i).store.length = ss.store.length ∧ (fixAt ss i).heap.Perm ss.heap ∧
    (∀ x, strip (getN (fixAt ss i).store x) = strip (getN ss.store x)) := by
  unfold fixAt
  obtain ⟨⟨c1, c2, c3, c4, c5⟩, _⟩ :=
    down_basic (ss.heap.length - i) ss i ss.heap.length (Nat.le_refl _) (Nat.le_refl _)
  by_cases hmv : (downAux ss i ss.heap.length).2 > i
  · rw [if_pos hmv]
    exact ⟨c1, c2, c3, c4, c5⟩
  · rw [if_neg hmv]
    have hlen : i < (downAux ss i ss.heap.length).1.heap.length := by
      rw [c4.length_eq]; exact hi
    obtain ⟨u1, u2, u3, u4, u5⟩ := up_basic i _ hlen
    refine ⟨u1.trans c1, u2.trans c2, u3.trans c3, u4.trans c4, ?_⟩
    intro x
    rw [u5 x, c5 x]

/-- Unfolding `hpush` to the intermediate pushed state. -/
theorem hpush_def (ss : SpaceSaving) (k : String) (c e : Nat) :
    hpush ss k c e =
      up { ss with
            store := ss.store ++ [⟨k, c, e, (ss.heap.length : Int)⟩],
            heap := ss.heap ++ [ss.store.length] }
        ((ss.heap ++ [ss.store.length]).length - 1) := rfl

/-- Structural facts for `Push`: the heap gains exactly the fresh id, the
store grows by the pushed node, items and capacity are untouched. -/
theorem hpush_basic (ss : SpaceSaving) (k : String) (c e : Nat) :
    (hpush ss k c e).capacity = ss.capacity ∧ (hpush ss k c e).items = ss.items ∧
    (hpush ss k c e).store.length = ss.store.length + 1 ∧
    (hpush ss k c e).heap.Perm (ss.heap ++ [ss.store.length]) ∧
    (∀ x, strip (getN (hpush ss k c e).store x) =
      strip (getN (ss.store ++ [⟨k, c, e, (ss.heap.length : Int)⟩]) x)) := by
  rw [hpush_def]
  have hlen : (ss.heap ++ [ss.store.length]).length - 1 <
      ({ ss with
          store := ss.store ++ [⟨k, c, e, (ss.heap.length : Int)⟩],
          heap := ss.heap ++ [ss.store.length] } : SpaceSaving).heap.length := by
    simp
  obtain ⟨u1, u2, u3, u4, u5⟩ := up_basic _ _ hlen
  refine ⟨u1, u2, by rw [u3]; simp, u4, u5⟩

/-- Structural facts for the `Init` loop. -/
theorem initDown_basic (n : Nat) : ∀ (c : Nat) (ss : SpaceSaving), n ≤ ss.heap.length →
    (initDown n ss c).capacity = ss.capacity ∧ (initDown n ss c).items = ss.items ∧
    (initDown n ss c).store.length = ss.store.length ∧
    (initDown n ss c).heap.Perm ss.heap ∧
    (∀ x, strip (getN (initDown n ss c).store x) = strip (getN ss.store x))
  | 0, ss, _ => ⟨rfl, rfl, rfl, .refl _, fun _ => rfl⟩
  | c + 1, ss, hn => by
    unfold initDown
    obtain ⟨⟨d1, d2, d3, d4, d5⟩, _⟩ := down_basic (n - c) ss c n (Nat.le_refl _) hn
    obtain ⟨i1, i2, i3, i4, i5⟩ := initDown_basic n c (downAux ss c n).1
      (by rw [d4.length_eq]; exact hn)
    refine ⟨i1.trans d1, i2.trans d2, i3.trans d3, i4.trans d4, ?_⟩
    intro x
    rw [i5 x, d5 x]

/-- Structural facts for `heap.Init`. -/
theorem heapInit_basic (ss : SpaceSaving) :
    (heapInit ss).capacity = ss.capacity ∧ (heapInit ss).items = ss.items ∧
    (heapInit ss).store.length = ss.store.length ∧
    (heapInit ss).heap.Perm ss.heap ∧
    (∀ x, strip (getN (heapInit ss).store x) = strip (getN ss.store x)) :=
  initDown_basic ss.heap.length (ss.heap.length / 2) ss (Nat.le_refl _)

/-! ### The structural invariant of the Space-Saving state (claim C10)

Map and heap describe the same collection of nodes: every map entry's node
holds that key and sits in the heap slot named by its `Index` field, every
heap node is reachable from the map under its key, keys and node ids are
duplicate-free, and the heap never exceeds the capacity. -/

/-- Every heap id points into the store. -/
def IdsOK (ss : SpaceSaving) : Prop := ∀ id ∈ ss.heap, id < ss.store.length

/-- The `Index` field of the node in heap slot `p` is `p`. -/
def IndexOK (ss : SpaceSaving) : Prop :=
  ∀ p ∈ List.range ss.heap.length, (getN ss.store (heapId ss p)).index = (p : Int)

/-- The structural invariant of `SpaceSaving` (claim C10). -/
def Inv (ss : SpaceSaving) : Prop :=
  (ss.items.map Prod.fst).Nodup ∧
  ss.heap.Nodup ∧
  IdsOK ss ∧
  (∀ e ∈ ss.items, e.2 ∈ ss.heap ∧ (getN ss.store e.2).key = e.1) ∧
  (∀ id ∈ ss.heap, ((getN ss.store id).key, id) ∈ ss.items) ∧
  IndexOK ss ∧
  ss.heap.length ≤ ss.capacity

theorem heapId_inj (ss : SpaceSaving) (hnd : ss.heap.Nodup) {p q : Nat}
    (hp : p < ss.heap.length) (hq : q < ss.heap.length)
    (h : heapId ss p = heapId ss q) : p = q := by
  unfold heapId at h
  rw [List.getD_eq_getElem _ _ hp, List.getD_eq_getElem _ _ hq] at h
  exact (hnd.getElem_inj_iff).1 h

theorem key_eq_of_strip {it it' : Item} (h : strip it = strip it') : it.key = it'.key :=
  congrArg Prod.fst h

theorem count_eq_of_strip {it it' : Item} (h : strip it = strip it') : it.count = it'.count :=
  congrArg (fun p => p.2.1) h

theorem error_eq_of_strip {it it' : Item} (h : strip it = strip it') : it.error = it'.error :=
  congrArg (fun p => p.2.2) h

/-- `Swap` keeps `IndexOK`: both moved nodes get their new slots, everything
else is untouched. -/
theorem hswap_indexOK (ss : SpaceSaving) (i j : Nat)
    (hi : i < ss.heap.length) (hj : j < ss.heap.length)
    (hnd : ss.heap.Nodup) (hids : IdsOK ss) (hidx : IndexOK ss) :
    IndexOK (hswap ss i j) := by
  intro p hp
  rw [List.mem_range, hswap_heap_length] at hp
  have ha : heapId ss i < ss.store.length := hids _ (heapId_mem ss i hi)
  have hb : heapId ss j < ss.store.length := hids _ (heapId_mem ss j hj)
  rw [heapId_hswap ss i j p hi hj]
  by_cases hpj : p = j
  · rw [if_pos hpj, index_getN_hswap ss i j _ ha hb, if_pos rfl, hpj]
  · rw [if_neg hpj]
    by_cases hpi : p = i
    · have hij : i ≠ j := fun h => hpj (hpi.trans h)
      have hne : heapId ss j ≠ heapId ss i :=
        fun h => hij (heapId_inj ss hnd hj hi h).symm
      rw [if_pos hpi, index_getN_hswap ss i j _ ha hb, if_neg hne, if_pos rfl, hpi]
    · rw [if_neg hpi, index_getN_hswap ss i j _ ha hb]
      have hne1 : heapId ss p ≠ heapId ss i := fun h => hpi (heapId_inj ss hnd hp hi h)
      have hne2 : heapId ss p ≠ heapId ss j := fun h => hpj (heapId_inj ss hnd hp hj h)
      rw [if_neg hne1, if_neg hne2]
      exact hidx p (List.mem_range.2 hp)

theorem idsOK_of_perm {ss ss' : SpaceSaving} (hperm : ss'.heap.Perm ss.heap)
    (hsl : ss'.store.length = ss.store.length) (hids : IdsOK ss) : IdsOK ss' := by
  intro id hid
  rw [hsl]
  exact hids id (hperm.mem_iff.1 hid)

theorem nodup_of_perm {ss ss' : SpaceSaving} (hperm : ss'.heap.Perm ss.heap)
    (hnd : ss.heap.Nodup) : ss'.heap.Nodup := hperm.nodup_iff.2 hnd

/-- `up` keeps `IndexOK`. -/
theorem up_indexOK (j : Nat) (ss : SpaceSaving) (hj : j < ss.heap.length)
    (hnd : ss.heap.Nodup) (hids : IdsOK ss) (hidx : IndexOK ss) :
    IndexOK (up ss j) := by
  induction j using Nat.strong_induction_on generalizing ss with
  | _ j ih =>
    unfold up
    by_cases h0 : 0 < j
    · rw [dif_pos h0]
      by_cases hlt : cnt ss j < cnt ss ((j - 1) / 2)
      · rw [if_pos hlt]
        have hi : (j - 1) / 2 < j :=
          Nat.lt_of_le_of_lt (Nat.div_le_self _ 2) (Nat.sub_lt h0 Nat.one_pos)
        have hilen : (j - 1) / 2 < ss.heap.length := Nat.lt_trans hi hj
        have hperm := hswap_heap_perm ss ((j - 1) / 2) j hilen hj
        exact ih ((j - 1) / 2) hi (hswap ss ((j - 1) / 2) j)
          (by rw [hswap_heap_length]; exact hilen)
          (nodup_of_perm hperm hnd)
          (idsOK_of_perm hperm (hswap_store_length ss _ _) hids)
          (hswap_indexOK ss _ _ hilen hj hnd hids hidx)
      · rw [if_neg hlt]; exact hidx
    · rw [dif_neg h0]; exact hidx

/-- `down` keeps `IndexOK`. -/
theorem down_indexOK : ∀ (k : Nat) (ss : SpaceSaving) (i n : Nat), n - i ≤ k →
    n ≤ ss.heap.length → ss.heap.Nodup → IdsOK ss → IndexOK ss →
    IndexOK (downAux ss i n).1
  | 0, ss, i, n, hk, _, _, _, hidx => by
    unfold downAux
    rw [dif_neg (by omega)]
    exact hidx
  | k + 1, ss, i, n, hk, hn, hnd, hids, hidx => by
    unfold downAux
    by_cases h : 2 * i + 1 < n
    · rw [dif_pos h]
      obtain ⟨hci, hcn⟩ := child_bounds ss i n h
      by_cases hlt : cnt ss (child ss i n) < cnt ss i
      · rw [if_pos hlt]
        have hilen : i < ss.heap.length := Nat.lt_of_lt_of_le (by omega) hn
        have hclen : child ss i n < ss.heap.length := Nat.lt_of_lt_of_le hcn hn
        have hperm := hswap_heap_perm ss i (child ss i n) hilen hclen
        exact down_indexOK k (hswap ss i (child ss i n)) (child ss i n) n (by omega)
          (by rw [hswap_heap_length]; exact hn)
          (nodup_of_perm hperm hnd)
          (idsOK_of_perm hperm (hswap_store_length ss _ _) hids)
          (hswap_indexOK ss _ _ hilen hclen hnd hids hidx)
      · rw [if_neg hlt]; exact hidx
    · rw [dif_neg h]; exact hidx

/-- `Fix` keeps `IndexOK`. -/
theorem fixAt_indexOK (ss : SpaceSaving) (i : Nat) (hi : i < ss.heap.length)
    (hnd : ss.heap.Nodup) (hids : IdsOK ss) (hidx : IndexOK ss) :
    IndexOK (fixAt ss i) := by
  unfold fixAt
  obtain ⟨⟨c1, c2, c3, c4, c5⟩, _⟩ :=
    down_basic (ss.heap.length - i) ss i ss.heap.length (Nat.le_refl _) (Nat.le_refl _)
  have hidx' := down_indexOK (ss.heap.length - i) ss i ss.heap.length (Nat.le_refl _)
    (Nat.le_refl _) hnd hids hidx
  by_cases hmv : (downAux ss i ss.heap.length).2 > i
  · rw [if_pos hmv]; exact hidx'
  · rw [if_neg hmv]
    exact up_indexOK i _ (by rw [c4.length_eq]; exact hi)
      (nodup_of_perm c4 hnd) (idsOK_of_perm c4 c3 hids) hidx'

theorem getD_append_left {α : Type} (l l' : List α) (p : Nat) (d : α)
    (h : p < l.length) : (l ++ l').getD p d = l.getD p d := by
  have h2 : p < (l ++ l').length := by simp; omega
  rw [List.getD_eq_getElem _ _ h2, List.getD_eq_getElem _ _ h]
  exact List.getElem_append_left h

theorem getD_append_last {α : Type} (l : List α) (x d : α) :
    (l ++ [x]).getD l.length d = x := by
  have h2 : l.length < (l ++ [x]).length := by simp
  rw [List.getD_eq_getElem _ _ h2]
  simp

/-- The state `Push` acts on: node appended with its `Index` already set to
the last slot; the pushed state satisfies `IndexOK` and `up` keeps it. -/
theorem hpush_indexOK (ss : SpaceSaving) (k : String) (c e : Nat)
    (hnd : ss.heap.Nodup) (hids : IdsOK ss) (hidx : IndexOK ss) :
    IndexOK (hpush ss k c e) := by
  rw [hpush_def]
  have hlen0 : (ss.heap ++ [ss.store.length]).length = ss.heap.length + 1 := by simp
  set ss0 : SpaceSaving :=
    { ss with
      store := ss.store ++ [⟨k, c, e, (ss.heap.length : Int)⟩],
      heap := ss.heap ++ [ss.store.length] } with hss0
  have hfresh : ss.store.length ∉ ss.heap := fun hmem => Nat.lt_irrefl _ (hids _ hmem)
  have hnd0 : ss0.heap.Nodup := by
    show (ss.heap ++ [ss.store.length]).Nodup
    simp [List.nodup_append, hnd, hfresh]
  have hids0 : IdsOK ss0 := by
    intro id hid
    show id < (ss.store ++ [_]).length
    rcases List.mem_append.1 hid with hmem | hmem
    · have := hids id hmem
      simp
      omega
    · simp at hmem
      subst hmem
      simp
  have hidx0 : IndexOK ss0 := by
    intro p hp
    rw [List.mem_range] at hp
    show (getN (ss.store ++ [⟨k, c, e, (ss.heap.length : Int)⟩])
      ((ss.heap ++ [ss.store.length]).getD p 0)).index = (p : Int)
    rw [hlen0] at hp
    by_cases hplt : p < ss.heap.length
    · rw [getD_append_left _ _ _ _ hplt]
      have hidlt : heapId ss p < ss.store.length :=
        hids _ (heapId_mem ss p hplt)
      show (getN _ (heapId ss p)).index = _
      unfold getN
      rw [getD_append_left _ _ _ _ hidlt]
      exact hidx p (List.mem_range.2 hplt)
    · have hpe : p = ss.heap.length := by omega
      subst hpe
      rw [getD_append_last]
      unfold getN
      rw [getD_append_last]
  have hj : (ss.heap ++ [ss.store.length]).length - 1 < ss0.heap.length := by
    show _ < (ss.heap ++ [ss.store.length]).length
    simp
  exact up_indexOK _ ss0 hj hnd0 hids0 hidx0

/-- The `Init` loop keeps `IndexOK`. -/
theorem initDown_indexOK (n : Nat) : ∀ (c : Nat) (ss : SpaceSaving),
    n ≤ ss.heap.length → ss.heap.Nodup → IdsOK ss → IndexOK ss →
    IndexOK (initDown n ss c)
  | 0, ss, _, _, _, hidx => hidx
  | c + 1, ss, hn, hnd, hids, hidx => by
    unfold initDown
    obtain ⟨⟨_, _, d3, d4, _⟩, _⟩ := down_basic (n - c) ss c n (Nat.le_refl _) hn
    exact initDown_indexOK n c (downAux ss c n).1
      (by rw [d4.length_eq]; exact hn)
      (nodup_of_perm d4 hnd) (idsOK_of_perm d4 d3 hids)
      (down_indexOK (n - c) ss c n (Nat.le_refl _) hn hnd hids hidx)

theorem heapInit_indexOK (ss : SpaceSaving)
    (hnd : ss.heap.Nodup) (hids : IdsOK ss) (hidx : IndexOK ss) :
    IndexOK (heapInit ss) :=
  initDown_indexOK ss.heap.length (ss.heap.length / 2) ss (Nat.le_refl _) hnd hids hidx

/-- Transport of the structural invariant along the facts produced by the
heap primitives: equal items, permuted heap, key- and index-consistent store. -/
theorem Inv_transport (ss ss' : SpaceSaving)
    (hcap : ss'.capacity = ss.capacity) (hit : ss'.items = ss.items)
    (hsl : ss'.store.length = ss.store.length) (hperm : ss'.heap.Perm ss.heap)
    (hkey : ∀ x, (getN ss'.store x).key = (getN ss.store x).key)
    (hidx : IndexOK ss') (hinv : Inv ss) : Inv ss' := by
  obtain ⟨i1, i2, i3, i4, i5, _, i7⟩ := hinv
  refine ⟨by rw [hit]; exact i1, nodup_of_perm hperm i2, idsOK_of_perm hperm hsl i3,
    ?_, ?_, hidx, by rw [hperm.length_eq, hcap]; exact i7⟩
  · intro e he
    rw [hit] at he
    obtain ⟨m1, m2⟩ := i4 e he
    exact ⟨hperm.mem_iff.2 m1, by rw [hkey]; exact m2⟩
  · intro id hid
    rw [hit]
    have := i5 id (hperm.mem_iff.1 hid)
    rw [hkey]
    exact this

theorem getN_set (st : List Item) (id : Nat) (v : Item) (x : Nat) :
    getN (st.set id v) x = if id = x ∧ x < st.length then v else getN st x := by
  by_cases hx : id = x
  · subst hx
    by_cases h : id < st.length
    · rw [if_pos ⟨rfl, h⟩]
      unfold getN
      rw [getD_set_eq _ _ _ _ h]
    · rw [if_neg (by intro hc; exact h hc.2)]
      unfold getN
      rw [List.set_eq_of_length_le (Nat.le_of_not_lt h)]
  · rw [if_neg (by intro hc; exact hx hc.1)]
    unfold getN
    rw [getD_set_ne _ _ _ hx]

theorem getN_append_left (st : List Item) (l : List Item) (x : Nat)
    (h : x < st.length) : getN (st ++ l) x = getN st x := by
  unfold getN
  rw [getD_append_left _ _ _ _ h]

theorem getN_append_last (st : List Item) (v : Item) :
    getN (st ++ [v]) st.length = v := by
  unfold getN
  rw [getD_append_last]

theorem lookupItem_some_mem {ss : SpaceSaving} {k : String} {id : Nat}
    (h : lookupItem ss k = some id) : (k, id) ∈ ss.items := by
  unfold lookupItem at h
  rcases Option.map_eq_some'.1 h with ⟨e, he, hid⟩
  have hmem := List.mem_of_find?_eq_some he
  have hkey : e.1 == k := List.find?_some (p := fun q : String × Nat => q.1 == k) he
  have he2 : e = (k, id) := by
    rcases e with ⟨e1, e2⟩
    have hk : e1 = k := by simpa using hkey
    simp only at hid
    rw [hk, hid]
  rw [← he2]
  exact hmem

theorem lookupItem_none_forall {ss : SpaceSaving} {k : String}
    (h : lookupItem ss k = none) : ∀ e ∈ ss.items, e.1 ≠ k := by
  unfold lookupItem at h
  rw [Option.map_eq_none'] at h
  intro e he
  have := List.find?_eq_none.1 h e he
  simpa using this

theorem keys_nodup_unique {items : List (String × Nat)}
    (hnd : (items.map Prod.fst).Nodup) {k : String} {a b : Nat}
    (h1 : (k, a) ∈ items) (h2 : (k, b) ∈ items) : a = b := by
  induction items with
  | nil => exact absurd h1 (List.not_mem_nil _)
  | cons e t ih =>
    rw [List.map_cons, List.nodup_cons] at hnd
    rcases List.mem_cons.1 h1 with hh1 | ht1 <;> rcases List.mem_cons.1 h2 with hh2 | ht2
    · rw [← hh1] at hh2
      injection hh2 with h1 h2
      exact h2.symm
    · exfalso
      apply hnd.1
      rw [← hh1]
      exact List.mem_map.2 ⟨(k, b), ht2, rfl⟩
    · exfalso
      apply hnd.1
      rw [← hh2]
      exact List.mem_map.2 ⟨(k, a), ht1, rfl⟩
    · exact ih hnd.2 ht1 ht2

/-- The heap slot of a map entry: under the invariant, the node's `Index`
field names the slot that holds the node's id. -/
theorem inv_entry_slot {ss : SpaceSaving} (hinv : Inv ss) {k : String} {id : Nat}
    (hmem : (k, id) ∈ ss.items) :
    ∃ p, p < ss.heap.length ∧ heapId ss p = id ∧
      (getN ss.store id).index = (p : Int) := by
  obtain ⟨_, _, _, i4, _, i6, _⟩ := hinv
  obtain ⟨hidheap, _⟩ := i4 (k, id) hmem
  obtain ⟨p, hp, hpe⟩ := List.mem_iff_getElem.1 hidheap
  have hpid : heapId ss p = id := by
    unfold heapId
    rw [List.getD_eq_getElem _ _ hp]
    exact hpe
  refine ⟨p, hp, hpid, ?_⟩
  have := i6 p (List.mem_range.2 hp)
  rw [hpid] at this
  exact this

theorem ssAdd_existing {ss : SpaceSaving} {k : String} {id : Nat} (n : Nat)
    (h : lookupItem ss k = some id) :
    ssAdd ss k n =
      fixAt { ss with
          store :=
            ss.store.set id
              ({ getN ss.store id with
                  count := ((getN ss.store id).count + n) % 2 ^ 64 }) }
        (getN ss.store id).index.toNat := by
  unfold ssAdd
  rw [h]

theorem ssAdd_push {ss : SpaceSaving} {k : String} (n : Nat)
    (h : lookupItem ss k = none) (hcap : ss.heap.length < ss.capacity) :
    ssAdd ss k n = hpush { ss with items := ss.items ++ [(k, ss.store.length)] } k n 0 := by
  unfold ssAdd
  rw [h]
  simp only [if_pos hcap]

theorem ssAdd_evict {ss : SpaceSaving} {k : String} (n : Nat) {r : Nat} {rest : List Nat}
    (h : lookupItem ss k = none) (hcap : ¬ ss.heap.length < ss.capacity)
    (hh : ss.heap = r :: rest) :
    ssAdd ss k n =
      fixAt { ss with
          store :=
            ss.store.set r
              ({ getN ss.store r with
                  key := k,
                  count := ((getN ss.store r).count + n) % 2 ^ 64,
                  error := (getN ss.store r).count }),
          items := (ss.items.filter fun e => ¬ (e.1 = (getN ss.store r).key)) ++ [(k, r)] }
        0 := by
  unfold ssAdd
  rw [h]
  simp only [if_neg hcap]
  rw [hh]

/-- `Add` on an existing key preserves the structural invariant. -/
theorem ssAdd_existing_inv {ss : SpaceSaving} {k : String} {id : Nat} (n : Nat)
    (hinv : Inv ss) (h : lookupItem ss k = some id) : Inv (ssAdd ss k n) := by
  rw [ssAdd_existing n h]
  set ss1 : SpaceSaving := { ss with
      store :=
        ss.store.set id
          ({ getN ss.store id with
              count := ((getN ss.store id).count + n) % 2 ^ 64 }) } with hss1
  have hkey1 : ∀ x, (getN ss1.store x).key = (getN ss.store x).key := by
    intro x
    show (getN (ss.store.set id _) x).key = _
    rw [getN_set]
    by_cases hc : id = x ∧ x < ss.store.length
    · rw [if_pos hc, ← hc.1]
    · rw [if_neg hc]
  have hidx1 : IndexOK ss1 := by
    intro p hp
    have hidxeq : ∀ x, (getN ss1.store x).index = (getN ss.store x).index := by
      intro x
      show (getN (ss.store.set id _) x).index = _
      rw [getN_set]
      by_cases hc : id = x ∧ x < ss.store.length
      · rw [if_pos hc, ← hc.1]
      · rw [if_neg hc]
    rw [hidxeq]
    exact hinv.2.2.2.2.2.1 p hp
  have hinv1 : Inv ss1 :=
    Inv_transport ss ss1 rfl rfl (by rw [hss1]; simp) (List.Perm.refl _) hkey1 hidx1 hinv
  obtain ⟨p, hp, hpid, hpidx⟩ := inv_entry_slot hinv (lookupItem_some_mem h)
  have hplen : (getN ss.store id).index.toNat < ss1.heap.length := by
    rw [hpidx]
    simpa using hp
  obtain ⟨f1, f2, f3, f4, f5⟩ := fixAt_basic ss1 _ hplen
  exact Inv_transport ss1 _ f1 f2 f3 f4
    (fun x => key_eq_of_strip (f5 x))
    (fixAt_indexOK ss1 _ hplen hinv1.2.1 hinv1.2.2.1 hidx1)
    hinv1

/-- `Add` of a fresh key below capacity preserves the structural invariant. -/
theorem ssAdd_push_inv {ss : SpaceSaving} {k : String} (n : Nat)
    (hinv : Inv ss) (h : lookupItem ss k = none)
    (hcap : ss.heap.length < ss.capacity) : Inv (ssAdd ss k n) := by
  rw [ssAdd_push n h hcap]
  obtain ⟨i1, i2, i3, i4, i5, i6, i7⟩ := hinv
  set ss0 : SpaceSaving := { ss with items := ss.items ++ [(k, ss.store.length)] } with hss0
  have hknew : k ∉ ss.items.map Prod.fst := by
    intro hmem
    rcases List.mem_map.1 hmem with ⟨e, he, hke⟩
    exact lookupItem_none_forall h e he hke
  obtain ⟨p1, p2, p3, p4, p5⟩ := hpush_basic ss0 k n 0
  have p2' : (hpush ss0 k n 0).items = ss.items ++ [(k, ss.store.length)] := p2
  have p3' : (hpush ss0 k n 0).store.length = ss.store.length + 1 := p3
  have p4' : (hpush ss0 k n 0).heap.Perm (ss.heap ++ [ss.store.length]) := p4
  have p5' : ∀ x, strip (getN (hpush ss0 k n 0).store x) =
      strip (getN (ss.store ++ [⟨k, n, 0, (ss.heap.length : Int)⟩]) x) := p5
  have hidx' : IndexOK (hpush ss0 k n 0) := hpush_indexOK ss0 k n 0 i2 i3 i6
  refine ⟨?_, ?_, ?_, ?_, ?_, hidx', ?_⟩
  · rw [p2']
    rw [List.map_append]
    simp only [List.map_cons, List.map_nil]
    rw [List.nodup_append]
    exact ⟨i1, List.nodup_singleton k, by simpa using hknew⟩
  · refine p4'.nodup_iff.2 ?_
    rw [List.nodup_append]
    refine ⟨i2, List.nodup_singleton _, ?_⟩
    intro a ha hb
    simp at hb
    subst hb
    exact Nat.lt_irrefl _ (i3 _ ha)
  · intro id hid
    rw [p3']
    have := p4'.mem_iff.1 hid
    rcases List.mem_append.1 this with hmem | hmem
    · have := i3 id hmem
      omega
    · simp at hmem
      omega
  · intro e he
    rw [p2'] at he
    have hkeyx : ∀ x, (getN (hpush ss0 k n 0).store x).key =
        (getN (ss.store ++ [⟨k, n, 0, (ss.heap.length : Int)⟩]) x).key :=
      fun x => key_eq_of_strip (p5' x)
    rcases List.mem_append.1 he with hmem | hmem
    · obtain ⟨m1, m2⟩ := i4 e hmem
      refine ⟨p4'.mem_iff.2 (List.mem_append.2 (Or.inl m1)), ?_⟩
      rw [hkeyx, getN_append_left _ _ _ (i3 _ m1)]
      exact m2
    · simp only [List.mem_singleton] at hmem
      subst hmem
      refine ⟨p4'.mem_iff.2 (List.mem_append.2 (Or.inr (by simp))), ?_⟩
      rw [hkeyx, getN_append_last]
  · intro id hid
    rw [p2']
    have hkeyx : ∀ x, (getN (hpush ss0 k n 0).store x).key =
        (getN (ss.store ++ [⟨k, n, 0, (ss.heap.length : Int)⟩]) x).key :=
      fun x => key_eq_of_strip (p5' x)
    rcases List.mem_append.1 (p4'.mem_iff.1 hid) with hmem | hmem
    · rw [hkeyx, getN_append_left _ _ _ (i3 _ hmem)]
      exact List.mem_append.2 (Or.inl (i5 id hmem))
    · simp only [List.mem_singleton] at hmem
      subst hmem
      rw [hkeyx, getN_append_last]
      exact List.mem_append.2 (Or.inr (by simp))
  · rw [p4'.length_eq]
    have p1' : (hpush ss0 k n 0).capacity = ss.capacity := p1
    rw [p1']
    simp only [List.length_append, List.length_singleton]
    omega

/-- `Add` of a fresh key at capacity (eviction) preserves the structural
invariant. -/
theorem ssAdd_evict_inv {ss : SpaceSaving} {k : String} (n : Nat) {r : Nat}
    {rest : List Nat} (hinv : Inv ss) (h : lookupItem ss k = none)
    (hcap : ¬ ss.heap.length < ss.capacity) (hh : ss.heap = r :: rest) :
    Inv (ssAdd ss k n) := by
  rw [ssAdd_evict n h hcap hh]
  obtain ⟨i1, i2, i3, i4, i5, i6, i7⟩ := hinv
  have hrmem : r ∈ ss.heap := by rw [hh]; exact List.mem_cons_self _ _
  have hrlen : r < ss.store.length := i3 r hrmem
  set newNode : Item :=
    { getN ss.store r with
      key := k,
      count := ((getN ss.store r).count + n) % 2 ^ 64,
      error := (getN ss.store r).count } with hnew
  set ss1 : SpaceSaving := { ss with
      store := ss.store.set r newNode,
      items := (ss.items.filter fun e => ¬ (e.1 = (getN ss.store r).key)) ++ [(k, r)] }
    with hss1
  have hknew : ∀ e ∈ ss.items, e.1 ≠ k := lookupItem_none_forall h
  have hkeyx : ∀ x, x ≠ r → (getN ss1.store x).key = (getN ss.store x).key := by
    intro x hx
    show (getN (ss.store.set r newNode) x).key = _
    rw [getN_set, if_neg (by intro hc; exact hx hc.1.symm)]
  have hkeyr : (getN ss1.store r).key = k := by
    show (getN (ss.store.set r newNode) r).key = k
    rw [getN_set, if_pos ⟨rfl, hrlen⟩]
  have hfilter_sub : ∀ e, e ∈ (ss.items.filter fun e => ¬ (e.1 = (getN ss.store r).key)) →
      e ∈ ss.items := fun e he => List.mem_of_mem_filter he
  have hinv1 : Inv ss1 := by
    refine ⟨?_, i2, ?_, ?_, ?_, ?_, i7⟩
    · show (((ss.items.filter _) ++ [(k, r)]).map Prod.fst).Nodup
      rw [List.map_append]
      simp only [List.map_cons, List.map_nil]
      rw [List.nodup_append]
      refine ⟨(List.filter_sublist _).map Prod.fst |>.nodup i1, List.nodup_singleton _, ?_⟩
      intro a ha hb
      simp only [List.mem_singleton] at hb
      subst hb
      rcases List.mem_map.1 ha with ⟨e, he, hke⟩
      exact hknew e (hfilter_sub e he) hke
    · intro id hid
      show id < (ss.store.set r newNode).length
      rw [List.length_set]
      exact i3 id hid
    · intro e he
      rcases List.mem_append.1 he with hmem | hmem
      · have hin := hfilter_sub e hmem
        have hne : ¬ (e.1 = (getN ss.store r).key) := by
          have := List.of_mem_filter hmem
          simpa using this
        obtain ⟨m1, m2⟩ := i4 e hin
        have henr : e.2 ≠ r := by
          intro her
          apply hne
          rw [← m2, her]
        exact ⟨m1, by rw [hkeyx _ henr]; exact m2⟩
      · simp only [List.mem_singleton] at hmem
        subst hmem
        exact ⟨hrmem, hkeyr⟩
    · intro id hid
      by_cases hidr : id = r
      · subst hidr
        rw [hkeyr]
        exact List.mem_append.2 (Or.inr (by simp))
      · rw [hkeyx _ hidr]
        refine List.mem_append.2 (Or.inl ?_)
        rw [List.mem_filter]
        refine ⟨i5 id hid, ?_⟩
        simp only [decide_eq_true_eq]
        intro hkeq
        · have h1 := i5 id hid
          have h2 := i5 r hrmem
          rw [hkeq] at h1
          exact hidr (keys_nodup_unique i1 h1 h2)
    · intro p hp
      have hidxeq : ∀ x, (getN ss1.store x).index = (getN ss.store x).index := by
        intro x
        show (getN (ss.store.set r newNode) x).index = _
        rw [getN_set]
        by_cases hc : r = x ∧ x < ss.store.length
        · rw [if_pos hc, ← hc.1]
        · rw [if_neg hc]
      rw [hidxeq]
      exact i6 p hp
  have h0len : 0 < ss1.heap.length := by
    show 0 < ss.heap.length
    rw [hh]
    simp
  obtain ⟨f1, f2, f3, f4, f5⟩ := fixAt_basic ss1 0 h0len
  exact Inv_transport ss1 _ f1 f2 f3 f4
    (fun x => key_eq_of_strip (f5 x))
    (fixAt_indexOK ss1 0 h0len hinv1.2.1 hinv1.2.2.1 hinv1.2.2.2.2.2.1)
    hinv1

/-- `SpaceSaving.Add` preserves the structural invariant. -/
theorem ssAdd_inv (ss : SpaceSaving) (k : String) (n : Nat) (hinv : Inv ss) :
    Inv (ssAdd ss k n) := by
  cases hlk : lookupItem ss k with
  | some id => exact ssAdd_existing_inv n hinv hlk
  | none =>
    by_cases hcap : ss.heap.length < ss.capacity
    · exact ssAdd_push_inv n hinv hlk hcap
    · cases hh : ss.heap with
      | nil =>
        unfold ssAdd
        rw [hlk]
        simp only [if_neg hcap]
        rw [hh]
        exact hinv
      | cons r rest => exact ssAdd_evict_inv n hinv hlk hcap hh

/-- One step of the `Decay` iteration over the map: rewrite the entry's
node's count and error through the decay function. -/
def decayNode (g : Nat → Nat) (st : List Item) (e : String × Nat) : List Item :=
  st.set e.2
    { getN st e.2 with
      count := g (getN st e.2).count,
      error := g (getN st e.2).error }

theorem ssDecay_def (ss : SpaceSaving) (g : Nat → Nat) :
    ssDecay ss g = heapInit { ss with store := ss.items.foldl (decayNode g) ss.store } := rfl

/-- The decay fold over the store only rewrites counts and errors. -/
theorem decayFold_facts (g : Nat → Nat) :
    ∀ (entries : List (String × Nat)) (st : List Item),
      (entries.foldl (decayNode g) st).length = st.length ∧
      (∀ x, (getN (entries.foldl (decayNode g) st) x).key = (getN st x).key ∧
        (getN (entries.foldl (decayNode g) st) x).index = (getN st x).index)
  | [], st => ⟨rfl, fun _ => ⟨rfl, rfl⟩⟩
  | e :: t, st => by
    rw [List.foldl_cons]
    obtain ⟨ih1, ih2⟩ := decayFold_facts g t (decayNode g st e)
    have hlen : (decayNode g st e).length = st.length := by
      unfold decayNode
      simp
    refine ⟨by rw [ih1, hlen], ?_⟩
    intro x
    obtain ⟨k1, k2⟩ := ih2 x
    rw [k1, k2]
    unfold decayNode
    rw [getN_set]
    by_cases hc : e.2 = x ∧ x < st.length
    · rw [if_pos hc, ← hc.1]
      exact ⟨rfl, rfl⟩
    · rw [if_neg hc]
      exact ⟨rfl, rfl⟩

/-- `SpaceSaving.Decay` preserves the structural invariant (for any decay
function). -/
theorem ssDecay_inv (ss : SpaceSaving) (g : Nat → Nat) (hinv : Inv ss) :
    Inv (ssDecay ss g) := by
  rw [ssDecay_def]
  obtain ⟨d1, d2⟩ := decayFold_facts g ss.items ss.store
  have hidx1 : IndexOK { ss with store := ss.items.foldl (decayNode g) ss.store } := by
    intro p hp
    show (getN (ss.items.foldl (decayNode g) ss.store) (heapId ss p)).index = _
    rw [(d2 _).2]
    exact hinv.2.2.2.2.2.1 p hp
  have hinv1 : Inv { ss with store := ss.items.foldl (decayNode g) ss.store } :=
    Inv_transport ss _ rfl rfl d1 (List.Perm.refl _) (fun x => (d2 x).1) hidx1 hinv
  obtain ⟨h1, h2, h3, h4, h5⟩ := heapInit_basic { ss with store := ss.items.foldl (decayNode g) ss.store }
  exact Inv_transport _ _ h1 h2 h3 h4 (fun x => key_eq_of_strip (h5 x))
    (heapInit_indexOK _ hinv1.2.1 hinv1.2.2.1 hinv1.2.2.2.2.2.1) hinv1

/-- `SpaceSaving.Clear` preserves the structural invariant. -/
theorem ssClear_inv (ss : SpaceSaving) : Inv (ssClear ss) := by
  refine ⟨List.nodup_nil, List.nodup_nil, ?_, ?_, ?_, ?_, Nat.zero_le _⟩
  · intro id hid
    exact absurd hid (List.not_mem_nil id)
  · intro e he
    exact absurd he (List.not_mem_nil e)
  · intro id hid
    exact absurd hid (List.not_mem_nil id)
  · intro p hp
    simp [ssClear] at hp

/-! ### Operation sequences on the Space-Saving structure -/

/-- The operations of claims C2 and C10 (`Decay`'s float scaling is
abstracted as the function applied to each count). -/
inductive SSOp where
  | add (k : String) (n : Nat)
  | decay (g : Nat → Nat)
  | clear

/-- Apply one operation. -/
def applySSOp (ss : SpaceSaving) : SSOp → SpaceSaving
  | .add k n => ssAdd ss k n
  | .decay g => ssDecay ss g
  | .clear => ssClear ss

/-- Run a sequence of operations from a state. -/
def runSS (ss : SpaceSaving) (ops : List SSOp) : SpaceSaving :=
  ops.foldl applySSOp ss

theorem ssNew_inv (c : Nat) : Inv (ssNew c) := by
  refine ⟨List.nodup_nil, List.nodup_nil, ?_, ?_, ?_, ?_, Nat.zero_le _⟩
  · intro id hid
    exact absurd hid (List.not_mem_nil id)
  · intro e he
    exact absurd he (List.not_mem_nil e)
  · intro id hid
    exact absurd hid (List.not_mem_nil id)
  · intro p hp
    simp [ssNew] at hp

theorem runSS_inv (ss : SpaceSaving) (ops : List SSOp) (hinv : Inv ss) :
    Inv (runSS ss ops) := by
  induction ops generalizing ss with
  | nil => exact hinv
  | cons op t ih =>
    rw [runSS, List.foldl_cons, ← runSS]
    apply ih
    cases op with
    | add k n => exact ssAdd_inv ss k n hinv
    | decay g => exact ssDecay_inv ss g hinv
    | clear => exact ssClear_inv ss

/-! Capacity is never written by any operation. -/

theorem up_capacity_eq (j : Nat) (ss : SpaceSaving) : (up ss j).capacity = ss.capacity := by
  induction j using Nat.strong_induction_on generalizing ss with
  | _ j ih =>
    unfold up
    by_cases h0 : 0 < j
    · rw [dif_pos h0]
      by_cases hlt : cnt ss j < cnt ss ((j - 1) / 2)
      · rw [if_pos hlt]
        rw [ih _ (Nat.lt_of_le_of_lt (Nat.div_le_self _ 2) (Nat.sub_lt h0 Nat.one_pos))]
        rfl
      · rw [if_neg hlt]
    · rw [dif_neg h0]

theorem down_capacity_eq : ∀ (k : Nat) (ss : SpaceSaving) (i n : Nat), n - i ≤ k →
    (downAux ss i n).1.capacity = ss.capacity
  | 0, ss, i, n, hk => by
    unfold downAux
    rw [dif_neg (by omega)]
  | k + 1, ss, i, n, hk => by
    unfold downAux
    by_cases h : 2 * i + 1 < n
    · rw [dif_pos h]
      obtain ⟨hci, _⟩ := child_bounds ss i n h
      by_cases hlt : cnt ss (child ss i n) < cnt ss i
      · rw [if_pos hlt]
        rw [down_capacity_eq k _ _ n (by omega)]
        rfl
      · rw [if_neg hlt]
    · rw [dif_neg h]

theorem fixAt_capacity_eq (ss : SpaceSaving) (i : Nat) :
    (fixAt ss i).capacity = ss.capacity := by
  unfold fixAt
  by_cases hmv : (downAux ss i ss.heap.length).2 > i
  · rw [if_pos hmv]
    exact down_capacity_eq (ss.heap.length - i) ss i ss.heap.length (Nat.le_refl _)
  · rw [if_neg hmv]
    rw [up_capacity_eq]
    exact down_capacity_eq (ss.heap.length - i) ss i ss.heap.length (Nat.le_refl _)

theorem ssAdd_capacity_eq (ss : SpaceSaving) (k : String) (n : Nat) :
    (ssAdd ss k n).capacity = ss.capacity := by
  unfold ssAdd
  cases lookupItem ss k with
  | some id => exact fixAt_capacity_eq _ _
  | none =>
    by_cases hcap : ss.heap.length < ss.capacity
    · rw [if_pos hcap]
      rw [hpush_def, up_capacity_eq]
    · rw [if_neg hcap]
      cases ss.heap with
      | nil => rfl
      | cons r rest => exact fixAt_capacity_eq _ _

theorem initDown_capacity_eq (n : Nat) : ∀ (c : Nat) (ss : SpaceSaving),
    (initDown n ss c).capacity = ss.capacity
  | 0, _ => rfl
  | c + 1, ss => by
    unfold initDown
    rw [initDown_capacity_eq n c]
    exact down_capacity_eq ((n : Nat) - c) ss c n (Nat.le_refl _)

theorem ssDecay_capacity_eq (ss : SpaceSaving) (g : Nat → Nat) :
    (ssDecay ss g).capacity = ss.capacity := by
  show (heapInit _).capacity = _
  unfold heapInit
  rw [initDown_capacity_eq]

theorem runSS_capacity_eq (ss : SpaceSaving) (ops : List SSOp) :
    (runSS ss ops).capacity = ss.capacity := by
  induction ops generalizing ss with
  | nil => rfl
  | cons op t ih =>
    rw [runSS, List.foldl_cons, ← runSS, ih]
    cases op with
    | add k n => exact ssAdd_capacity_eq ss k n
    | decay g => exact ssDecay_capacity_eq ss g
    | clear => rfl

/-- **C10**: after any sequence of `Add`, `Decay` and `Clear` operations from
a fresh Space-Saving structure of capacity `c ≥ 1`, the key→node map and the
min-heap describe exactly the same collection: every map entry's node holds
that key and sits in the heap slot named by its `Index` field
(`heap[node.Index] == node`), every heap node is reachable from the map under
its key, and the number of nodes never exceeds the capacity. -/
theorem ss_heap_map_consistency (c : Nat) (ops : List SSOp) (hc : 1 ≤ c) :
    (∀ e ∈ (runSS (ssNew c) ops).items,
        (getN (runSS (ssNew c) ops).store e.2).key = e.1 ∧
        0 ≤ (getN (runSS (ssNew c) ops).store e.2).index ∧
        (getN (runSS (ssNew c) ops).store e.2).index.toNat <
          (runSS (ssNew c) ops).heap.length ∧
        heapId (runSS (ssNew c) ops)
          (getN (runSS (ssNew c) ops).store e.2).index.toNat = e.2) ∧
    (∀ id ∈ (runSS (ssNew c) ops).heap,
        ((getN (runSS (ssNew c) ops).store id).key, id) ∈ (runSS (ssNew c) ops).items) ∧
    (runSS (ssNew c) ops).heap.length ≤ c := by
  have hinv : Inv (runSS (ssNew c) ops) := runSS_inv _ ops (ssNew_inv c)
  obtain ⟨i1, i2, i3, i4, i5, i6, i7⟩ := hinv
  refine ⟨?_, i5, ?_⟩
  · rintro ⟨ek, eid⟩ he
    obtain ⟨_, hk⟩ := i4 _ he
    obtain ⟨p, hp, hpid, hpidx⟩ :=
      inv_entry_slot ⟨i1, i2, i3, i4, i5, i6, i7⟩ he
    refine ⟨hk, ?_, ?_, ?_⟩
    · rw [hpidx]
      exact Int.natCast_nonneg p
    · rw [hpidx]
      simpa using hp
    · rw [hpidx]
      simpa using hpid
  · have hcap' : (runSS (ssNew c) ops).capacity = c := runSS_capacity_eq (ssNew c) ops
    exact Nat.le_trans i7 (Nat.le_of_eq hcap')

/-- Witness for `ss_heap_map_consistency` at a concrete run: capacity 2 with
adds (including an eviction), a decay, a clear and a further add. -/
theorem ss_heap_map_consistency_witness :
    1 ≤ 2 ∧
    ((∀ e ∈ (runSS (ssNew 2) [.add "a" 1, .add "b" 2, .add "c" 5,
          .decay (fun x => x / 2), .clear, .add "d" 7]).items,
        (getN (runSS (ssNew 2) [.add "a" 1, .add "b" 2, .add "c" 5,
          .decay (fun x => x / 2), .clear, .add "d" 7]).store e.2).key = e.1 ∧
        0 ≤ (getN (runSS (ssNew 2) [.add "a" 1, .add "b" 2, .add "c" 5,
          .decay (fun x => x / 2), .clear, .add "d" 7]).store e.2).index ∧
        (getN (runSS (ssNew 2) [.add "a" 1, .add "b" 2, .add "c" 5,
          .decay (fun x => x / 2), .clear, .add "d" 7]).store e.2).index.toNat <
          (runSS (ssNew 2) [.add "a" 1, .add "b" 2, .add "c" 5,
            .decay (fun x => x / 2), .clear, .add "d" 7]).heap.length ∧
        heapId (runSS (ssNew 2) [.add "a" 1, .add "b" 2, .add "c" 5,
            .decay (fun x => x / 2), .clear, .add "d" 7])
          (getN (runSS (ssNew 2) [.add "a" 1, .add "b" 2, .add "c" 5,
            .decay (fun x => x / 2), .clear, .add "d" 7]).store e.2).index.toNat = e.2) ∧
    (∀ id ∈ (runSS (ssNew 2) [.add "a" 1, .add "b" 2, .add "c" 5,
          .decay (fun x => x / 2), .clear, .add "d" 7]).heap,
        ((getN (runSS (ssNew 2) [.add "a" 1, .add "b" 2, .add "c" 5,
          .decay (fun x => x / 2), .clear, .add "d" 7]).store id).key, id) ∈
          (runSS (ssNew 2) [.add "a" 1, .add "b" 2, .add "c" 5,
            .decay (fun x => x / 2), .clear, .add "d" 7]).items) ∧
    (runSS (ssNew 2) [.add "a" 1, .add "b" 2, .add "c" 5,
      .decay (fun x => x / 2), .clear, .add "d" 7]).heap.length ≤ 2) :=
  ⟨by decide,
   ss_heap_map_consistency 2 [.add "a" 1, .add "b" 2, .add "c" 5,
     .decay (fun x => x / 2), .clear, .add "d" 7] (by decide)⟩

/-! ### The min-heap ordering invariant

`SpaceSavingHeap.Less` compares counts; the heap property states that every
slot's parent `(j-1)/2` holds a count no larger than the slot's. -/

/-- The min-heap ordering over counts. -/
def heapOrd (ss : SpaceSaving) : Prop :=
  ∀ j, j < ss.heap.length → 0 < j → cnt ss ((j - 1) / 2) ≤ cnt ss j

/-- In an ordered heap the root holds the minimum count. -/
theorem heapOrd_root_min {ss : SpaceSaving} (h : heapOrd ss) :
    ∀ p, p < ss.heap.length → cnt ss 0 ≤ cnt ss p := by
  intro p
  induction p using Nat.strong_induction_on with
  | _ p ih =>
    intro hp
    by_cases h0 : 0 < p
    · have hpar : (p - 1) / 2 < p :=
        Nat.lt_of_le_of_lt (Nat.div_le_self _ 2) (Nat.sub_lt h0 Nat.one_pos)
      exact Nat.le_trans (ih _ hpar (Nat.lt_trans hpar hp)) (h p hp h0)
    · have : p = 0 := by omega
      subst this
      exact Nat.le_refl _

theorem cnt_hswap (ss : SpaceSaving) (i j p : Nat)
    (hi : i < ss.heap.length) (hj : j < ss.heap.length) :
    cnt (hswap ss i j) p =
      if p = j then cnt ss i else if p = i then cnt ss j else cnt ss p := by
  have hc : ∀ x, (getN (hswap ss i j).store x).count = (getN ss.store x).count :=
    fun x => count_eq_of_strip (hswap_strip ss i j x)
  show (getN (hswap ss i j).store (heapId (hswap ss i j) p)).count = _
  rw [hc, heapId_hswap ss i j p hi hj]
  by_cases hpj : p = j
  · rw [if_pos hpj, if_pos hpj]
    rfl
  · rw [if_neg hpj, if_neg hpj]
    by_cases hpi : p = i
    · rw [if_pos hpi, if_pos hpi]
      rfl
    · rw [if_neg hpi, if_neg hpi]
      rfl

theorem parent_eq_iff (c i : Nat) (hc : 0 < c) :
    (c - 1) / 2 = i ↔ c = 2 * i + 1 ∨ c = 2 * i + 2 := by
  omega

/-- Precondition under which `up j` restores the full ordering: every edge not
ending at `j` is ordered, and `j`'s children dominate `j`'s parent. -/
def UpOK (ss : SpaceSaving) (j : Nat) : Prop :=
  (∀ c, c < ss.heap.length → 0 < c → c ≠ j → cnt ss ((c - 1) / 2) ≤ cnt ss c) ∧
  (∀ c, c < ss.heap.length → 0 < c → (c - 1) / 2 = j → 0 < j →
    cnt ss ((j - 1) / 2) ≤ cnt ss c)

/-- `up` restores the heap ordering from an `UpOK` state. -/
theorem up_restores (j : Nat) (ss : SpaceSaving) (hj : j < ss.heap.length)
    (h : UpOK ss j) : heapOrd (up ss j) := by
  induction j using Nat.strong_induction_on generalizing ss with
  | _ j ih =>
    unfold up
    by_cases h0 : 0 < j
    · rw [dif_pos h0]
      by_cases hlt : cnt ss j < cnt ss ((j - 1) / 2)
      · rw [if_pos hlt]
        have hpar : (j - 1) / 2 < j :=
          Nat.lt_of_le_of_lt (Nat.div_le_self _ 2) (Nat.sub_lt h0 Nat.one_pos)
        have hilen : (j - 1) / 2 < ss.heap.length := Nat.lt_trans hpar hj
        refine ih _ hpar (hswap ss ((j - 1) / 2) j)
          (by rw [hswap_heap_length]; exact hilen) ?_
        set i := (j - 1) / 2 with hidef
        have hcs : ∀ p, cnt (hswap ss i j) p =
            if p = j then cnt ss i else if p = i then cnt ss j else cnt ss p :=
          fun p => cnt_hswap ss i j p hilen hj
        constructor
        · intro c hclen hc0 hci
          rw [hswap_heap_length] at hclen
          simp only [hcs]
          by_cases hcj : c = j
          · rw [if_pos hcj, if_neg (show ¬ (c - 1) / 2 = j by omega),
              if_pos (show (c - 1) / 2 = i by omega)]
            exact Nat.le_of_lt hlt
          · rw [if_neg hcj, if_neg hci]
            by_cases hpj : (c - 1) / 2 = j
            · rw [if_pos hpj]
              exact h.2 c hclen hc0 hpj h0
            · rw [if_neg hpj]
              by_cases hpi : (c - 1) / 2 = i
              · rw [if_pos hpi]
                exact Nat.le_trans (Nat.le_of_lt hlt) (hpi ▸ h.1 c hclen hc0 hcj)
              · rw [if_neg hpi]
                exact h.1 c hclen hc0 hcj
        · intro c hclen hc0 hpc hi0
          rw [hswap_heap_length] at hclen
          simp only [hcs]
          have hc2i : 2 * i + 1 ≤ c := by omega
          rw [if_neg (show ¬ (i - 1) / 2 = j by omega),
            if_neg (show ¬ (i - 1) / 2 = i by omega)]
          have hedge_i : cnt ss ((i - 1) / 2) ≤ cnt ss i :=
            h.1 i hilen hi0 (by omega)
          by_cases hcj : c = j
          · rw [if_pos hcj]
            exact hedge_i
          · rw [if_neg hcj, if_neg (show ¬ c = i by omega)]
            exact Nat.le_trans hedge_i (hpc ▸ h.1 c hclen hc0 hcj)
      · rw [if_neg hlt]
        intro c hclen hc0
        by_cases hcj : c = j
        · subst hcj
          exact Nat.le_of_not_lt hlt
        · exact h.1 c hclen hc0 hcj
    · rw [dif_neg h0]
      intro c hclen hc0
      exact h.1 c hclen hc0 (by omega)

/-- The selected child has the smaller count of the two children. -/
theorem child_min (ss : SpaceSaving) (i n : Nat) (h : 2 * i + 1 < n) :
    cnt ss (child ss i n) ≤ cnt ss (2 * i + 1) ∧
    (2 * i + 2 < n → cnt ss (child ss i n) ≤ cnt ss (2 * i + 2)) := by
  unfold child
  by_cases hc : 2 * i + 2 < n ∧ cnt ss (2 * i + 2) < cnt ss (2 * i + 1)
  · rw [if_pos hc]
    exact ⟨Nat.le_of_lt hc.2, fun _ => Nat.le_refl _⟩
  · rw [if_neg hc]
    refine ⟨Nat.le_refl _, fun h2 => ?_⟩
    rcases Nat.lt_or_ge (cnt ss (2 * i + 2)) (cnt ss (2 * i + 1)) with hlt | hge
    · exact absurd ⟨h2, hlt⟩ hc
    · exact hge

/-- Precondition under which `down i` restores the full ordering: every edge
whose parent is not `i` is ordered, and `i`'s children dominate `i`'s
parent. -/
def DownOK (ss : SpaceSaving) (i : Nat) : Prop :=
  (∀ c, c < ss.heap.length → 0 < c → (c - 1) / 2 ≠ i → cnt ss ((c - 1) / 2) ≤ cnt ss c) ∧
  (∀ c, c < ss.heap.length → 0 < c → (c - 1) / 2 = i → 0 < i →
    cnt ss ((i - 1) / 2) ≤ cnt ss c)

/-- `down` over the whole heap restores the heap ordering from a `DownOK`
state. -/
theorem down_restores : ∀ (f : Nat) (ss : SpaceSaving) (i : Nat),
    ss.heap.length - i ≤ f → DownOK ss i →
    heapOrd (downAux ss i ss.heap.length).1
  | 0, ss, i, hf, h => by
    unfold downAux
    rw [dif_neg (by omega)]
    show heapOrd ss
    intro c hclen hc0
    by_cases hp : (c - 1) / 2 = i
    · omega
    · exact h.1 c hclen hc0 hp
  | f + 1, ss, i, hf, h => by
    unfold downAux
    by_cases hcb : 2 * i + 1 < ss.heap.length
    · rw [dif_pos hcb]
      obtain ⟨hci, hcn⟩ := child_bounds ss i ss.heap.length hcb
      obtain ⟨hm1, hm2⟩ := child_min ss i ss.heap.length hcb
      have hilen2 : i < ss.heap.length := by omega
      by_cases hlt : cnt ss (child ss i ss.heap.length) < cnt ss i
      · rw [if_pos hlt]
        set j := child ss i ss.heap.length with hjdef
        have hjpar : (j - 1) / 2 = i := by
          have : j = 2 * i + 1 ∨ j = 2 * i + 2 := by
            rw [hjdef]
            unfold child
            split
            · exact Or.inr rfl
            · exact Or.inl rfl
          omega
        have hcs : ∀ p, cnt (hswap ss i j) p =
            if p = j then cnt ss i else if p = i then cnt ss j else cnt ss p :=
          fun p => cnt_hswap ss i j p hilen2 hcn
        have hlen' : (hswap ss i j).heap.length = ss.heap.length :=
          hswap_heap_length ss i j
        have hrec := down_restores f (hswap ss i j) j
          (by rw [hlen']; omega) ?_
        · rw [hlen'] at hrec
          exact hrec
        constructor
        · intro c hclen hc0 hcpar
          rw [hlen'] at hclen
          simp only [hcs]
          by_cases hcj : c = j
          · rw [if_pos hcj, if_neg (show ¬ (c - 1) / 2 = j by omega),
              if_pos (show (c - 1) / 2 = i by omega)]
            exact Nat.le_of_lt hlt
          · rw [if_neg hcj]
            by_cases hcieq : c = i
            · rw [if_pos hcieq,
                if_neg (show ¬ (c - 1) / 2 = j by omega),
                if_neg (show ¬ (c - 1) / 2 = i by omega)]
              have hi0 : 0 < i := by omega
              exact (show (c - 1) / 2 = (i - 1) / 2 by omega) ▸
                h.2 j hcn (by omega) hjpar hi0
            · rw [if_neg hcieq]
              by_cases hpi : (c - 1) / 2 = i
              · rw [if_neg (show ¬ (c - 1) / 2 = j by omega), if_pos hpi]
                -- c is the sibling of j under i
                have hcsib : c = 2 * i + 1 ∨ c = 2 * i + 2 := by omega
                rcases hcsib with hcs1 | hcs2
                · rw [hcs1]
                  exact hm1
                · rw [hcs2]
                  exact hm2 (by omega)
              · rw [if_neg hcpar, if_neg hpi]
                exact h.1 c hclen hc0 hpi
        · intro c hclen hc0 hcpar hj0
          rw [hlen'] at hclen
          simp only [hcs]
          rw [show (j - 1) / 2 = i from hjpar]
          have hcigt : i < j := hci
          rw [if_neg (show ¬ i = j by omega), if_pos rfl,
            if_neg (show ¬ c = j by omega), if_neg (show ¬ c = i by omega)]
          exact hcpar ▸ h.1 c hclen hc0 (by omega)
      · rw [if_neg hlt]
        show heapOrd ss
        intro c hclen hc0
        by_cases hpi : (c - 1) / 2 = i
        · have hcc : c = 2 * i + 1 ∨ c = 2 * i + 2 := by omega
          rw [hpi]
          have hile : cnt ss i ≤ cnt ss (child ss i ss.heap.length) :=
            Nat.le_of_not_lt hlt
          rcases hcc with hc1 | hc2
          · rw [hc1]
            exact Nat.le_trans hile hm1
          · rw [hc2]
            exact Nat.le_trans hile (hm2 (by omega))
        · exact h.1 c hclen hc0 hpi
    · rw [dif_neg hcb]
      show heapOrd ss
      intro c hclen hc0
      by_cases hpi : (c - 1) / 2 = i
      · omega
      · exact h.1 c hclen hc0 hpi

/-- On an already ordered heap, `up` does nothing. -/
theorem up_id_of_heapOrd {ss : SpaceSaving} (h : heapOrd ss) (j : Nat)
    (hj : j < ss.heap.length) : up ss j = ss := by
  unfold up
  by_cases h0 : 0 < j
  · rw [dif_pos h0, if_neg (Nat.not_lt_of_le (h j hj h0))]
  · rw [dif_neg h0]

/-- `Fix` restores the heap ordering from a `DownOK` state. -/
theorem fixAt_restores (ss : SpaceSaving) (i : Nat) (hi : i < ss.heap.length)
    (h : DownOK ss i) : heapOrd (fixAt ss i) := by
  unfold fixAt
  have hord := down_restores (ss.heap.length - i) ss i (Nat.le_refl _) h
  obtain ⟨⟨_, _, _, c4, _⟩, _⟩ :=
    down_basic (ss.heap.length - i) ss i ss.heap.length (Nat.le_refl _) (Nat.le_refl _)
  by_cases hmv : (downAux ss i ss.heap.length).2 > i
  · rw [if_pos hmv]
    exact hord
  · rw [if_neg hmv]
    rw [up_id_of_heapOrd hord i (by rw [c4.length_eq]; exact hi)]
    exact hord

/-- `Push` keeps the heap ordered pfrom an ordered state. -/
theorem hpush_restores (ss : SpaceSaving) (k : String) (c e : Nat)
    (hids : IdsOK ss) (h : heapOrd ss) : heapOrd (hpush ss k c e) := by
  rw [hpush_def]
  set ss0 : SpaceSaving := { ss with
      store := ss.store ++ [⟨k, c, e, (ss.heap.length : Int)⟩],
      heap := ss.heap ++ [ss.store.length] } with hss0
  have hlen0 : ss0.heap.length = ss.heap.length + 1 := by
    show (ss.heap ++ [ss.store.length]).length = _
    simp
  have hcnt0 : ∀ p, p < ss.heap.length → cnt ss0 p = cnt ss p := by
    intro p hp
    show (getN ss0.store (heapId ss0 p)).count = _
    have h1 : heapId ss0 p = heapId ss p := by
      show (ss.heap ++ [ss.store.length]).getD p 0 = _
      exact getD_append_left _ _ _ _ hp
    rw [h1]
    show (getN (ss.store ++ _) (heapId ss p)).count = _
    rw [getN_append_left _ _ _ (hids _ (heapId_mem ss p hp))]
    rfl
  have hup : UpOK ss0 ((ss.heap ++ [ss.store.length]).length - 1) := by
    have hlast : (ss.heap ++ [ss.store.length]).length - 1 = ss.heap.length := by simp
    rw [hlast]
    constructor
    · intro c' hc'len hc'0 hc'ne
      rw [hlen0] at hc'len
      have hc'lt : c' < ss.heap.length := by omega
      have hparlt : (c' - 1) / 2 < ss.heap.length := by
        exact Nat.lt_of_le_of_lt (Nat.le_trans (Nat.div_le_self _ 2) (Nat.sub_le _ _)) hc'lt
      rw [hcnt0 _ hc'lt, hcnt0 _ hparlt]
      exact h c' hc'lt hc'0
    · intro c' hc'len hc'0 hc'par _
      rw [hlen0] at hc'len
      omega
  exact up_restores _ ss0 (by rw [hlen0]; simp) hup

/-- `cnt` after a single store write. -/
theorem cnt_store_set (ss : SpaceSaving) (id : Nat) (v : Item) (p : Nat) :
    cnt { ss with store := ss.store.set id v } p =
      if id = heapId ss p ∧ heapId ss p < ss.store.length then v.count
      else cnt ss p := by
  show (getN (ss.store.set id v) (heapId ss p)).count = _
  rw [getN_set]
  by_cases hc : id = heapId ss p ∧ heapId ss p < ss.store.length
  · rw [if_pos hc, if_pos hc]
  · rw [if_neg hc, if_neg hc]
    rfl

/-! ### The Metwally invariant of Space-Saving (claim C2) -/

/-- The exact total added for one key by a sequence of `Add(key, n)` calls. -/
def trueCount (ops : List (String × Nat)) (k : String) : Nat :=
  (ops.map fun p => if p.1 = k then p.2 else 0).sum

/-- The whole stream's total. -/
def totalAdds (ops : List (String × Nat)) : Nat := (ops.map Prod.snd).sum

/-- The sum of all node counts in the heap. -/
def sumCounts (ss : SpaceSaving) : Nat :=
  (ss.heap.map fun id => (getN ss.store id).count).sum

/-- Run a sequence of `Add` operations on a fresh structure of capacity `c`. -/
def runAdds (c : Nat) (ops : List (String × Nat)) : SpaceSaving :=
  ops.foldl (fun ss p => ssAdd ss p.1 p.2) (ssNew c)

theorem trueCount_append (ops : List (String × Nat)) (k : String) (p : String × Nat) :
    trueCount (ops ++ [p]) k = trueCount ops k + (if p.1 = k then p.2 else 0) := by
  unfold trueCount
  rw [List.map_append, List.sum_append]
  simp

theorem totalAdds_append (ops : List (String × Nat)) (p : String × Nat) :
    totalAdds (ops ++ [p]) = totalAdds ops + p.2 := by
  unfold totalAdds
  rw [List.map_append, List.sum_append]
  simp

theorem trueCount_le_totalAdds (ops : List (String × Nat)) (k : String) :
    trueCount ops k ≤ totalAdds ops := by
  unfold trueCount totalAdds
  induction ops with
  | nil => simp
  | cons p t ih =>
    simp only [List.map_cons, List.sum_cons]
    by_cases h : p.1 = k
    · rw [if_pos h]; omega
    · rw [if_neg h]; omega

theorem mem_le_sum : ∀ (l : List Nat) (a : Nat), a ∈ l → a ≤ l.sum
  | [], a, ha => absurd ha (List.not_mem_nil a)
  | x :: t, a, ha => by
    rcases List.mem_cons.1 ha with h | h
    · subst h; simp
    · have := mem_le_sum t a h
      simp only [List.sum_cons]
      omega

/-- Summing a mapped list after changing the function's value at one id that
occurs exactly once. -/
theorem sum_map_update (f f' : Nat → Nat) :
    ∀ (l : List Nat) (id : Nat), l.Nodup → id ∈ l →
      (∀ x, x ≠ id → f' x = f x) →
      (l.map f').sum + f id = (l.map f).sum + f' id
  | [], id, _, hmem, _ => absurd hmem (List.not_mem_nil id)
  | x :: t, id, hnd, hmem, hfx => by
    rw [List.nodup_cons] at hnd
    simp only [List.map_cons, List.sum_cons]
    rcases List.mem_cons.1 hmem with h | h
    · subst h
      have hrest : t.map f' = t.map f := by
        apply List.map_congr_left
        intro y hy
        exact hfx y (fun hc => hnd.1 (hc ▸ hy))
      rw [hrest]
      omega
    · have hxid : x ≠ id := fun hc => hnd.1 (hc ▸ h)
      rw [hfx x hxid]
      have := sum_map_update f f' t id hnd.2 h hfx
      omega

/-- A node's count is at most the sum of all counts. -/
theorem count_le_sumCounts (ss : SpaceSaving) (id : Nat) (hid : id ∈ ss.heap) :
    (getN ss.store id).count ≤ sumCounts ss :=
  mem_le_sum _ _ (List.mem_map.2 ⟨id, hid, rfl⟩)

/-- `sumCounts` moves along a heap permutation with content-preserving
stores. -/
theorem sumCounts_transport {ss ss' : SpaceSaving}
    (hperm : ss'.heap.Perm ss.heap)
    (hstrip : ∀ x, strip (getN ss'.store x) = strip (getN ss.store x)) :
    sumCounts ss' = sumCounts ss := by
  unfold sumCounts
  have h1 : ss'.heap.map (fun id => (getN ss'.store id).count) =
      ss'.heap.map (fun id => (getN ss.store id).count) := by
    apply List.map_congr_left
    intro id _
    exact count_eq_of_strip (hstrip id)
  rw [h1]
  exact (hperm.map _).sum_eq

/-- `lookupItem` only reads the map. -/
theorem lookupItem_congr {ss ss' : SpaceSaving} (h : ss'.items = ss.items)
    (k : String) : lookupItem ss' k = lookupItem ss k := by
  unfold lookupItem
  rw [h]

/-- The Metwally invariant maintained by `Add` (no decay): structural
consistency, the heap ordering, count conservation, per-node error and true
count bounds, and the bounds for absent keys. -/
def MInv (ops : List (String × Nat)) (ss : SpaceSaving) : Prop :=
  Inv ss ∧ heapOrd ss ∧ sumCounts ss = totalAdds ops ∧
  (∀ id ∈ ss.heap,
    (getN ss.store id).error ≤ (getN ss.store id).count ∧
    (getN ss.store id).count - (getN ss.store id).error ≤
      trueCount ops (getN ss.store id).key ∧
    trueCount ops (getN ss.store id).key ≤ (getN ss.store id).count) ∧
  (ss.heap.length < ss.capacity → ∀ k, lookupItem ss k = none → trueCount ops k = 0) ∧
  (∀ k, lookupItem ss k = none → ∀ id ∈ ss.heap,
    trueCount ops k ≤ (getN ss.store id).count)

theorem mInv_init (c : Nat) : MInv [] (ssNew c) := by
  refine ⟨ssNew_inv c, ?_, rfl, ?_, ?_, ?_⟩
  · intro j hj
    simp [ssNew] at hj
  · intro id hid
    exact absurd hid (List.not_mem_nil id)
  · intro _ k _
    rfl
  · intro k _ id hid
    exact absurd hid (List.not_mem_nil id)

theorem lookupItem_none_of_forall {ss : SpaceSaving} {k : String}
    (h : ∀ e ∈ ss.items, e.1 ≠ k) : lookupItem ss k = none := by
  unfold lookupItem
  rw [Option.map_eq_none', List.find?_eq_none]
  intro e he
  simpa using h e he

/-- A present key's lookup is not `none`. -/
theorem lookupItem_ne_none_of_mem {ss : SpaceSaving} {k : String} {id : Nat}
    (hmem : (k, id) ∈ ss.items) : lookupItem ss k ≠ none := by
  intro hnone
  exact lookupItem_none_forall hnone (k, id) hmem rfl

/-- Metwally step, existing key: `Add` bumps the node's count and re-heapifies
at its slot. -/
theorem mInv_step_existing {ops : List (String × Nat)} {ss : SpaceSaving}
    {k : String} {id : Nat} (n : Nat)
    (hm : MInv ops ss) (h : lookupItem ss k = some id)
    (hov : totalAdds ops + n < 2 ^ 64) :
    MInv (ops ++ [(k, n)]) (ssAdd ss k n) := by
  obtain ⟨hinv, hord, hsum, hnode, habs1, habs2⟩ := hm
  have hmem := lookupItem_some_mem h
  obtain ⟨p, hp, hpid, hpidx⟩ := inv_entry_slot hinv hmem
  have hkeyid : (getN ss.store id).key = k := (hinv.2.2.2.1 _ hmem).2
  have hidmem : id ∈ ss.heap := (hinv.2.2.2.1 _ hmem).1
  have hidlen : id < ss.store.length := hinv.2.2.1 _ hidmem
  have hheapnd : ss.heap.Nodup := hinv.2.1
  have hcle : (getN ss.store id).count ≤ totalAdds ops :=
    hsum ▸ count_le_sumCounts ss id hidmem
  have hnomod : ((getN ss.store id).count + n) % 2 ^ 64 = (getN ss.store id).count + n :=
    Nat.mod_eq_of_lt (by omega)
  have htoNat : (getN ss.store id).index.toNat = p := by
    rw [hpidx]
    simp
  set ss1 : SpaceSaving := { ss with
      store :=
        ss.store.set id
          ({ getN ss.store id with
              count := ((getN ss.store id).count + n) % 2 ^ 64 }) } with hss1
  have heq : ssAdd ss k n = fixAt ss1 p := by
    rw [ssAdd_existing n h, htoNat]
  have hs1items : ss1.items = ss.items := rfl
  have hgetN1 : ∀ x, getN ss1.store x =
      if id = x ∧ x < ss.store.length then
        ({ getN ss.store id with
            count := ((getN ss.store id).count + n) % 2 ^ 64 })
      else getN ss.store x := fun x => getN_set ss.store id _ x
  have hgetN1id : getN ss1.store id =
      ({ getN ss.store id with count := (getN ss.store id).count + n }) := by
    rw [hgetN1 id, if_pos ⟨rfl, hidlen⟩, hnomod]
  have hgetN1ne : ∀ x, x ≠ id → getN ss1.store x = getN ss.store x := by
    intro x hx
    rw [hgetN1 x, if_neg (fun hc => hx hc.1.symm)]
  have hcp : cnt ss p = (getN ss.store id).count := by
    unfold cnt
    rw [hpid]
  have hcnt1 : ∀ q, q < ss.heap.length →
      cnt ss1 q = if q = p then (getN ss.store id).count + n else cnt ss q := by
    intro q hq
    have hset := cnt_store_set ss id ({ getN ss.store id with
        count := ((getN ss.store id).count + n) % 2 ^ 64 }) q
    rw [hset]
    by_cases hqp : q = p
    · subst hqp
      rw [if_pos ⟨hpid.symm, hpid ▸ hidlen⟩, if_pos rfl]
      exact hnomod
    · rw [if_neg (fun hc => hqp (heapId_inj ss hheapnd hq hp (by rw [← hc.1, hpid]))),
        if_neg hqp]
  have hp1 : p < ss1.heap.length := hp
  obtain ⟨f1, f2, f3, f4, f5⟩ := fixAt_basic ss1 p hp1
  have hfitems : (fixAt ss1 p).items = ss.items := f2.trans hs1items
  have hkeyne : ∀ id2 ∈ ss.heap, id2 ≠ id → (getN ss.store id2).key ≠ k := by
    intro id2 hid2 hne hkeq
    have h1 := hinv.2.2.2.2.1 id2 hid2
    rw [hkeq] at h1
    exact hne (keys_nodup_unique hinv.1 h1 hmem)
  refine ⟨ssAdd_existing_inv n hinv h, ?_, ?_, ?_, ?_, ?_⟩
  · -- heap ordering restored by the Fix
    rw [heq]
    apply fixAt_restores ss1 p hp1
    constructor
    · intro c hclen hc0 hcpar
      have hclen' : c < ss.heap.length := hclen
      have hparlen : (c - 1) / 2 < ss.heap.length := by omega
      rw [hcnt1 c hclen', hcnt1 _ hparlen, if_neg hcpar]
      by_cases hceq : c = p
      · subst hceq
        rw [if_pos rfl]
        have h2 := hord c hclen' hc0
        rw [hcp] at h2
        omega
      · rw [if_neg hceq]
        exact hord c hclen' hc0
    · intro c hclen hc0 hcpar hp0
      have hclen' : c < ss.heap.length := hclen
      have hparlen : (p - 1) / 2 < ss.heap.length := by omega
      rw [hcnt1 c hclen', hcnt1 _ hparlen,
        if_neg (show ¬ (p - 1) / 2 = p by omega), if_neg (show ¬ c = p by omega)]
      exact Nat.le_trans (hord p hp hp0) (hcpar ▸ hord c hclen' hc0)
  · -- count conservation
    rw [heq, totalAdds_append]
    rw [sumCounts_transport f4 f5]
    have hupd := sum_map_update (fun x => (getN ss.store x).count)
      (fun x => (getN ss1.store x).count) ss.heap id hheapnd hidmem
      (fun x hx =>
        show (getN ss1.store x).count = (getN ss.store x).count by
          rw [hgetN1ne x hx])
    have hvcount : (getN ss1.store id).count = (getN ss.store id).count + n := by
      rw [hgetN1id]
    have hupd2 : (ss.heap.map fun x => (getN ss1.store x).count).sum +
        (getN ss.store id).count =
        (ss.heap.map fun x => (getN ss.store x).count).sum +
        (getN ss1.store id).count := hupd
    have hsum1 : sumCounts ss1 = sumCounts ss + n := by
      show (ss.heap.map fun x => (getN ss1.store x).count).sum = _
      unfold sumCounts
      omega
    rw [hsum1, hsum]
  · -- per-node bounds
    rw [heq]
    intro id2 hid2
    have hid2' : id2 ∈ ss.heap := f4.mem_iff.1 hid2
    have hkeyeq : (getN (fixAt ss1 p).store id2).key = (getN ss1.store id2).key :=
      key_eq_of_strip (f5 id2)
    have hcnteq : (getN (fixAt ss1 p).store id2).count = (getN ss1.store id2).count :=
      count_eq_of_strip (f5 id2)
    have herreq : (getN (fixAt ss1 p).store id2).error = (getN ss1.store id2).error :=
      error_eq_of_strip (f5 id2)
    rw [hkeyeq, hcnteq, herreq]
    by_cases hide : id2 = id
    · subst hide
      rw [hgetN1id]
      obtain ⟨b1, b2, b3⟩ := hnode id2 hid2'
      rw [hkeyid] at b2 b3
      rw [trueCount_append]
      refine ⟨?_, ?_, ?_⟩
      · show (getN ss.store id2).error ≤ (getN ss.store id2).count + n
        omega
      · show (getN ss.store id2).count + n - (getN ss.store id2).error ≤
          trueCount ops (getN ss.store id2).key +
            (if k = (getN ss.store id2).key then n else 0)
        rw [hkeyid, if_pos rfl]
        omega
      · show trueCount ops (getN ss.store id2).key +
            (if k = (getN ss.store id2).key then n else 0) ≤
          (getN ss.store id2).count + n
        rw [hkeyid, if_pos rfl]
        omega
    · rw [hgetN1ne id2 hide]
      obtain ⟨b1, b2, b3⟩ := hnode id2 hid2'
      rw [trueCount_append, if_neg (fun hc => hkeyne id2 hid2' hide hc.symm)]
      exact ⟨b1, by omega, by omega⟩
  · -- absent keys below capacity never added
    rw [heq]
    intro hlen k2 hlk2
    have hlk2' : lookupItem ss k2 = none := by
      rw [← lookupItem_congr hfitems k2]
      exact hlk2
    have hk2ne : k2 ≠ k := by
      intro hc
      rw [hc, h] at hlk2'
      exact Option.noConfusion hlk2'
    rw [trueCount_append, if_neg (fun hc => hk2ne hc.symm)]
    have hlen' : ss.heap.length < ss.capacity := by
      rw [← f4.length_eq, ← f1]
      exact hlen
    rw [habs1 hlen' k2 hlk2']
  · -- absent keys bounded by every count
    rw [heq]
    intro k2 hlk2 id2 hid2
    have hid2' : id2 ∈ ss.heap := f4.mem_iff.1 hid2
    have hlk2' : lookupItem ss k2 = none := by
      rw [← lookupItem_congr hfitems k2]
      exact hlk2
    have hk2ne : k2 ≠ k := by
      intro hc
      rw [hc, h] at hlk2'
      exact Option.noConfusion hlk2'
    have hcnteq : (getN (fixAt ss1 p).store id2).count = (getN ss1.store id2).count :=
      count_eq_of_strip (f5 id2)
    rw [hcnteq, trueCount_append, if_neg (fun hc => hk2ne hc.symm)]
    have hboundold := habs2 k2 hlk2' id2 hid2'
    by_cases hide : id2 = id
    · subst hide
      rw [hgetN1id]
      show trueCount ops k2 + 0 ≤ (getN ss.store id2).count + n
      omega
    · rw [hgetN1ne id2 hide]
      omega

/-- Metwally step, fresh key below capacity: `Add` pushes `{k, n, 0}`. -/
theorem mInv_step_push {ops : List (String × Nat)} {ss : SpaceSaving}
    {k : String} (n : Nat)
    (hm : MInv ops ss) (h : lookupItem ss k = none)
    (hcap : ss.heap.length < ss.capacity) :
    MInv (ops ++ [(k, n)]) (ssAdd ss k n) := by
  obtain ⟨hinv, hord, hsum, hnode, habs1, habs2⟩ := hm
  have hknew : ∀ e ∈ ss.items, e.1 ≠ k := lookupItem_none_forall h
  have hids : IdsOK ss := hinv.2.2.1
  have heq := ssAdd_push n h hcap
  set ss0 : SpaceSaving := { ss with items := ss.items ++ [(k, ss.store.length)] } with hss0
  obtain ⟨p1, p2, p3, p4, p5⟩ := hpush_basic ss0 k n 0
  have p2' : (hpush ss0 k n 0).items = ss.items ++ [(k, ss.store.length)] := p2
  have p4' : (hpush ss0 k n 0).heap.Perm (ss.heap ++ [ss.store.length]) := p4
  have p5' : ∀ x, strip (getN (hpush ss0 k n 0).store x) =
      strip (getN (ss.store ++ [⟨k, n, 0, (ss.heap.length : Int)⟩]) x) := p5
  have htc0 : trueCount ops k = 0 := habs1 hcap k h
  refine ⟨ssAdd_push_inv n hinv h hcap, ?_, ?_, ?_, ?_, ?_⟩
  · -- heap ordering
    rw [heq]
    have hids0 : IdsOK ss0 := hids
    have hord0 : heapOrd ss0 := hord
    exact hpush_restores ss0 k n 0 hids0 hord0
  · -- count conservation
    rw [heq, totalAdds_append]
    have htrans : sumCounts (hpush ss0 k n 0) =
        sumCounts { ss with
          store := ss.store ++ [⟨k, n, 0, (ss.heap.length : Int)⟩],
          heap := ss.heap ++ [ss.store.length] } := by
      apply sumCounts_transport
      · exact p4'
      · exact p5'
    rw [htrans]
    unfold sumCounts
    show ((ss.heap ++ [ss.store.length]).map fun id =>
      (getN (ss.store ++ [⟨k, n, 0, (ss.heap.length : Int)⟩]) id).count).sum = _
    rw [List.map_append, List.sum_append]
    have h1 : (ss.heap.map fun id =>
        (getN (ss.store ++ [⟨k, n, 0, (ss.heap.length : Int)⟩]) id).count) =
        ss.heap.map fun id => (getN ss.store id).count := by
      apply List.map_congr_left
      intro id hid
      rw [getN_append_left _ _ _ (hids _ hid)]
    rw [h1]
    simp only [List.map_cons, List.map_nil, List.sum_cons, List.sum_nil]
    have h2 : (getN (ss.store ++ [⟨k, n, 0, (ss.heap.length : Int)⟩])
        ss.store.length).count = n := by
      rw [getN_append_last]
    rw [h2]
    unfold sumCounts at hsum
    omega
  · -- per-node bounds
    rw [heq]
    intro id2 hid2
    have hid2' : id2 ∈ ss.heap ++ [ss.store.length] := p4'.mem_iff.1 hid2
    have hkeyeq := key_eq_of_strip (p5' id2)
    have hcnteq := count_eq_of_strip (p5' id2)
    have herreq := error_eq_of_strip (p5' id2)
    rw [hkeyeq, hcnteq, herreq]
    rcases List.mem_append.1 hid2' with hmem | hmem
    · rw [getN_append_left _ _ _ (hids _ hmem)]
      obtain ⟨b1, b2, b3⟩ := hnode id2 hmem
      have hkne : (getN ss.store id2).key ≠ k :=
        hknew _ (hinv.2.2.2.2.1 id2 hmem)
      rw [trueCount_append, if_neg (fun hc => hkne hc.symm)]
      exact ⟨b1, by omega, by omega⟩
    · simp only [List.mem_singleton] at hmem
      subst hmem
      rw [getN_append_last]
      rw [trueCount_append]
      refine ⟨?_, ?_, ?_⟩
      · show (0 : Nat) ≤ n
        exact Nat.zero_le n
      · show n - 0 ≤ trueCount ops k + (if k = k then n else 0)
        rw [if_pos rfl]
        omega
      · show trueCount ops k + (if k = k then n else 0) ≤ n
        rw [if_pos rfl]
        omega
  · -- absent keys while below capacity
    rw [heq]
    intro _ k2 hlk2
    have hall := lookupItem_none_forall hlk2
    rw [p2'] at hall
    have hkne : k ≠ k2 := hall (k, ss.store.length) (List.mem_append.2 (Or.inr (by simp)))
    have hssnone : lookupItem ss k2 = none :=
      lookupItem_none_of_forall (fun e he => hall e (List.mem_append.2 (Or.inl he)))
    rw [trueCount_append, if_neg hkne, habs1 hcap k2 hssnone]
  · -- absent keys bounded by every count
    rw [heq]
    intro k2 hlk2 id2 hid2
    have hall := lookupItem_none_forall hlk2
    rw [p2'] at hall
    have hkne : k ≠ k2 := hall (k, ss.store.length) (List.mem_append.2 (Or.inr (by simp)))
    have hssnone : lookupItem ss k2 = none :=
      lookupItem_none_of_forall (fun e he => hall e (List.mem_append.2 (Or.inl he)))
    have hcnteq := count_eq_of_strip (p5' id2)
    rw [hcnteq, trueCount_append, if_neg hkne]
    rcases List.mem_append.1 (p4'.mem_iff.1 hid2) with hmem | hmem
    · rw [getN_append_left _ _ _ (hids _ hmem)]
      have := habs2 k2 hssnone id2 hmem
      omega
    · simp only [List.mem_singleton] at hmem
      subst hmem
      rw [getN_append_last]
      have := habs1 hcap k2 hssnone
      show trueCount ops k2 + 0 ≤ n
      omega

/-- From the heap ordering, the root node's count bounds every node's
count. -/
theorem root_min_nodes {ss : SpaceSaving} (hord : heapOrd ss) (hnd : ss.heap.Nodup)
    (id2 : Nat) (hid2 : id2 ∈ ss.heap) :
    (getN ss.store (heapId ss 0)).count ≤ (getN ss.store id2).count := by
  obtain ⟨q, hq, hqe⟩ := List.mem_iff_getElem.1 hid2
  have hqid : heapId ss q = id2 := by
    unfold heapId
    rw [List.getD_eq_getElem _ _ hq]
    exact hqe
  have := heapOrd_root_min hord q hq
  unfold cnt at this
  rw [hqid] at this
  exact this

/-- Metwally step, fresh key at capacity: `Add` overwrites the root (the
minimum), inheriting `count = root.count + n`, `error = root.count`. -/
theorem mInv_step_evict {ops : List (String × Nat)} {ss : SpaceSaving}
    {k : String} {r : Nat} {rest : List Nat} (n : Nat)
    (hm : MInv ops ss) (h : lookupItem ss k = none)
    (hcap : ¬ ss.heap.length < ss.capacity) (hh : ss.heap = r :: rest)
    (hov : totalAdds ops + n < 2 ^ 64) :
    MInv (ops ++ [(k, n)]) (ssAdd ss k n) := by
  obtain ⟨hinv, hord, hsum, hnode, habs1, habs2⟩ := hm
  have hknew : ∀ e ∈ ss.items, e.1 ≠ k := lookupItem_none_forall h
  have hids : IdsOK ss := hinv.2.2.1
  have hheapnd : ss.heap.Nodup := hinv.2.1
  have hrmem : r ∈ ss.heap := by rw [hh]; exact List.mem_cons_self _ _
  have hrlen : r < ss.store.length := hids r hrmem
  have h0len : 0 < ss.heap.length := by rw [hh]; simp
  have hr0 : heapId ss 0 = r := by
    unfold heapId
    rw [hh]
    rfl
  have hcr : cnt ss 0 = (getN ss.store r).count := by
    unfold cnt
    rw [hr0]
  have hcle : (getN ss.store r).count ≤ totalAdds ops :=
    hsum ▸ count_le_sumCounts ss r hrmem
  have hnomod : ((getN ss.store r).count + n) % 2 ^ 64 = (getN ss.store r).count + n :=
    Nat.mod_eq_of_lt (by omega)
  have heq := ssAdd_evict n h hcap hh
  set ss1 : SpaceSaving := { ss with
      store :=
        ss.store.set r
          ({ getN ss.store r with
              key := k,
              count := ((getN ss.store r).count + n) % 2 ^ 64,
              error := (getN ss.store r).count }),
      items := (ss.items.filter fun e => ¬ (e.1 = (getN ss.store r).key)) ++ [(k, r)] }
    with hss1
  have hgetN1r : getN ss1.store r =
      ({ getN ss.store r with
          key := k,
          count := (getN ss.store r).count + n,
          error := (getN ss.store r).count }) := by
    show getN (ss.store.set r _) r = _
    rw [getN_set, if_pos ⟨rfl, hrlen⟩, hnomod]
  have hgetN1ne : ∀ x, x ≠ r → getN ss1.store x = getN ss.store x := by
    intro x hx
    show getN (ss.store.set r _) x = _
    rw [getN_set, if_neg (fun hc => hx hc.1.symm)]
  have hcnt1 : ∀ q, q < ss.heap.length →
      cnt ss1 q = if q = 0 then (getN ss.store r).count + n else cnt ss q := by
    intro q hq
    have hset : cnt ss1 q =
        if r = heapId ss q ∧ heapId ss q < ss.store.length then
          (({ getN ss.store r with
              key := k,
              count := ((getN ss.store r).count + n) % 2 ^ 64,
              error := (getN ss.store r).count }) : Item).count
        else cnt ss q := cnt_store_set ss r _ q
    rw [hset]
    by_cases hq0 : q = 0
    · subst hq0
      rw [if_pos ⟨hr0.symm, hr0 ▸ hrlen⟩, if_pos rfl]
      exact hnomod
    · rw [if_neg (fun hc => hq0 (heapId_inj ss hheapnd hq h0len (by rw [← hc.1, hr0]))),
        if_neg hq0]
  have h0len1 : 0 < ss1.heap.length := h0len
  obtain ⟨f1, f2, f3, f4, f5⟩ := fixAt_basic ss1 0 h0len1
  have hordroot : ∀ id2 ∈ ss.heap,
      (getN ss.store r).count ≤ (getN ss.store id2).count := by
    intro id2 hid2
    have := root_min_nodes hord hheapnd id2 hid2
    rw [hr0] at this
    exact this
  have hfitems : (fixAt ss1 0).items =
      (ss.items.filter fun e => ¬ (e.1 = (getN ss.store r).key)) ++ [(k, r)] := f2
  refine ⟨ssAdd_evict_inv n hinv h hcap hh, ?_, ?_, ?_, ?_, ?_⟩
  · -- heap ordering restored by the root Fix
    rw [heq]
    apply fixAt_restores ss1 0 h0len1
    constructor
    · intro c hclen hc0 hcpar
      have hclen' : c < ss.heap.length := hclen
      have hparlen : (c - 1) / 2 < ss.heap.length := by omega
      rw [hcnt1 c hclen', hcnt1 _ hparlen, if_neg hcpar, if_neg (by omega : ¬ c = 0)]
      exact hord c hclen' hc0
    · intro c hclen hc0 hcpar hi0
      omega
  · -- count conservation
    rw [heq, totalAdds_append]
    rw [sumCounts_transport f4 f5]
    have hupd := sum_map_update (fun x => (getN ss.store x).count)
      (fun x => (getN ss1.store x).count) ss.heap r hheapnd hrmem
      (fun x hx =>
        show (getN ss1.store x).count = (getN ss.store x).count by
          rw [hgetN1ne x hx])
    have hupd2 : (ss.heap.map fun x => (getN ss1.store x).count).sum +
        (getN ss.store r).count =
        (ss.heap.map fun x => (getN ss.store x).count).sum +
        (getN ss1.store r).count := hupd
    have hvcount : (getN ss1.store r).count = (getN ss.store r).count + n := by
      rw [hgetN1r]
    have hsum1 : sumCounts ss1 = sumCounts ss + n := by
      show (ss.heap.map fun x => (getN ss1.store x).count).sum = _
      unfold sumCounts
      omega
    rw [hsum1, hsum]
  · -- per-node bounds
    rw [heq]
    intro id2 hid2
    have hid2' : id2 ∈ ss.heap := f4.mem_iff.1 hid2
    rw [key_eq_of_strip (f5 id2), count_eq_of_strip (f5 id2), error_eq_of_strip (f5 id2)]
    by_cases hide : id2 = r
    · subst hide
      rw [hgetN1r]
      rw [trueCount_append]
      have hub := habs2 k h id2 hid2'
      refine ⟨?_, ?_, ?_⟩
      · show (getN ss.store id2).count ≤ (getN ss.store id2).count + n
        omega
      · show (getN ss.store id2).count + n - (getN ss.store id2).count ≤
          trueCount ops k + (if k = k then n else 0)
        rw [if_pos rfl]
        omega
      · show trueCount ops k + (if k = k then n else 0) ≤
          (getN ss.store id2).count + n
        rw [if_pos rfl]
        omega
    · rw [hgetN1ne id2 hide]
      obtain ⟨b1, b2, b3⟩ := hnode id2 hid2'
      have hkne : (getN ss.store id2).key ≠ k :=
        hknew _ (hinv.2.2.2.2.1 id2 hid2')
      rw [trueCount_append, if_neg (fun hc => hkne hc.symm)]
      exact ⟨b1, by omega, by omega⟩
  · -- below-capacity clause is vacuous at capacity
    rw [heq]
    intro hlen
    exfalso
    apply hcap
    have hl1 : (fixAt ss1 0).heap.length = ss.heap.length := f4.length_eq
    have hc1 : (fixAt ss1 0).capacity = ss.capacity := f1
    omega
  · -- absent keys bounded by every count
    rw [heq]
    intro k2 hlk2 id2 hid2
    have hid2' : id2 ∈ ss.heap := f4.mem_iff.1 hid2
    have hall := lookupItem_none_forall hlk2
    rw [hfitems] at hall
    have hkne : k ≠ k2 := hall (k, r) (List.mem_append.2 (Or.inr (by simp)))
    rw [count_eq_of_strip (f5 id2), trueCount_append, if_neg hkne]
    by_cases hk2root : k2 = (getN ss.store r).key
    · -- the evicted key: bounded by the old root count, which bounds all
      have hub : trueCount ops k2 ≤ (getN ss.store r).count := by
        obtain ⟨_, _, b3⟩ := hnode r hrmem
        rw [← hk2root] at b3
        exact b3
      by_cases hide : id2 = r
      · subst hide
        rw [hgetN1r]
        show trueCount ops k2 + 0 ≤ (getN ss.store id2).count + n
        omega
      · rw [hgetN1ne id2 hide]
        have := hordroot id2 hid2'
        omega
    · -- a key absent both before and after
      have hssnone : lookupItem ss k2 = none := by
        apply lookupItem_none_of_forall
        intro e he hek
        apply hall e (List.mem_append.2 (Or.inl ?_)) hek
        rw [List.mem_filter]
        refine ⟨he, ?_⟩
        simp only [decide_eq_true_eq]
        intro hroot
        exact hk2root (hek ▸ hroot)
      have hbound := habs2 k2 hssnone id2 hid2'
      by_cases hide : id2 = r
      · subst hide
        rw [hgetN1r]
        show trueCount ops k2 + 0 ≤ (getN ss.store id2).count + n
        omega
      · rw [hgetN1ne id2 hide]
        omega

theorem lookupItem_last {ss : SpaceSaving} {l : List (String × Nat)} {k : String}
    {id : Nat} (hitems : ss.items = l ++ [(k, id)]) (hl : ∀ e ∈ l, e.1 ≠ k) :
    lookupItem ss k = some id := by
  unfold lookupItem
  rw [hitems, List.find?_append]
  have h1 : l.find? (fun e => e.1 == k) = none :=
    List.find?_eq_none.2 (fun e he => by simpa using hl e he)
  rw [h1]
  simp

/-- The Metwally invariant holds along any run of `Add` operations whose
total stream fits in a `uint64` (capacity at least 1). -/
theorem runAdds_mInv : ∀ (ops pre : List (String × Nat)) (ss : SpaceSaving),
    1 ≤ ss.capacity → MInv pre ss → totalAdds pre + totalAdds ops < 2 ^ 64 →
    MInv (pre ++ ops) (ops.foldl (fun ss p => ssAdd ss p.1 p.2) ss)
  | [], pre, ss, _, hm, _ => by simpa using hm
  | p :: t, pre, ss, hc, hm, hov => by
    rw [List.foldl_cons]
    have htadd : totalAdds (p :: t) = p.2 + totalAdds t := by
      unfold totalAdds
      simp
    have hovp : totalAdds pre + p.2 < 2 ^ 64 := by omega
    have hstep : MInv (pre ++ [p]) (ssAdd ss p.1 p.2) := by
      cases hlk : lookupItem ss p.1 with
      | some id => exact mInv_step_existing p.2 hm hlk hovp
      | none =>
        by_cases hcap : ss.heap.length < ss.capacity
        · exact mInv_step_push p.2 hm hlk hcap
        · cases hh : ss.heap with
          | nil =>
            exfalso
            apply hcap
            rw [hh]
            simpa using hc
          | cons r rest => exact mInv_step_evict p.2 hm hlk hcap hh hovp
    have hc' : 1 ≤ (ssAdd ss p.1 p.2).capacity := by
      rw [ssAdd_capacity_eq]
      exact hc
    have hrec := runAdds_mInv t (pre ++ [p]) (ssAdd ss p.1 p.2) hc' hstep
      (by rw [totalAdds_append]; omega)
    rw [List.append_assoc] at hrec
    simpa using hrec

theorem runAdds_mInv_final (c : Nat) (ops : List (String × Nat)) (hc : 1 ≤ c)
    (hov : totalAdds ops < 2 ^ 64) : MInv ops (runAdds c ops) := by
  have h0 : totalAdds ([] : List (String × Nat)) = 0 := rfl
  have := runAdds_mInv ops [] (ssNew c) hc (mInv_init c) (by omega)
  simpa [runAdds] using this

theorem runAdds_capacity (c : Nat) (ops : List (String × Nat)) :
    (runAdds c ops).capacity = c := by
  unfold runAdds
  have haux : ∀ (o : List (String × Nat)) (st : SpaceSaving),
      (o.foldl (fun ss p => ssAdd ss p.1 p.2) st).capacity = st.capacity := by
    intro o
    induction o with
    | nil => intro st; rfl
    | cons q tq ih =>
      intro st
      rw [List.foldl_cons, ih, ssAdd_capacity_eq]
  exact haux ops (ssNew c)

/-- **C2**: after any sequence of `Add(key, n)` operations (no decay) on a
fresh Space-Saving structure of capacity `c ≥ 1` whose total stream fits in a
`uint64`, every node satisfies `error ≤ count` and
`count − error ≤ true added total ≤ count`; and when a further `Add` of an
absent key arrives at capacity, the root — which holds the minimum count — is
evicted: the new node gets `count = old_min.count + n`,
`error = old_min.count`, the evicted key disappears from the map and the new
key maps to the overwritten node. -/
theorem ss_metwally_invariant (c : Nat) (ops : List (String × Nat)) (hc : 1 ≤ c)
    (hov : totalAdds ops < 2 ^ 64) :
    (∀ id ∈ (runAdds c ops).heap,
      (getN (runAdds c ops).store id).error ≤ (getN (runAdds c ops).store id).count ∧
      (getN (runAdds c ops).store id).count - (getN (runAdds c ops).store id).error ≤
        trueCount ops (getN (runAdds c ops).store id).key ∧
      trueCount ops (getN (runAdds c ops).store id).key ≤
        (getN (runAdds c ops).store id).count) ∧
    (∀ k n, lookupItem (runAdds c ops) k = none →
      ¬ (runAdds c ops).heap.length < (runAdds c ops).capacity →
      totalAdds ops + n < 2 ^ 64 →
      (∀ id ∈ (runAdds c ops).heap,
        (getN (runAdds c ops).store (heapId (runAdds c ops) 0)).count ≤
          (getN (runAdds c ops).store id).count) ∧
      (getN (ssAdd (runAdds c ops) k n).store (heapId (runAdds c ops) 0)).key = k ∧
      (getN (ssAdd (runAdds c ops) k n).store (heapId (runAdds c ops) 0)).count =
        (getN (runAdds c ops).store (heapId (runAdds c ops) 0)).count + n ∧
      (getN (ssAdd (runAdds c ops) k n).store (heapId (runAdds c ops) 0)).error =
        (getN (runAdds c ops).store (heapId (runAdds c ops) 0)).count ∧
      lookupItem (ssAdd (runAdds c ops) k n)
        ((getN (runAdds c ops).store (heapId (runAdds c ops) 0)).key) = none ∧
      lookupItem (ssAdd (runAdds c ops) k n) k = some (heapId (runAdds c ops) 0)) := by
  obtain ⟨hinv, hord, hsum, hnode, habs1, habs2⟩ := runAdds_mInv_final c ops hc hov
  refine ⟨hnode, ?_⟩
  intro k n hlk hcap hovn
  set s : SpaceSaving := runAdds c ops with hs
  have hcapeq : s.capacity = c := runAdds_capacity c ops
  have hlenpos : 0 < s.heap.length := by omega
  cases hh : s.heap with
  | nil =>
    rw [hh] at hlenpos
    exact absurd hlenpos (by simp)
  | cons r rest =>
    have hr0 : heapId s 0 = r := by
      unfold heapId
      rw [hh]
      rfl
    have hrmem : r ∈ s.heap := by rw [hh]; exact List.mem_cons_self _ _
    have hrlen : r < s.store.length := hinv.2.2.1 r hrmem
    have h0len : 0 < s.heap.length := hlenpos
    have hcle : (getN s.store r).count ≤ totalAdds ops :=
      hsum ▸ count_le_sumCounts s r hrmem
    have hnomod : ((getN s.store r).count + n) % 2 ^ 64 = (getN s.store r).count + n :=
      Nat.mod_eq_of_lt (by omega)
    have heq := ssAdd_evict n hlk hcap hh
    set ss1 : SpaceSaving := { s with
        store :=
          s.store.set r
            ({ getN s.store r with
                key := k,
                count := ((getN s.store r).count + n) % 2 ^ 64,
                error := (getN s.store r).count }),
        items := (s.items.filter fun e => ¬ (e.1 = (getN s.store r).key)) ++ [(k, r)] }
      with hss1
    have hgetN1r : getN ss1.store r =
        ({ getN s.store r with
            key := k,
            count := (getN s.store r).count + n,
            error := (getN s.store r).count }) := by
      show getN (s.store.set r _) r = _
      rw [getN_set, if_pos ⟨rfl, hrlen⟩, hnomod]
    obtain ⟨f1, f2, f3, f4, f5⟩ := fixAt_basic ss1 0 (show 0 < ss1.heap.length from h0len)
    have hstripr := f5 r
    have hfitems : (fixAt ss1 0).items =
        (s.items.filter fun e => ¬ (e.1 = (getN s.store r).key)) ++ [(k, r)] := f2
    have hknew : ∀ e ∈ s.items, e.1 ≠ k := lookupItem_none_forall hlk
    have hrootmem : ((getN s.store r).key, r) ∈ s.items := hinv.2.2.2.2.1 r hrmem
    have hrootne : (getN s.store r).key ≠ k := hknew _ hrootmem
    refine ⟨?_, ?_, ?_, ?_, ?_, ?_⟩
    · intro id hid
      have hid' : id ∈ s.heap := by rw [hh]; exact hid
      exact root_min_nodes hord hinv.2.1 id hid' 
    · rw [heq, hr0, key_eq_of_strip hstripr, hgetN1r]
    · rw [heq, hr0, count_eq_of_strip hstripr, hgetN1r]
    · rw [heq, hr0, error_eq_of_strip hstripr, hgetN1r]
    · rw [heq, hr0]
      apply lookupItem_none_of_forall
      intro e he
      rw [hfitems] at he
      rcases List.mem_append.1 he with hmem | hmem
      · have := List.of_mem_filter hmem
        simpa using this
      · simp only [List.mem_singleton] at hmem
        subst hmem
        exact fun hc2 => hrootne hc2.symm
    · rw [heq, hr0]
      apply lookupItem_last hfitems
      intro e he hek
      exact hknew e (List.mem_of_mem_filter he) hek

/-- Witness for `ss_metwally_invariant` at capacity 2 with three adds (the
third evicts). -/
theorem ss_metwally_invariant_witness :
    1 ≤ 2 ∧ totalAdds [("first", 10), ("second", 5), ("third", 1)] < 2 ^ 64 ∧
    ((∀ id ∈ (runAdds 2 [("first", 10), ("second", 5), ("third", 1)]).heap,
      (getN (runAdds 2 [("first", 10), ("second", 5), ("third", 1)]).store id).error ≤
        (getN (runAdds 2 [("first", 10), ("second", 5), ("third", 1)]).store id).count ∧
      (getN (runAdds 2 [("first", 10), ("second", 5), ("third", 1)]).store id).count -
        (getN (runAdds 2 [("first", 10), ("second", 5), ("third", 1)]).store id).error ≤
        trueCount [("first", 10), ("second", 5), ("third", 1)]
          (getN (runAdds 2 [("first", 10), ("second", 5), ("third", 1)]).store id).key ∧
      trueCount [("first", 10), ("second", 5), ("third", 1)]
          (getN (runAdds 2 [("first", 10), ("second", 5), ("third", 1)]).store id).key ≤
        (getN (runAdds 2 [("first", 10), ("second", 5), ("third", 1)]).store id).count) ∧
    (∀ k n, lookupItem (runAdds 2 [("first", 10), ("second", 5), ("third", 1)]) k = none →
      ¬ (runAdds 2 [("first", 10), ("second", 5), ("third", 1)]).heap.length <
        (runAdds 2 [("first", 10), ("second", 5), ("third", 1)]).capacity →
      totalAdds [("first", 10), ("second", 5), ("third", 1)] + n < 2 ^ 64 →
      (∀ id ∈ (runAdds 2 [("first", 10), ("second", 5), ("third", 1)]).heap,
        (getN (runAdds 2 [("first", 10), ("second", 5), ("third", 1)]).store
          (heapId (runAdds 2 [("first", 10), ("second", 5), ("third", 1)]) 0)).count ≤
          (getN (runAdds 2 [("first", 10), ("second", 5), ("third", 1)]).store id).count) ∧
      (getN (ssAdd (runAdds 2 [("first", 10), ("second", 5), ("third", 1)]) k n).store
        (heapId (runAdds 2 [("first", 10), ("second", 5), ("third", 1)]) 0)).key = k ∧
      (getN (ssAdd (runAdds 2 [("first", 10), ("second", 5), ("third", 1)]) k n).store
        (heapId (runAdds 2 [("first", 10), ("second", 5), ("third", 1)]) 0)).count =
        (getN (runAdds 2 [("first", 10), ("second", 5), ("third", 1)]).store
          (heapId (runAdds 2 [("first", 10), ("second", 5), ("third", 1)]) 0)).count + n ∧
      (getN (ssAdd (runAdds 2 [("first", 10), ("second", 5), ("third", 1)]) k n).store
        (heapId (runAdds 2 [("first", 10), ("second", 5), ("third", 1)]) 0)).error =
        (getN (runAdds 2 [("first", 10), ("second", 5), ("third", 1)]).store
          (heapId (runAdds 2 [("first", 10), ("second", 5), ("third", 1)]) 0)).count ∧
      lookupItem (ssAdd (runAdds 2 [("first", 10), ("second", 5), ("third", 1)]) k n)
        ((getN (runAdds 2 [("first", 10), ("second", 5), ("third", 1)]).store
          (heapId (runAdds 2 [("first", 10), ("second", 5), ("third", 1)]) 0)).key) = none ∧
      lookupItem (ssAdd (runAdds 2 [("first", 10), ("second", 5), ("third", 1)]) k n) k =
        some (heapId (runAdds 2 [("first", 10), ("second", 5), ("third", 1)]) 0))) :=
  ⟨by decide, by decide,
   ss_metwally_invariant 2 [("first", 10), ("second", 5), ("third", 1)]
     (by decide) (by decide)⟩

/-! ### The `TopK` pop loop returns exactly the heap's nodes (claim C3) -/

/-- `down` restricted to the first `n` slots leaves later slots untouched. -/
theorem down_fixes_tail : ∀ (f : Nat) (ss : SpaceSaving) (i n : Nat), n - i ≤ f →
    n ≤ ss.heap.length →
    ∀ p, n ≤ p → heapId (downAux ss i n).1 p = heapId ss p
  | 0, ss, i, n, hf, _, p, hp => by
    unfold downAux
    rw [dif_neg (by omega)]
  | f + 1, ss, i, n, hf, hn, p, hp => by
    unfold downAux
    by_cases h : 2 * i + 1 < n
    · rw [dif_pos h]
      obtain ⟨hci, hcn⟩ := child_bounds ss i n h
      by_cases hlt : cnt ss (child ss i n) < cnt ss i
      · rw [if_pos hlt]
        have hilen : i < ss.heap.length := by omega
        have hclen : child ss i n < ss.heap.length := by omega
        rw [down_fixes_tail f (hswap ss i (child ss i n)) (child ss i n) n (by omega)
          (by rw [hswap_heap_length]; exact hn) p hp]
        rw [heapId_hswap ss i (child ss i n) p hilen hclen,
          if_neg (by omega), if_neg (by omega)]
      · rw [if_neg hlt]
    · rw [dif_neg h]

/-- One pop: the remaining nodes plus the popped copy are the original nodes
(as a multiset of non-index content), and the heap shrinks by one. -/
theorem heapPop_strip (ss : SpaceSaving) (m : Nat) (hm : ss.heap.length = m + 1) :
    ((heapPopGo ss).1.heap.map fun id => strip (getN (heapPopGo ss).1.store id)) ++
      [strip (heapPopGo ss).2] =
      ((downAux (hswap ss 0 m) 0 m).1.heap.map fun id =>
        strip (getN (downAux (hswap ss 0 m) 0 m).1.store id)) ∧
    (heapPopGo ss).1.heap.length = m ∧
    (((downAux (hswap ss 0 m) 0 m).1.heap.map fun id =>
        strip (getN (downAux (hswap ss 0 m) 0 m).1.store id)).Perm
      (ss.heap.map fun id => strip (getN ss.store id))) := by
  have h0 : 0 < ss.heap.length := by omega
  have hmlen : m < ss.heap.length := by omega
  have hs1len : (hswap ss 0 m).heap.length = m + 1 := by
    rw [hswap_heap_length]; exact hm
  obtain ⟨⟨_, _, _, d4, d5⟩, _⟩ :=
    down_basic (m + 1) (hswap ss 0 m) 0 m (by omega) (by omega)
  have hs2len : (downAux (hswap ss 0 m) 0 m).1.heap.length = m + 1 := by
    rw [d4.length_eq]; exact hs1len
  simp only [heapPopGo, hm, Nat.add_sub_cancel]
  set s2 := (downAux (hswap ss 0 m) 0 m).1 with hs2
  have hdrop : s2.heap.drop m = [heapId s2 m] := by
    have hmlt : m < s2.heap.length := by omega
    rw [List.drop_eq_getElem_cons hmlt]
    have h2 : s2.heap.drop (m + 1) = [] := List.drop_eq_nil_of_le (by omega)
    rw [h2]
    have h3 : heapId s2 m = s2.heap[m] := by
      unfold heapId
      rw [List.getD_eq_getElem _ _ hmlt]
    rw [h3]
  refine ⟨?_, ?_, ?_⟩
  · have h1 : ((s2.heap.take m).map fun id =>
        strip (getN (setIdx s2.store (heapId s2 m) (-1)) id)) =
        (s2.heap.take m).map fun id => strip (getN s2.store id) := by
      apply List.map_congr_left
      intro id _
      exact strip_getN_setIdx _ _ _ _
    have h2 : strip ({ getN s2.store (heapId s2 m) with index := -1 }) =
        strip (getN s2.store (heapId s2 m)) := rfl
    show ((s2.heap.take m).map fun id =>
        strip (getN (setIdx s2.store (heapId s2 m) (-1)) id)) ++
        [strip ({ getN s2.store (heapId s2 m) with index := -1 })] = _
    rw [h1, h2]
    have h3 : ([heapId s2 m].map fun id => strip (getN s2.store id)) =
        [strip (getN s2.store (heapId s2 m))] := rfl
    rw [← h3, ← List.map_append, ← hdrop, List.take_append_drop]
  · show (s2.heap.take m).length = m
    rw [List.length_take]
    omega
  · have hmap2 : (s2.heap.map fun id => strip (getN s2.store id)) =
        s2.heap.map fun id => strip (getN (hswap ss 0 m).store id) := by
      apply List.map_congr_left
      intro id _
      exact d5 id
    rw [hmap2]
    have hp1 : (s2.heap.map fun id => strip (getN (hswap ss 0 m).store id)).Perm
        ((hswap ss 0 m).heap.map fun id => strip (getN (hswap ss 0 m).store id)) :=
      d4.map _
    refine hp1.trans ?_
    have hmap3 : ((hswap ss 0 m).heap.map fun id =>
        strip (getN (hswap ss 0 m).store id)) =
        (hswap ss 0 m).heap.map fun id => strip (getN ss.store id) := by
      apply List.map_congr_left
      intro id _
      exact hswap_strip ss 0 m id
    rw [hmap3]
    exact (hswap_heap_perm ss 0 m h0 hmlen).map _

/-- The pop loop with sufficient fuel returns exactly the heap's nodes. -/
theorem popAll_strip : ∀ (f : Nat) (ss : SpaceSaving), ss.heap.length ≤ f →
    ((popAll f ss).map strip).Perm (ss.heap.map fun id => strip (getN ss.store id))
  | 0, ss, hf => by
    have h0 : ss.heap.length = 0 := by omega
    have h1 : ss.heap = [] := List.eq_nil_of_length_eq_zero h0
    unfold popAll
    rw [h1]
    exact List.Perm.refl _
  | f + 1, ss, hf => by
    unfold popAll
    by_cases h0 : ss.heap.length = 0
    · rw [if_pos h0]
      have h1 : ss.heap = [] := List.eq_nil_of_length_eq_zero h0
      rw [h1]
      exact List.Perm.refl _
    · rw [if_neg h0]
      obtain ⟨m, hm⟩ : ∃ m, ss.heap.length = m + 1 :=
        ⟨ss.heap.length - 1, by omega⟩
      obtain ⟨hpop1, hpop2, hpop3⟩ := heapPop_strip ss m hm
      have hih := popAll_strip f (heapPopGo ss).1 (by omega)
      show (strip (heapPopGo ss).2 :: (popAll f (heapPopGo ss).1).map strip).Perm _
      have hstep : (strip (heapPopGo ss).2 ::
          ((heapPopGo ss).1.heap.map fun id =>
            strip (getN (heapPopGo ss).1.store id))).Perm
          (ss.heap.map fun id => strip (getN ss.store id)) := by
        refine (List.perm_append_singleton _ _).symm.trans ?_
        rw [hpop1]
        exact hpop3
      exact ((hih.cons _).trans hstep)

/-- `SpaceSaving.TopK k` with `k` at least the heap size returns one value
copy per stored node. -/
theorem ssTopK_strip_perm (ss : SpaceSaving) (k : Nat) (hk : ss.heap.length ≤ k) :
    ((ssTopK ss k).map strip).Perm
      (ss.heap.map fun id => strip (getN ss.store id)) := by
  have hperm := popAll_strip ss.heap.length ss (Nat.le_refl _)
  have hlen : (popAll ss.heap.length ss).length = ss.heap.length := by
    have := hperm.length_eq
    simp only [List.length_map] at this
    omega
  have harg : (popAll ss.heap.length ss).reverse.length ≤
      (if k > (popAll ss.heap.length ss).length then
        (popAll ss.heap.length ss).length else k) := by
    rw [List.length_reverse]
    split <;> omega
  show (((popAll ss.heap.length ss).reverse.take
      (if k > (popAll ss.heap.length ss).length then
        (popAll ss.heap.length ss).length else k)).map strip).Perm _
  rw [List.take_of_length_le harg]
  exact ((List.reverse_perm _).map strip).trans hperm

/-! ## Hot-key detector (`internal/detector/detector.go`, claims C3 and C4)

`hotKeyDetector` couples the Count-Min sketch with the Space-Saving
structure.  `GetCount` reads the sketch; `TopK` takes the Space-Saving
snapshot of size `config.TopK`, replaces every count by the sketch estimate
of its key, and sorts the result descending by that estimate with a
double-loop selection sort; `IsHot` compares `GetCount` against a positive
threshold, or falls back to membership in `TopK()`. -/

/-- The detector configuration fields the pure operations read
(`detector.Config.TopK` and `.HotThreshold`). -/
structure DetectorConfig where
  topK : Nat
  hotThreshold : Nat

/-- The `hotKeyDetector` state (the mutex and the decay clock carry no data
the queried operations read). -/
structure HotKeyDetector where
  sketch : CountMinSketch
  topk : SpaceSaving
  config : DetectorConfig

/-- `detector.KeyCount`. -/
structure KeyCount where
  Key : String
  Count : Nat

/-- `hotKeyDetector.GetCount`: the sketch estimate of the key's bytes. -/
def getCount (d : HotKeyDetector) (k : String) : Nat :=
  cmsEstimate d.sketch (strBytes k)

/-- Read of a `[]KeyCount` slice slot (the loops below only read in range). -/
def getKC (l : List KeyCount) (i : Nat) : KeyCount := l.getD i ⟨"", 0⟩

/-- `result[i], result[j] = result[j], result[i]`. -/
def swapKC (l : List KeyCount) (i j : Nat) : List KeyCount :=
  (l.set i (getKC l j)).set j (getKC l i)

/-- The inner `for j := i + 1; j < len(result); j++` loop of
`hotKeyDetector.TopK`, run with fuel (each pass increments `j`, so fuel
`len(result)` runs any start to completion). -/
def innerSort : Nat → List KeyCount → Nat → Nat → List KeyCount
  | 0, l, _, _ => l
  | f + 1, l, i, j =>
      if j < l.length then
        innerSort f
          (if (getKC l i).Count < (getKC l j).Count then swapKC l i j else l) i (j + 1)
      else l

/-- The outer `for i := 0; i < len(result)-1; i++` loop. -/
def outerSort : Nat → List KeyCount → Nat → List KeyCount
  | 0, l, _ => l
  | f + 1, l, i =>
      if i < l.length - 1 then outerSort f (innerSort l.length l i (i + 1)) (i + 1)
      else l

/-- `hotKeyDetector.TopK` before the sort: the Space-Saving snapshot with
every count replaced by the sketch estimate (`accurateCount`). -/
def detTopKRaw (d : HotKeyDetector) : List KeyCount :=
  (ssTopK d.topk d.config.topK).map fun it =>
    ⟨it.key, cmsEstimate d.sketch (strBytes it.key)⟩

/-- `hotKeyDetector.TopK`: the re-estimated snapshot, selection-sorted
descending by count. -/
def detTopK (d : HotKeyDetector) : List KeyCount :=
  outerSort (detTopKRaw d).length (detTopKRaw d) 0

/-- `hotKeyDetector.IsHot`. -/
def isHot (d : HotKeyDetector) (k : String) : Bool :=
  if d.config.hotThreshold > 0 then
    decide (d.config.hotThreshold ≤ getCount d k)
  else
    (detTopK d).any fun kc => kc.Key == k

/-! ### Selection-sort correctness -/

theorem getKC_eq_getElem (l : List KeyCount) (p : Nat) (h : p < l.length) :
    getKC l p = l[p] := by
  unfold getKC
  exact List.getD_eq_getElem _ _ h

theorem swapKC_length (l : List KeyCount) (i j : Nat) :
    (swapKC l i j).length = l.length := by simp [swapKC]

theorem swapKC_perm (l : List KeyCount) (i j : Nat)
    (hi : i < l.length) (hj : j < l.length) : (swapKC l i j).Perm l := by
  unfold swapKC getKC
  exact set_set_swap_perm ⟨"", 0⟩ l i j hi hj

theorem getKC_swapKC (l : List KeyCount) (i j p : Nat)
    (hi : i < l.length) (hj : j < l.length) :
    getKC (swapKC l i j) p =
      if p = j then getKC l i else if p = i then getKC l j else getKC l p := by
  show ((l.set i (getKC l j)).set j (getKC l i)).getD p ⟨"", 0⟩ = _
  by_cases hpj : p = j
  · subst hpj
    rw [if_pos rfl, getD_set_eq _ _ _ _ (by simpa using hj)]
  · rw [if_neg hpj, getD_set_ne _ _ _ (fun h => hpj h.symm)]
    by_cases hpi : p = i
    · subst hpi
      rw [if_pos rfl, getD_set_eq _ _ _ _ hi]
    · rw [if_neg hpi, getD_set_ne _ _ _ (fun h => hpi h.symm)]
      rfl

/-- Inner-loop invariant of the selection sort: a pass preserves length and
multiset, only touches slots `i` and `≥ j`, never decreases slot `i`'s count,
and on exit slot `i` dominates every slot the pass visited. -/
theorem innerSort_spec : ∀ (f : Nat) (l : List KeyCount) (i j : Nat), i < j →
    l.length - j ≤ f →
    (innerSort f l i j).length = l.length ∧
    (innerSort f l i j).Perm l ∧
    (∀ p, p < j → p ≠ i → getKC (innerSort f l i j) p = getKC l p) ∧
    (getKC l i).Count ≤ (getKC (innerSort f l i j) i).Count ∧
    (∀ q, j ≤ q → q < l.length →
      (getKC (innerSort f l i j) q).Count ≤ (getKC (innerSort f l i j) i).Count)
  | 0, l, i, j, hij, hf => by
    unfold innerSort
    exact ⟨rfl, .refl _, fun p _ _ => rfl, Nat.le_refl _,
      fun q hq hq2 => absurd hq2 (by omega)⟩
  | f + 1, l, i, j, hij, hf => by
    unfold innerSort
    by_cases hjl : j < l.length
    · rw [if_pos hjl]
      set l' := if (getKC l i).Count < (getKC l j).Count then swapKC l i j else l with hl'
      have hlen' : l'.length = l.length := by
        rw [hl']
        split
        · exact swapKC_length l i j
        · rfl
      have huntouched : ∀ p, p < j → p ≠ i → getKC l' p = getKC l p := by
        intro p hp hpi
        rw [hl']
        split
        · rw [getKC_swapKC l i j p (by omega) hjl, if_neg (by omega), if_neg hpi]
        · rfl
      have hpivot : (getKC l i).Count ≤ (getKC l' i).Count := by
        rw [hl']
        split
        · rename_i hcmp
          rw [getKC_swapKC l i j i (by omega) hjl, if_neg (by omega), if_pos rfl]
          omega
        · exact Nat.le_refl _
      have hjnew : (getKC l' j).Count ≤ (getKC l' i).Count := by
        rw [hl']
        split
        · rename_i hcmp
          rw [getKC_swapKC l i j j (by omega) hjl, if_pos rfl,
            getKC_swapKC l i j i (by omega) hjl, if_neg (by omega), if_pos rfl]
          omega
        · rename_i hcmp
          omega
      have hperm' : l'.Perm l := by
        rw [hl']
        split
        · exact swapKC_perm l i j (by omega) hjl
        · exact .refl _
      obtain ⟨ih1, ih2, ih3, ih4, ih5⟩ := innerSort_spec f l' i (j + 1) (by omega) (by omega)
      refine ⟨?_, ?_, ?_, ?_, ?_⟩
      · rw [ih1, hlen']
      · exact ih2.trans hperm'
      · intro p hp hpi
        rw [ih3 p (by omega) hpi, huntouched p hp hpi]
      · exact Nat.le_trans hpivot ih4
      · intro q hq hql
        by_cases hqj : q = j
        · subst hqj
          rw [ih3 q (by omega) (by omega)]
          exact Nat.le_trans hjnew ih4
        · exact ih5 q (by omega) (by rw [hlen']; exact hql)
    · rw [if_neg hjl]
      exact ⟨rfl, .refl _, fun p _ _ => rfl, Nat.le_refl _,
        fun q hq hql => absurd hql (by omega)⟩

/-- Outer-loop invariant: every position left of `i` dominates everything to
its right; on exit the whole list is sorted non-increasing by count. -/
theorem outerSort_spec : ∀ (f : Nat) (l : List KeyCount) (i : Nat),
    (∀ p q, p < q → q < l.length → p < i → (getKC l q).Count ≤ (getKC l p).Count) →
    l.length - (i + 1) ≤ f →
    (outerSort f l i).length = l.length ∧
    (outerSort f l i).Perm l ∧
    (∀ p q, p < q → q < l.length →
      (getKC (outerSort f l i) q).Count ≤ (getKC (outerSort f l i) p).Count)
  | 0, l, i, hpre, hf => by
    unfold outerSort
    exact ⟨rfl, .refl _, fun p q hpq hq => hpre p q hpq hq (by omega)⟩
  | f + 1, l, i, hpre, hf => by
    unfold outerSort
    by_cases hil : i < l.length - 1
    · rw [if_pos hil]
      obtain ⟨n1, n2, n3, n4, n5⟩ :=
        innerSort_spec l.length l i (i + 1) (by omega) (by omega)
      set r := innerSort l.length l i (i + 1) with hr
      have htake : r.take i = l.take i := by
        apply List.ext_getElem
        · rw [List.length_take, List.length_take, n1]
        · intro p h1 h2
          rw [List.length_take] at h1
          have hpi : p < i := by omega
          have hpr : p < r.length := by omega
          have hpl2 : p < l.length := by omega
          rw [List.getElem_take, List.getElem_take,
            ← getKC_eq_getElem r p hpr, ← getKC_eq_getElem l p hpl2]
          exact n3 p (by omega) (by omega)
      have hsuffix : (r.drop i).Perm (l.drop i) := by
        have h3 : (l.take i ++ r.drop i).Perm (l.take i ++ l.drop i) := by
          have e1 : l.take i ++ r.drop i = r := by
            rw [← htake]
            exact List.take_append_drop i r
          rw [e1, List.take_append_drop]
          exact n2
        exact (List.perm_append_left_iff _).1 h3
      have hsufmem : ∀ q, i ≤ q → q < r.length →
          ∃ w, i ≤ w ∧ w < l.length ∧ getKC r q = getKC l w := by
        intro q hq hql
        have hidx : i + (q - i) = q := by omega
        have hmem : getKC r q ∈ r.drop i :=
          List.mem_drop_iff_getElem.2 ⟨q - i, by omega,
            by rw [← getKC_eq_getElem r (i + (q - i)) (by omega), hidx]⟩
        have hmem2 : getKC r q ∈ l.drop i := hsuffix.mem_iff.1 hmem
        obtain ⟨w, hw, hwe⟩ := List.mem_drop_iff_getElem.1 hmem2
        refine ⟨i + w, by omega, by omega, ?_⟩
        rw [← hwe, ← getKC_eq_getElem l (i + w) (by omega)]
      have hpre' : ∀ p q, p < q → q < r.length → p < i + 1 →
          (getKC r q).Count ≤ (getKC r p).Count := by
        intro p q hpq hql hpi
        by_cases hpilt : p < i
        · have hrp : getKC r p = getKC l p := n3 p (by omega) (by omega)
          by_cases hqi : q < i
          · have hrq : getKC r q = getKC l q := n3 q (by omega) (by omega)
            rw [hrp, hrq]
            exact hpre p q hpq (by omega) hpilt
          · obtain ⟨w, hw1, hw2, hw3⟩ := hsufmem q (by omega) hql
            rw [hrp, hw3]
            exact hpre p w (by omega) hw2 hpilt
        · have hpi2 : p = i := by omega
          subst hpi2
          exact n5 q (by omega) (by rw [← n1]; exact hql)
      obtain ⟨o1, o2, o3⟩ := outerSort_spec f r (i + 1) hpre' (by omega)
      refine ⟨?_, ?_, ?_⟩
      · rw [o1, n1]
      · exact o2.trans n2
      · intro p q hpq hq
        exact o3 p q hpq (by omega)
    · rw [if_neg hil]
      exact ⟨rfl, .refl _, fun p q hpq hq => hpre p q hpq hq (by omega)⟩

/-- Under the invariant the heap's keys and the map's keys agree as
multisets. -/
theorem heap_keys_perm (ss : SpaceSaving) (hinv : Inv ss) :
    (ss.heap.map fun id => (getN ss.store id).key).Perm (ss.items.map Prod.fst) := by
  obtain ⟨i1, i2, _, i4, i5, _, _⟩ := hinv
  have hnd1 : (ss.heap.map fun id => (getN ss.store id).key).Nodup := by
    refine i2.map_on ?_
    intro x hx y hy hxy
    have hx' : ((getN ss.store x).key, x) ∈ ss.items := i5 x hx
    have hy' : ((getN ss.store y).key, y) ∈ ss.items := i5 y hy
    rw [hxy] at hx'
    exact keys_nodup_unique i1 hx' hy'
  refine (List.perm_ext_iff_of_nodup hnd1 i1).2 ?_
  intro k
  constructor
  · intro hk
    obtain ⟨id, hid, hke⟩ := List.mem_map.1 hk
    rw [← hke]
    exact List.mem_map.2 ⟨((getN ss.store id).key, id), i5 id hid, rfl⟩
  · intro hk
    obtain ⟨e, he, hke⟩ := List.mem_map.1 hk
    obtain ⟨heh, hkey⟩ := i4 e he
    exact List.mem_map.2 ⟨e.2, heh, by rw [hkey, hke]⟩

/-- C3.  `Detector.TopK` returns CMS-re-estimated counts sorted
non-increasing: on any detector state whose Space-Saving structure satisfies
its invariant and whose capacity is the configured K (as `detector.New`
builds it), `TopK()` has exactly one entry per tracked key, each entry's
count is the Count-Min-Sketch estimate of that key, and the sequence is
ordered by that count, non-increasing. -/
theorem detector_topk_sorted (d : HotKeyDetector)
    (hinv : Inv d.topk) (hcap : d.topk.capacity = d.config.topK) :
    ((detTopK d).map KeyCount.Key).Perm (d.topk.items.map Prod.fst) ∧
    (∀ kc ∈ detTopK d, kc.Count = cmsEstimate d.sketch (strBytes kc.Key)) ∧
    (detTopK d).Pairwise (fun x y => y.Count ≤ x.Count) := by
  have hlen : d.topk.heap.length ≤ d.config.topK := by
    obtain ⟨_, _, _, _, _, _, hc⟩ := hinv
    omega
  have hstrip := ssTopK_strip_perm d.topk d.config.topK hlen
  have hkeysheap := heap_keys_perm d.topk hinv
  obtain ⟨o1, o2, o3⟩ := outerSort_spec (detTopKRaw d).length (detTopKRaw d) 0
    (fun p q _ _ hpi => absurd hpi (Nat.not_lt_zero p)) (by omega)
  refine ⟨?_, ?_, ?_⟩
  · have hperm1 : ((detTopK d).map KeyCount.Key).Perm
        ((detTopKRaw d).map KeyCount.Key) := o2.map _
    refine hperm1.trans ?_
    have h2 : (detTopKRaw d).map KeyCount.Key =
        ((ssTopK d.topk d.config.topK).map strip).map (fun s => s.1) := by
      unfold detTopKRaw
      rw [List.map_map, List.map_map]
      rfl
    rw [h2]
    refine (hstrip.map _).trans ?_
    have h3 : ((d.topk.heap.map fun id =>
        strip (getN d.topk.store id)).map fun s => s.1) =
        d.topk.heap.map fun id => (getN d.topk.store id).key := by
      rw [List.map_map]
      rfl
    rw [h3]
    exact hkeysheap
  · intro kc hkc
    have hkc2 : kc ∈ detTopKRaw d := o2.mem_iff.1 hkc
    obtain ⟨it, hit, hitkc⟩ := List.mem_map.1 hkc2
    rw [← hitkc]
  · rw [List.pairwise_iff_getElem]
    intro a b ha hb hab
    have hb2 : b < (detTopKRaw d).length := by
      rw [← o1]
      exact hb
    have h := o3 a b hab hb2
    have ha' : a < (detTopK d).length := ha
    have hb' : b < (detTopK d).length := hb
    rw [← getKC_eq_getElem (detTopK d) a ha', ← getKC_eq_getElem (detTopK d) b hb']
    exact h

/-- A concrete detector state for the `TopK` witness: two tracked keys in a
capacity-2 Space-Saving structure and a fresh sketch. -/
def detEx3 : HotKeyDetector where
  sketch := cmsNew 2 8
  topk :=
    { capacity := 2
      store := [⟨"a", 3, 0, 0⟩, ⟨"b", 5, 0, 1⟩]
      heap := [0, 1]
      items := [("a", 0), ("b", 1)] }
  config := { topK := 2, hotThreshold := 0 }

/-- Witness: the `TopK` theorem applies to `detEx3`, whose invariant and
capacity hypotheses hold by evaluation. -/
theorem detector_topk_sorted_witness :
    (Inv detEx3.topk ∧ detEx3.topk.capacity = detEx3.config.topK) ∧
    (((detTopK detEx3).map KeyCount.Key).Perm (detEx3.topk.items.map Prod.fst) ∧
     (∀ kc ∈ detTopK detEx3, kc.Count = cmsEstimate detEx3.sketch (strBytes kc.Key)) ∧
     (detTopK detEx3).Pairwise (fun x y => y.Count ≤ x.Count)) :=
  ⟨⟨by unfold Inv IdsOK IndexOK; decide, by decide⟩,
   detector_topk_sorted detEx3 (by unfold Inv IdsOK IndexOK; decide) (by decide)⟩

/-- C4.  Hot-key decision semantics: with a positive threshold, `IsHot(k)`
holds exactly when `GetCount(k)` reaches it; with threshold zero, exactly
when `k` appears in `TopK()`. -/
theorem detector_ishot_semantics (d : HotKeyDetector) (k : String) :
    (0 < d.config.hotThreshold →
      (isHot d k = true ↔ d.config.hotThreshold ≤ getCount d k)) ∧
    (d.config.hotThreshold = 0 →
      (isHot d k = true ↔ ∃ kc ∈ detTopK d, kc.Key = k)) := by
  constructor
  · intro h
    unfold isHot
    rw [if_pos h]
    exact decide_eq_true_iff
  · intro h
    unfold isHot
    rw [if_neg (by omega), List.any_eq_true]
    constructor
    · rintro ⟨kc, hkc, hkey⟩
      exact ⟨kc, hkc, by simpa using hkey⟩
    · rintro ⟨kc, hkc, hkey⟩
      exact ⟨kc, hkc, by simpa using hkey⟩

/-- A concrete detector state for the `IsHot` witness (positive threshold). -/
def detEx4 : HotKeyDetector where
  sketch := cmsNew 1 4
  topk := ssNew 3
  config := { topK := 3, hotThreshold := 7 }

/-- Witness: the `IsHot` semantics theorem applied to a concrete detector
and key. -/
theorem detector_ishot_semantics_witness :
    (0 < detEx4.config.hotThreshold →
      (isHot detEx4 "a" = true ↔ detEx4.config.hotThreshold ≤ getCount detEx4 "a")) ∧
    (detEx4.config.hotThreshold = 0 →
      (isHot detEx4 "a" = true ↔ ∃ kc ∈ detTopK detEx4, kc.Key = "a")) :=
  detector_ishot_semantics detEx4 "a"

/-! ## Local cache policy (`policy`, claims C5 and C6)

`localCachePolicy` keeps a `map[string]*CacheItem` plus a `size` counter.
Go `float64` values (TTL, jitter, capacity, refresh-ahead, times) are
embedded as rationals, with the exact arithmetic standing in for the float
operations; `int(x)`/`time.Duration(x)` conversions truncate toward zero.
Calls to `time.Now()` become an explicit `now` argument and the
`crypto/rand` draw of `calculateTTLWithJitter` an explicit `rand` argument
(the `randomValue` in `[-1, 1]`).  Cached values (`Value any`) are a type
parameter. -/

/-- Go's float64→integer conversion (`int(x)`, `time.Duration(x)`):
truncation toward zero. -/
def goInt (q : Rat) : Int := if q < 0 then Int.ceil q else Int.floor q

/-- `policy.LocalCacheConfig`. -/
structure LocalCacheConfig where
  TTL : Rat
  Jitter : Rat
  Capacity : Rat
  RefreshAhead : Rat

/-- `policy.CacheItem`. -/
structure CacheItem (V : Type) where
  Key : String
  Value : V
  Expiration : Rat
  RefreshAt : Rat

/-- `policy.SetRequest`: the value and the optional TTL override. -/
structure SetRequest (V : Type) where
  Value : V
  TTL : Option Rat

/-- `policy.CacheSet`: the datum `handleSet` returns. -/
structure CacheSet where
  Key : String
  TTL : Rat

/-- The datum `handleGet` returns (`CacheMiss` or `CacheHit`). -/
inductive GetResult (V : Type) where
  | miss (key : String)
  | hit (key : String) (value : V) (shouldRefresh : Bool)

/-- The `localCachePolicy` state: config, the `cache` map (association list
with unique keys) and the `size` counter (a Go `int`). -/
structure LocalCache (V : Type) where
  config : LocalCacheConfig
  cache : List (String × CacheItem V)
  size : Int

/-- `p.cache[k]` lookup. -/
def cacheLookup {V : Type} (c : List (String × CacheItem V)) (k : String) :
    Option (CacheItem V) :=
  (c.find? fun e => e.1 == k).map Prod.snd

/-- `delete(p.cache, k)`. -/
def cacheErase {V : Type} (c : List (String × CacheItem V)) (k : String) :
    List (String × CacheItem V) :=
  c.filter fun e => ¬ (e.1 = k)

/-- `p.cache[k] = item`: overwrite in place, or append a new entry. -/
def cacheInsert {V : Type} (c : List (String × CacheItem V)) (k : String)
    (it : CacheItem V) : List (String × CacheItem V) :=
  if (c.find? fun e => e.1 == k).isSome then
    c.map fun e => if e.1 = k then (k, it) else e
  else c ++ [(k, it)]

/-- `localCachePolicy.calculateTTLWithJitter`: the configured TTL when
jitter is not positive, else `TTL + randomValue * (TTL * Jitter)` where
`rand` is the `randomValue` derived from eight `crypto/rand` bytes. -/
def calculateTTLWithJitter (cfg : LocalCacheConfig) (rand : Rat) : Rat :=
  if cfg.Jitter ≤ 0 then cfg.TTL
  else cfg.TTL + rand * (cfg.TTL * cfg.Jitter)

/-- The `for key, item := range p.cache` scan of `evictLRU`: the first
entry, replaced whenever a strictly earlier `Expiration` is seen (the
embedding iterates in list order; Go map order is unspecified).  Returns
`oldestKey`, the zero string when the cache is empty. -/
def scanOldest {V : Type} (c : List (String × CacheItem V)) : String :=
  (c.foldl
    (fun acc e =>
      match acc with
      | none => some e
      | some o => if e.2.Expiration < o.2.Expiration then some e else some o)
    none).elim "" Prod.fst

/-- `localCachePolicy.evictLRU`: delete the scanned key and decrement
`size` — but only behind the `if oldestKey != ""` guard. -/
def evictLRU {V : Type} (p : LocalCache V) : LocalCache V :=
  let oldestKey := scanOldest p.cache
  if oldestKey ≠ "" then
    { p with cache := cacheErase p.cache oldestKey, size := p.size - 1 }
  else p

/-- `localCachePolicy.handleSet` after the `ctx.Data.(SetRequest)` assertion
has succeeded: evict when the key is new and `size >= int(Capacity)`, then
store the item with `Expiration = now + time.Duration(ttl)*time.Second` and
`RefreshAt = now + time.Duration(ttl*RefreshAhead)*time.Second`, where `ttl`
comes from `calculateTTLWithJitter` — the request's `TTL` field is never
read.  Returns the new state and the `CacheSet` datum. -/
def handleSet {V : Type} (p : LocalCache V) (now rand : Rat) (key : String)
    (req : SetRequest V) : LocalCache V × CacheSet :=
  let p1 :=
    if (cacheLookup p.cache key).isNone ∧ p.size ≥ goInt p.config.Capacity then
      evictLRU p
    else p
  let ttl := calculateTTLWithJitter p.config rand
  let expiration := now + (goInt ttl : Rat)
  let refreshAt := now + (goInt (ttl * p.config.RefreshAhead) : Rat)
  let item : CacheItem V := ⟨key, req.Value, expiration, refreshAt⟩
  let p2 :=
    if (cacheLookup p1.cache key).isNone then
      { p1 with size := p1.size + 1, cache := cacheInsert p1.cache key item }
    else { p1 with cache := cacheInsert p1.cache key item }
  (p2, ⟨key, ttl⟩)

/-- `localCachePolicy.handleGet`: miss on absence; expired entries
(`time.Now().After(Expiration)`) are deleted with `size--` and reported as
misses; hits carry `ShouldRefresh = time.Now().After(RefreshAt)`. -/
def handleGet {V : Type} (p : LocalCache V) (now : Rat) (key : String) :
    LocalCache V × GetResult V :=
  match cacheLookup p.cache key with
  | none => (p, .miss key)
  | some item =>
      if now > item.Expiration then
        ({ p with cache := cacheErase p.cache key, size := p.size - 1 }, .miss key)
      else
        (p, .hit key item.Value (decide (now > item.RefreshAt)))

/-- One `Apply` call (`localCachePolicy.Apply`'s type switch): a
`GetRequest` (no payload) or a `SetRequest`, each with its `time.Now()`
value, a set also with its random draw. -/
inductive CacheOp (V : Type) where
  | get (key : String) (now : Rat)
  | set (key : String) (req : SetRequest V) (now rand : Rat)

/-- The state transition of one `Apply`. -/
def applyCacheOp {V : Type} (p : LocalCache V) : CacheOp V → LocalCache V
  | .get k now => (handleGet p now k).1
  | .set k req now rand => (handleSet p now rand k req).1

/-- A sequence of `Apply` calls. -/
def runCache {V : Type} (p : LocalCache V) (ops : List (CacheOp V)) : LocalCache V :=
  ops.foldl applyCacheOp p

theorem cacheLookup_nil {V : Type} (k : String) :
    cacheLookup ([] : List (String × CacheItem V)) k = none := rfl

theorem cacheLookup_cons {V : Type} (e : String × CacheItem V)
    (c : List (String × CacheItem V)) (k : String) :
    cacheLookup (e :: c) k = if e.1 = k then some e.2 else cacheLookup c k := by
  by_cases h : e.1 = k
  · rw [if_pos h]
    unfold cacheLookup
    rw [List.find?_cons_of_pos _ (by simp [h])]
    rfl
  · rw [if_neg h]
    unfold cacheLookup
    rw [List.find?_cons_of_neg _ (by simp [h])]

theorem cacheInsert_eq {V : Type} (c : List (String × CacheItem V)) (k : String)
    (it : CacheItem V) :
    cacheInsert c k it =
      if (cacheLookup c k).isSome then c.map fun e => if e.1 = k then (k, it) else e
      else c ++ [(k, it)] := by
  cases h : c.find? fun e => e.1 == k <;> simp [cacheInsert, cacheLookup, h]

/-- A fresh local cache: TTL 60 seconds, no jitter, capacity 10. -/
def cacheEx5 : LocalCache Nat :=
  { config := { TTL := 60, Jitter := 0, Capacity := 10, RefreshAhead := 1 }
    cache := []
    size := 0 }

/-- C5.  The TTL override of a `SetRequest` is ignored: `handleSet` takes
the effective TTL from `calculateTTLWithJitter` alone (configured TTL and
jitter) for every request, so a request carrying override 5 on a fresh
60-second-TTL, no-jitter cache returns `CacheSet.TTL = 60`, not 5, and
stores `Expiration = now + 60`, not `now + 5` — the claimed override
behaviour does not hold. -/
theorem cache_ttl_override_ignored :
    (∀ (p : LocalCache Nat) (now rand : Rat) (k : String) (req : SetRequest Nat),
      (handleSet p now rand k req).2.TTL = calculateTTLWithJitter p.config rand) ∧
    (handleSet cacheEx5 1000 0 "k" { Value := 7, TTL := some 5 }).2.TTL = 60 ∧
    (handleSet cacheEx5 1000 0 "k" { Value := 7, TTL := some 5 }).2.TTL ≠ 5 ∧
    cacheLookup (handleSet cacheEx5 1000 0 "k" { Value := 7, TTL := some 5 }).1.cache "k"
      = some ⟨"k", 7, 1060, 1060⟩ := by
  refine ⟨fun p now rand k req => rfl, ?_, ?_, ?_⟩
  · show calculateTTLWithJitter cacheEx5.config 0 = 60
    norm_num [calculateTTLWithJitter, cacheEx5]
  · show calculateTTLWithJitter cacheEx5.config 0 ≠ 5
    norm_num [calculateTTLWithJitter, cacheEx5]
  · norm_num [handleSet, cacheEx5, cacheLookup, cacheInsert, evictLRU, scanOldest,
      calculateTTLWithJitter, goInt, cacheErase]

/-- A fresh local cache with capacity 1. -/
def cacheEx6 : LocalCache Nat :=
  { config := { TTL := 60, Jitter := 0, Capacity := 1, RefreshAhead := 1 }
    cache := []
    size := 0 }

/-- C6.  The capacity bound fails for the empty-string key: with capacity
N = 1, `Set("")` then `Set("a")` leaves two entries in the cache, because
`evictLRU` finds `oldestKey = ""` and its `if oldestKey != ""` guard skips
the eviction, while `handleSet` inserts the new key regardless. -/
theorem cache_capacity_exceeded :
    goInt cacheEx6.config.Capacity = 1 ∧
    (runCache cacheEx6
      [.set "" ⟨0, none⟩ 0 0, .set "a" ⟨0, none⟩ 1 0]).cache.length = 2 := by
  constructor
  · norm_num [goInt, cacheEx6]
  · norm_num [runCache, applyCacheOp, handleSet, evictLRU, scanOldest,
      cacheLookup_nil, cacheLookup_cons, cacheErase, cacheInsert_eq,
      calculateTTLWithJitter, goInt, cacheEx6]
    simp
    decide

/-! ## Hot-key history (`internal/metrics`, claim C7)

`hotKeyHistory.Add` runs two passes over the added list: the first builds
`currentMeta` (new keys start with `PrevCount = 0`; existing keys keep the
stored `PrevCount` and refresh `LastSeen`) and snapshots it, the second sets
every added key's stored `PrevCount` to its count in this list, for the next
`Add` to see.  Go maps (`keyMeta`, the snapshot's `KeyMeta`) are embedded as
functions `String → Option KeyMetadata` (the code never iterates them);
`time.Time` values are the abstract `now : Nat` arguments. -/

/-- `metrics.KeyMetadata`. -/
structure KeyMetadata where
  FirstSeen : Nat
  LastSeen : Nat
  PrevCount : Nat

/-- `metrics.HotKeySnapshot`. -/
structure HotKeySnapshot where
  Timestamp : Nat
  Keys : List KeyCount
  KeyMeta : String → Option KeyMetadata

/-- The `hotKeyHistory` state. -/
structure HotKeyHistory where
  snapshots : List HotKeySnapshot
  maxSize : Nat
  keyMeta : String → Option KeyMetadata

/-- `metrics.newHotKeyHistory`: non-positive sizes fall back to 30. -/
def newHotKeyHistory (maxSize : Int) : HotKeyHistory :=
  ⟨[], if maxSize ≤ 0 then 30 else maxSize.toNat, fun _ => none⟩

/-- `m[k] = v` on a Go map embedded as a function. -/
def mapUpdate {β : Type} (m : String → Option β) (k : String) (v : β) :
    String → Option β :=
  fun q => if q = k then some v else m q

/-- One iteration of `Add`'s first loop, carried over the pair
`(currentMeta, h.keyMeta)`: absent keys get `{FirstSeen: now, LastSeen: now,
PrevCount: 0}`, present keys keep their metadata with `LastSeen` refreshed;
the result is written to both maps. -/
def metaStep (now : Nat)
    (acc : (String → Option KeyMetadata) × (String → Option KeyMetadata))
    (kc : KeyCount) :
    (String → Option KeyMetadata) × (String → Option KeyMetadata) :=
  let existing :=
    match acc.2 kc.Key with
    | none => (⟨now, now, 0⟩ : KeyMetadata)
    | some m => { m with LastSeen := now }
  (mapUpdate acc.1 kc.Key existing, mapUpdate acc.2 kc.Key existing)

/-- One iteration of `Add`'s second loop: set the stored `PrevCount` of an
added key to its count in this list. -/
def pass2Step (km : String → Option KeyMetadata) (kc : KeyCount) :
    String → Option KeyMetadata :=
  match km kc.Key with
  | some m => mapUpdate km kc.Key { m with PrevCount := kc.Count }
  | none => km

/-- `hotKeyHistory.Add`: metadata pass, snapshot with `currentMeta`, ring
trim, then the `PrevCount` pass. -/
def histAdd (h : HotKeyHistory) (now : Nat) (keys : List KeyCount) : HotKeyHistory :=
  let pr := keys.foldl (metaStep now) (fun _ => none, h.keyMeta)
  let snaps1 := h.snapshots ++ [⟨now, keys, pr.1⟩]
  let snaps2 := if snaps1.length > h.maxSize then snaps1.drop 1 else snaps1
  ⟨snaps2, h.maxSize, keys.foldl pass2Step pr.2⟩

/-- `hotKeyHistory.GetLatest`. -/
def getLatest (h : HotKeyHistory) : Option HotKeySnapshot :=
  if h.snapshots.length = 0 then none else h.snapshots.getLast?

/-- A sequence of `Add` calls, each with its `time.Now()` value. -/
def runHist (h : HotKeyHistory) (runs : List (Nat × List KeyCount)) : HotKeyHistory :=
  runs.foldl (fun h p => histAdd h p.1 p.2) h

/-- The `PrevCount` a map records for a key, the zero value for absent
keys (what the trend code reads through `snapshot.KeyMeta[kc.Key]`). -/
def prevOf (km : String → Option KeyMetadata) (k : String) : Nat :=
  match km k with
  | none => 0
  | some m => m.PrevCount

/-- The trend rule of the hot-keys API handler (`metrics.go`): `new` when
the recorded `PrevCount` is zero, else by comparing the current count. -/
def trendOf (prevCount count : Nat) : String :=
  if prevCount = 0 then "new"
  else if count > prevCount then "rising"
  else if count < prevCount then "falling"
  else "stable"

theorem metaStep_prevOf (now : Nat)
    (acc : (String → Option KeyMetadata) × (String → Option KeyMetadata))
    (kc : KeyCount) (k : String) :
    prevOf (metaStep now acc kc).2 k = prevOf acc.2 k := by
  show prevOf (mapUpdate acc.2 kc.Key _) k = prevOf acc.2 k
  simp only [mapUpdate, prevOf]
  by_cases hk : k = kc.Key
  · subst hk
    rw [if_pos rfl]
    cases acc.2 kc.Key <;> rfl
  · rw [if_neg hk]

theorem metaStep_ne (now : Nat)
    (acc : (String → Option KeyMetadata) × (String → Option KeyMetadata))
    (kc : KeyCount) (k : String) (hk : k ≠ kc.Key) :
    (metaStep now acc kc).1 k = acc.1 k ∧ (metaStep now acc kc).2 k = acc.2 k := by
  constructor
  · show mapUpdate acc.1 kc.Key _ k = acc.1 k
    simp only [mapUpdate]
    rw [if_neg hk]
  · show mapUpdate acc.2 kc.Key _ k = acc.2 k
    simp only [mapUpdate]
    rw [if_neg hk]

theorem metaStep_self (now : Nat)
    (acc : (String → Option KeyMetadata) × (String → Option KeyMetadata))
    (kc : KeyCount) :
    ∃ m, (metaStep now acc kc).1 kc.Key = some m ∧
      (metaStep now acc kc).2 kc.Key = some m ∧ m.PrevCount = prevOf acc.2 kc.Key := by
  refine ⟨(match acc.2 kc.Key with
    | none => (⟨now, now, 0⟩ : KeyMetadata)
    | some m => { m with LastSeen := now }), ?_, ?_, ?_⟩
  · show mapUpdate acc.1 kc.Key _ kc.Key = some _
    simp [mapUpdate]
  · show mapUpdate acc.2 kc.Key _ kc.Key = some _
    simp [mapUpdate]
  · unfold prevOf
    cases acc.2 kc.Key <;> rfl

/-- The first `Add` loop: stored `PrevCount`s are unchanged, untouched keys
are untouched, and every added key lands in `currentMeta` (and in the store)
with its previously stored `PrevCount` (zero when new). -/
theorem metaPass1_facts (now : Nat) :
    ∀ (keys : List KeyCount)
      (cur km : String → Option KeyMetadata),
      (∀ k, prevOf (keys.foldl (metaStep now) (cur, km)).2 k = prevOf km k) ∧
      (∀ k, k ∉ keys.map KeyCount.Key →
        (keys.foldl (metaStep now) (cur, km)).1 k = cur k ∧
        (keys.foldl (metaStep now) (cur, km)).2 k = km k) ∧
      (∀ kc ∈ keys, ∃ m, (keys.foldl (metaStep now) (cur, km)).1 kc.Key = some m ∧
        m.PrevCount = prevOf km kc.Key) ∧
      (∀ kc ∈ keys, ((keys.foldl (metaStep now) (cur, km)).2 kc.Key).isSome = true)
  | [], cur, km =>
    ⟨fun _ => rfl, fun _ _ => ⟨rfl, rfl⟩,
     fun kc h => absurd h (List.not_mem_nil kc),
     fun kc h => absurd h (List.not_mem_nil kc)⟩
  | kc0 :: t, cur, km => by
    have hfold : (kc0 :: t).foldl (metaStep now) (cur, km) =
        t.foldl (metaStep now) (metaStep now (cur, km) kc0) := rfl
    obtain ⟨m0, hm1, hm2, hm3⟩ := metaStep_self now (cur, km) kc0
    obtain ⟨ih1, ih2, ih3, ih4⟩ :=
      metaPass1_facts now t (metaStep now (cur, km) kc0).1 (metaStep now (cur, km) kc0).2
    have hstep2 : ∀ k, prevOf (metaStep now (cur, km) kc0).2 k = prevOf km k :=
      fun k => metaStep_prevOf now (cur, km) kc0 k
    rw [hfold]
    have hfold2 : t.foldl (metaStep now) (metaStep now (cur, km) kc0) =
        t.foldl (metaStep now)
          ((metaStep now (cur, km) kc0).1, (metaStep now (cur, km) kc0).2) := rfl
    rw [hfold2]
    refine ⟨?_, ?_, ?_, ?_⟩
    · intro k
      rw [ih1 k, hstep2 k]
    · intro k hk
      have hk0 : k ≠ kc0.Key := by
        intro he
        exact hk (by rw [he]; exact List.mem_map.2 ⟨kc0, List.mem_cons_self _ _, rfl⟩)
      have hkt : k ∉ t.map KeyCount.Key := by
        intro he
        exact hk (by rw [List.map_cons]; exact List.mem_cons_of_mem _ he)
      obtain ⟨e1, e2⟩ := ih2 k hkt
      obtain ⟨f1, f2⟩ := metaStep_ne now (cur, km) kc0 k hk0
      exact ⟨by rw [e1, f1], by rw [e2, f2]⟩
    · intro kc hkc
      rcases List.mem_cons.1 hkc with he | ht
      · subst he
        by_cases hin : kc.Key ∈ t.map KeyCount.Key
        · obtain ⟨kc', hkc', hkey⟩ := List.mem_map.1 hin
          obtain ⟨m, hma, hmb⟩ := ih3 kc' hkc'
          rw [hkey] at hma hmb
          exact ⟨m, hma, by rw [hmb, hstep2]⟩
        · obtain ⟨e1, _⟩ := ih2 kc.Key hin
          exact ⟨m0, by rw [e1]; exact hm1, by rw [hm3]⟩
      · obtain ⟨m, hma, hmb⟩ := ih3 kc ht
        exact ⟨m, hma, by rw [hmb, hstep2]⟩
    · intro kc hkc
      rcases List.mem_cons.1 hkc with he | ht
      · subst he
        by_cases hin : kc.Key ∈ t.map KeyCount.Key
        · obtain ⟨kc', hkc', hkey⟩ := List.mem_map.1 hin
          have := ih4 kc' hkc'
          rw [hkey] at this
          exact this
        · obtain ⟨_, e2⟩ := ih2 kc.Key hin
          rw [e2, hm2]
          rfl
      · exact ih4 kc ht

theorem pass2Step_isSome (km : String → Option KeyMetadata) (kc : KeyCount)
    (k : String) : ((pass2Step km kc) k).isSome = (km k).isSome := by
  unfold pass2Step
  cases hk : km kc.Key
  · rfl
  · show (mapUpdate km kc.Key _ k).isSome = _
    simp only [mapUpdate]
    by_cases hq : k = kc.Key
    · subst hq
      rw [if_pos rfl, hk]
      rfl
    · rw [if_neg hq]

theorem pass2Step_ne (km : String → Option KeyMetadata) (kc : KeyCount)
    (k : String) (hk : k ≠ kc.Key) : (pass2Step km kc) k = km k := by
  unfold pass2Step
  cases km kc.Key
  · rfl
  · show mapUpdate km kc.Key _ k = km k
    simp only [mapUpdate]
    rw [if_neg hk]

/-- The second `Add` loop: untouched keys keep their metadata; with
duplicate-free keys, every added key's stored `PrevCount` becomes its count
in this list. -/
theorem metaPass2_facts :
    ∀ (l : List KeyCount) (km : String → Option KeyMetadata),
      (∀ kc ∈ l, (km kc.Key).isSome = true) →
      (∀ k, k ∉ l.map KeyCount.Key → (l.foldl pass2Step km) k = km k) ∧
      ((l.map KeyCount.Key).Nodup →
        ∀ kc ∈ l, prevOf (l.foldl pass2Step km) kc.Key = kc.Count)
  | [], km, _ =>
    ⟨fun _ _ => rfl, fun _ kc h => absurd h (List.not_mem_nil kc)⟩
  | kc0 :: t, km, hsome => by
    have hk0 : (km kc0.Key).isSome = true := hsome kc0 (List.mem_cons_self _ _)
    obtain ⟨m0, hm0⟩ := Option.isSome_iff_exists.1 hk0
    have hstep : pass2Step km kc0 =
        mapUpdate km kc0.Key { m0 with PrevCount := kc0.Count } := by
      unfold pass2Step
      rw [hm0]
    have hfold : (kc0 :: t).foldl pass2Step km = t.foldl pass2Step (pass2Step km kc0) := rfl
    have hsome' : ∀ kc ∈ t, ((pass2Step km kc0) kc.Key).isSome = true := by
      intro kc hkc
      rw [pass2Step_isSome]
      exact hsome kc (List.mem_cons_of_mem _ hkc)
    obtain ⟨ih1, ih2⟩ := metaPass2_facts t (pass2Step km kc0) hsome'
    rw [hfold]
    refine ⟨?_, ?_⟩
    · intro k hk
      have hk0ne : k ≠ kc0.Key := by
        intro he
        exact hk (by rw [he]; exact List.mem_map.2 ⟨kc0, List.mem_cons_self _ _, rfl⟩)
      have hkt : k ∉ t.map KeyCount.Key := by
        intro he
        exact hk (by rw [List.map_cons]; exact List.mem_cons_of_mem _ he)
      rw [ih1 k hkt, pass2Step_ne km kc0 k hk0ne]
    · intro hnd kc hkc
      rw [List.map_cons, List.nodup_cons] at hnd
      rcases List.mem_cons.1 hkc with he | ht
      · subst he
        have hkt : kc.Key ∉ t.map KeyCount.Key := hnd.1
        simp only [prevOf]
        rw [ih1 kc.Key hkt, hstep]
        simp [mapUpdate]
      · exact ih2 hnd.2 kc ht

theorem histAdd_keyMeta_ne (h : HotKeyHistory) (now : Nat) (keys : List KeyCount)
    (k : String) (hk : k ∉ keys.map KeyCount.Key) :
    (histAdd h now keys).keyMeta k = h.keyMeta k := by
  obtain ⟨p1, p2, _, p4⟩ := metaPass1_facts now keys (fun _ => none) h.keyMeta
  obtain ⟨q1, _⟩ := metaPass2_facts keys
    (keys.foldl (metaStep now) (fun _ => none, h.keyMeta)).2 p4
  show keys.foldl pass2Step (keys.foldl (metaStep now) (fun _ => none, h.keyMeta)).2 k
      = h.keyMeta k
  rw [q1 k hk, (p2 k hk).2]

theorem histAdd_prevOf_mem (h : HotKeyHistory) (now : Nat) (keys : List KeyCount)
    (hnd : (keys.map KeyCount.Key).Nodup) (kc : KeyCount) (hkc : kc ∈ keys) :
    prevOf (histAdd h now keys).keyMeta kc.Key = kc.Count := by
  obtain ⟨_, _, _, p4⟩ := metaPass1_facts now keys (fun _ => none) h.keyMeta
  obtain ⟨_, q2⟩ := metaPass2_facts keys
    (keys.foldl (metaStep now) (fun _ => none, h.keyMeta)).2 p4
  exact q2 hnd kc hkc

theorem histAdd_maxSize (h : HotKeyHistory) (now : Nat) (keys : List KeyCount) :
    (histAdd h now keys).maxSize = h.maxSize := rfl

theorem runHist_maxSize : ∀ (runs : List (Nat × List KeyCount)) (h : HotKeyHistory),
    (runHist h runs).maxSize = h.maxSize
  | [], _ => rfl
  | r :: t, h => by
    have : runHist h (r :: t) = runHist (histAdd h r.1 r.2) t := rfl
    rw [this, runHist_maxSize t, histAdd_maxSize]

theorem runHist_keyMeta_ne : ∀ (runs : List (Nat × List KeyCount)) (h : HotKeyHistory)
    (k : String), (∀ r ∈ runs, k ∉ r.2.map KeyCount.Key) →
    (runHist h runs).keyMeta k = h.keyMeta k
  | [], _, _, _ => rfl
  | r :: t, h, k, hall => by
    have h1 : runHist h (r :: t) = runHist (histAdd h r.1 r.2) t := rfl
    rw [h1, runHist_keyMeta_ne t _ k (fun q hq => hall q (List.mem_cons_of_mem _ hq)),
      histAdd_keyMeta_ne h r.1 r.2 k (hall r (List.mem_cons_self _ _))]

/-- The snapshot an `Add` appends is the latest one (ring trimming removes
only the oldest), and its `KeyMeta` is the first pass's `currentMeta`. -/
theorem getLatest_histAdd (h : HotKeyHistory) (now : Nat) (keys : List KeyCount)
    (hms : 1 ≤ h.maxSize) :
    getLatest (histAdd h now keys) =
      some ⟨now, keys, (keys.foldl (metaStep now) (fun _ => none, h.keyMeta)).1⟩ := by
  unfold getLatest
  show (if (if (h.snapshots ++ [_]).length > h.maxSize
      then (h.snapshots ++ [_]).drop 1 else (h.snapshots ++ [_])).length = 0 then none
    else (if (h.snapshots ++ [_]).length > h.maxSize
      then (h.snapshots ++ [_]).drop 1 else (h.snapshots ++ [_])).getLast?) = _
  by_cases hlen : (h.snapshots ++
      [(⟨now, keys, (keys.foldl (metaStep now) (fun _ => none, h.keyMeta)).1⟩ :
        HotKeySnapshot)]).length > h.maxSize
  · rw [if_pos hlen]
    cases hsn : h.snapshots with
    | nil =>
      rw [hsn] at hlen
      simp only [List.nil_append, List.length_cons, List.length_nil] at hlen
      omega
    | cons s rest =>
      have hdrop : ((s :: rest) ++
          [(⟨now, keys, (keys.foldl (metaStep now) (fun _ => none, h.keyMeta)).1⟩ :
            HotKeySnapshot)]).drop 1 = rest ++ [_] := rfl
      rw [hdrop]
      rw [if_neg (by simp), List.getLast?_concat]
  · rw [if_neg hlen]
    rw [if_neg (by simp), List.getLast?_concat]

/-- C7.  Snapshot `prev_count` ordering: after an arbitrary earlier history,
two consecutive `Add`s with lists `L1` (duplicate-free keys) then `L2`
produce a latest snapshot whose recorded `prev_count` is the key's count in
`L1` for keys in both lists, and `0` for keys of `L2` never added before —
so the trends derived from that snapshot are `rising`/`falling`/`stable` by
the count comparison, and `new` for never-seen keys. -/
theorem history_prev_count (m : Int) (runs : List (Nat × List KeyCount))
    (L1 L2 : List KeyCount) (now1 now2 : Nat)
    (hnd : (L1.map KeyCount.Key).Nodup) :
    ∃ snap,
      getLatest (histAdd (histAdd (runHist (newHotKeyHistory m) runs) now1 L1) now2 L2)
        = some snap ∧
      snap.Timestamp = now2 ∧ snap.Keys = L2 ∧
      (∀ kc1 ∈ L1, ∀ kc2 ∈ L2, kc1.Key = kc2.Key →
        ∃ md, snap.KeyMeta kc2.Key = some md ∧ md.PrevCount = kc1.Count ∧
          (kc1.Count ≠ 0 →
            trendOf md.PrevCount kc2.Count =
              if kc1.Count < kc2.Count then "rising"
              else if kc2.Count < kc1.Count then "falling"
              else "stable")) ∧
      (∀ kc2 ∈ L2, (∀ r ∈ runs, kc2.Key ∉ r.2.map KeyCount.Key) →
        kc2.Key ∉ L1.map KeyCount.Key →
        ∃ md, snap.KeyMeta kc2.Key = some md ∧ md.PrevCount = 0 ∧
          trendOf md.PrevCount kc2.Count = "new") := by
  have hms0 : 1 ≤ (newHotKeyHistory m).maxSize := by
    show 1 ≤ (if m ≤ 0 then 30 else m.toNat)
    split <;> omega
  have hms1 : 1 ≤ (histAdd (runHist (newHotKeyHistory m) runs) now1 L1).maxSize := by
    rw [histAdd_maxSize, runHist_maxSize]
    exact hms0
  set h1 := histAdd (runHist (newHotKeyHistory m) runs) now1 L1 with hh1
  refine ⟨_, getLatest_histAdd h1 now2 L2 hms1, rfl, rfl, ?_, ?_⟩
  · intro kc1 hkc1 kc2 hkc2 hkey
    obtain ⟨_, _, p3, _⟩ := metaPass1_facts now2 L2 (fun _ => none) h1.keyMeta
    obtain ⟨md, hmd1, hmd2⟩ := p3 kc2 hkc2
    have hprev : prevOf h1.keyMeta kc2.Key = kc1.Count := by
      rw [hh1, ← hkey]
      exact histAdd_prevOf_mem _ now1 L1 hnd kc1 hkc1
    refine ⟨md, hmd1, by rw [hmd2, hprev], ?_⟩
    intro hne
    rw [hmd2, hprev]
    unfold trendOf
    rw [if_neg hne]
  · intro kc2 hkc2 hruns hnotL1
    obtain ⟨_, _, p3, _⟩ := metaPass1_facts now2 L2 (fun _ => none) h1.keyMeta
    obtain ⟨md, hmd1, hmd2⟩ := p3 kc2 hkc2
    have hprev : prevOf h1.keyMeta kc2.Key = 0 := by
      rw [hh1]
      unfold prevOf
      rw [histAdd_keyMeta_ne _ now1 L1 kc2.Key hnotL1,
        runHist_keyMeta_ne runs _ kc2.Key hruns]
      rfl
    refine ⟨md, hmd1, by rw [hmd2, hprev], ?_⟩
    rw [hmd2, hprev]
    rfl

/-- Witness: the scenario of two consecutive snapshots — counts
100/50/200, then 100/80/120 plus a new key with 30. -/
theorem history_prev_count_witness :
    (([⟨"stable", 100⟩, ⟨"rising", 50⟩, ⟨"falling", 200⟩] :
        List KeyCount).map KeyCount.Key).Nodup ∧
    (∃ snap,
      getLatest (histAdd (histAdd (runHist (newHotKeyHistory 5) []) 1
          [⟨"stable", 100⟩, ⟨"rising", 50⟩, ⟨"falling", 200⟩]) 2
          [⟨"stable", 100⟩, ⟨"rising", 80⟩, ⟨"falling", 120⟩, ⟨"new", 30⟩])
        = some snap ∧
      snap.Timestamp = 2 ∧
      snap.Keys = [⟨"stable", 100⟩, ⟨"rising", 80⟩, ⟨"falling", 120⟩, ⟨"new", 30⟩] ∧
      (∀ kc1 ∈ ([⟨"stable", 100⟩, ⟨"rising", 50⟩, ⟨"falling", 200⟩] : List KeyCount),
        ∀ kc2 ∈ ([⟨"stable", 100⟩, ⟨"rising", 80⟩, ⟨"falling", 120⟩, ⟨"new", 30⟩] :
          List KeyCount), kc1.Key = kc2.Key →
        ∃ md, snap.KeyMeta kc2.Key = some md ∧ md.PrevCount = kc1.Count ∧
          (kc1.Count ≠ 0 →
            trendOf md.PrevCount kc2.Count =
              if kc1.Count < kc2.Count then "rising"
              else if kc2.Count < kc1.Count then "falling"
              else "stable")) ∧
      (∀ kc2 ∈ ([⟨"stable", 100⟩, ⟨"rising", 80⟩, ⟨"falling", 120⟩, ⟨"new", 30⟩] :
          List KeyCount),
        (∀ r ∈ ([] : List (Nat × List KeyCount)), kc2.Key ∉ r.2.map KeyCount.Key) →
        kc2.Key ∉ ([⟨"stable", 100⟩, ⟨"rising", 50⟩, ⟨"falling", 200⟩] :
          List KeyCount).map KeyCount.Key →
        ∃ md, snap.KeyMeta kc2.Key = some md ∧ md.PrevCount = 0 ∧
          trendOf md.PrevCount kc2.Count = "new")) :=
  ⟨by decide,
   history_prev_count 5 [] [⟨"stable", 100⟩, ⟨"rising", 50⟩, ⟨"falling", 200⟩]
     [⟨"stable", 100⟩, ⟨"rising", 80⟩, ⟨"falling", 120⟩, ⟨"new", 30⟩] 1 2 (by decide)⟩

/-! ## Policy manager construction (`policy.New` / `RegisterPattern`, claim C8)

`regexp.Compile` is Go standard library, external to this repository; it is
abstracted as a parameter `compile : String → Option R` (`none` =
compilation error, the error value being the pattern itself).  `policy.New`
is modelled from the point where the policy-type switch has succeeded: it
fills the whitelist keys, then runs every configured pattern through
`RegisterPattern`, and — far from skipping failures — aborts with the
wrapped error on the first pattern that does not compile. -/

/-- The `manager` state relevant to pattern registration. -/
structure PolicyManager (R : Type) where
  patternRegexps : List (String × R)
  whitelistKeys : List String

/-- `m.patternRegexps[pattern] = r`. -/
def insertPattern {R : Type} (ps : List (String × R)) (k : String) (r : R) :
    List (String × R) :=
  if (ps.find? fun e => e.1 == k).isSome then
    ps.map fun e => if e.1 = k then (k, r) else e
  else ps ++ [(k, r)]

/-- `manager.RegisterPattern`: compile, propagate the error, else register. -/
def registerPattern {R : Type} (compile : String → Option R)
    (m : PolicyManager R) (pattern : String) : Except String (PolicyManager R) :=
  match compile pattern with
  | none => .error pattern
  | some r => .ok { m with patternRegexps := insertPattern m.patternRegexps pattern r }

/-- The `for _, pattern := range config.WhitelistPatterns` loop of
`policy.New`: `if err := m.RegisterPattern(pattern); err != nil { return
nil, … }`. -/
def registerAll {R : Type} (compile : String → Option R) :
    PolicyManager R → List String → Except String (PolicyManager R)
  | m, [] => .ok m
  | m, p :: t =>
      match registerPattern compile m p with
      | .error e => .error e
      | .ok m2 => registerAll compile m2 t

/-- `policy.New` after a successful policy-type switch: whitelist keys, then
the pattern loop. -/
def policyNew {R : Type} (compile : String → Option R)
    (whitelistKeys whitelistPatterns : List String) :
    Except String (PolicyManager R) :=
  registerAll compile ⟨[], whitelistKeys⟩ whitelistPatterns

/-- A stand-in regex compiler for concrete runs: rejects exactly the
pattern `"("` (which `regexp.Compile` rejects). -/
def compileEx : String → Option String :=
  fun p => if p = "(" then none else some p

/-- C8 counterexample.  `New` does not silently skip a bad whitelist
pattern: with patterns `["ok.*", "("]` it returns the wrapped compile error
and never a manager. -/
theorem policy_new_skips_nothing_counterexample :
    policyNew compileEx ["k1"] ["ok.*", "("] = Except.error "(" ∧
    ∀ m : PolicyManager String, policyNew compileEx ["k1"] ["ok.*", "("] ≠ Except.ok m := by
  refine ⟨rfl, ?_⟩
  intro m h
  exact Except.noConfusion (h.symm.trans
    (rfl : policyNew compileEx ["k1"] ["ok.*", "("] = Except.error "("))

/-- C8 (amended).  Pattern-compilation failures are never skipped: if any
configured whitelist pattern fails to compile, `New` returns an error (no
manager); an explicit `RegisterPattern` with a non-compiling pattern returns
the compile error; and when every pattern compiles, `New` succeeds. -/
theorem policy_pattern_handling {R : Type} (compile : String → Option R)
    (keys pats : List String) (p : String) :
    (p ∈ pats → compile p = none →
      ∀ m : PolicyManager R, policyNew compile keys pats ≠ Except.ok m) ∧
    (compile p = none →
      ∀ m : PolicyManager R, registerPattern compile m p = Except.error p) ∧
    ((∀ q ∈ pats, (compile q).isSome = true) →
      ∃ m, policyNew compile keys pats = Except.ok m) := by
  refine ⟨?_, ?_, ?_⟩
  · have main : ∀ (l : List String) (m0 : PolicyManager R), p ∈ l → compile p = none →
        ∀ m : PolicyManager R, registerAll compile m0 l ≠ Except.ok m := by
      intro l
      induction l with
      | nil => intro m0 hp; exact absurd hp (List.not_mem_nil p)
      | cons q t ih =>
        intro m0 hp hc m h
        have hfold : registerAll compile m0 (q :: t) =
            match registerPattern compile m0 q with
            | .error e => .error e
            | .ok m2 => registerAll compile m2 t := rfl
        rw [hfold] at h
        cases hq : registerPattern compile m0 q with
        | error e => rw [hq] at h; exact Except.noConfusion h
        | ok m2 =>
          rw [hq] at h
          have hpq : p ≠ q := by
            intro he
            subst he
            unfold registerPattern at hq
            rw [hc] at hq
            exact Except.noConfusion hq
          have hpt : p ∈ t := by
            rcases List.mem_cons.1 hp with h1 | h1
            · exact absurd h1 hpq
            · exact h1
          exact ih m2 hpt hc m h
    intro hp hc
    exact main pats ⟨[], keys⟩ hp hc
  · intro hc m
    unfold registerPattern
    rw [hc]
  · have main : ∀ (l : List String) (m0 : PolicyManager R),
        (∀ q ∈ l, (compile q).isSome = true) →
        ∃ m, registerAll compile m0 l = Except.ok m := by
      intro l
      induction l with
      | nil => intro m0 _; exact ⟨m0, rfl⟩
      | cons q t ih =>
        intro m0 hall
        obtain ⟨r, hr⟩ := Option.isSome_iff_exists.1 (hall q (List.mem_cons_self _ _))
        have hq : registerPattern compile m0 q =
            .ok { m0 with patternRegexps := insertPattern m0.patternRegexps q r } := by
          unfold registerPattern
          rw [hr]
        obtain ⟨m, hm⟩ := ih { m0 with
          patternRegexps := insertPattern m0.patternRegexps q r }
          (fun q2 hq2 => hall q2 (List.mem_cons_of_mem _ hq2))
        refine ⟨m, ?_⟩
        have hfold : registerAll compile m0 (q :: t) =
            match registerPattern compile m0 q with
            | .error e => .error e
            | .ok m2 => registerAll compile m2 t := rfl
        rw [hfold, hq]
        exact hm
    exact main pats ⟨[], keys⟩

/-- Witness: the amended theorem applied to the concrete compiler and the
pattern list `["ok.*", "("]`. -/
theorem policy_pattern_handling_witness :
    ("(" ∈ ["ok.*", "("] ∧ compileEx "(" = none) ∧
    (∀ m : PolicyManager String,
      policyNew compileEx ["k1"] ["ok.*", "("] ≠ Except.ok m) ∧
    (∀ m : PolicyManager String,
      registerPattern compileEx m "(" = Except.error "(") :=
  ⟨⟨by decide, by decide⟩,
   (policy_pattern_handling compileEx ["k1"] ["ok.*", "("] "(").1 (by decide) (by decide),
   (policy_pattern_handling compileEx ["k1"] ["ok.*", "("] "(").2.1 (by decide)⟩

/-! ## Lifecycle (`internal` package, claim C9)

The singleton is `none` (not initialized) or `some isRunning`.  The
fallible sub-steps (policy construction in `New`, the metrics collector's
`Start`/`Stop`) are abstracted as boolean outcome parameters.  The result
distinguishes the error cases by their message. -/

/-- Outcomes of the `internal` lifecycle functions. -/
inductive LifecycleResult where
  | ok
  | errAlreadyInitialized
  | errNotInitialized
  | errAlreadyRunning
  | errNotRunning
  | errPolicy
  | errMetrics
deriving DecidableEq

/-- `internal.New`: fails when already initialized or when `policy.New`
fails; otherwise installs a not-running instance. -/
def internalNew (policyOk : Bool) (st : Option Bool) : Option Bool × LifecycleResult :=
  match st with
  | some b => (some b, .errAlreadyInitialized)
  | none => if policyOk then (some false, .ok) else (none, .errPolicy)

/-- `internal.Start`: fails when not initialized, already running, or the
metrics collector fails to start. -/
def internalStart (metricsOk : Bool) (st : Option Bool) : Option Bool × LifecycleResult :=
  match st with
  | none => (none, .errNotInitialized)
  | some true => (some true, .errAlreadyRunning)
  | some false => if metricsOk then (some true, .ok) else (some false, .errMetrics)

/-- `internal.Stop`: error only when not initialized (or when the metrics
stop of a running instance fails, which returns before the clears);
otherwise stop the metrics if running and always clear the singleton. -/
def internalStop (metricsOk : Bool) (st : Option Bool) : Option Bool × LifecycleResult :=
  match st with
  | none => (none, .errNotInitialized)
  | some true => if metricsOk then (none, .ok) else (some true, .errMetrics)
  | some false => (none, .ok)

/-- `internal.GetInstance`: requires initialized and running. -/
def internalGetInstance (st : Option Bool) : LifecycleResult :=
  match st with
  | none => .errNotInitialized
  | some false => .errNotRunning
  | some true => .ok

/-- C9.  `Stop` on an initialized-but-not-running engine does not fail: it
returns ok — and clears the singleton; in general every successful `Stop`
clears the singleton rather than leaving the initialized instance behind.
Both halves of the claimed semantics (NotRunning failure; singleton kept
until `Shutdown`) are contradicted. -/
theorem lifecycle_stop_semantics :
    (∀ mOk : Bool, internalStop mOk (some false) = (none, LifecycleResult.ok)) ∧
    (internalNew true none = (some false, LifecycleResult.ok)) ∧
    (∀ (mOk : Bool) (st : Option Bool),
      (internalStop mOk st).2 = LifecycleResult.ok → (internalStop mOk st).1 = none) := by
  refine ⟨fun _ => rfl, rfl, ?_⟩
  intro mOk st h
  cases st with
  | none => exact LifecycleResult.noConfusion h
  | some b =>
    cases b with
    | false => rfl
    | true =>
      cases mOk with
      | true => rfl
      | false => exact LifecycleResult.noConfusion h

/-- Witness: the fresh-initialized state (`New` then no `Start`), where
`Stop` succeeds and clears the instance. -/
theorem lifecycle_stop_semantics_witness :
    internalStop true (some false) = (none, LifecycleResult.ok) ∧
    ((internalStop true (some false)).2 = LifecycleResult.ok →
      (internalStop true (some false)).1 = none) :=
  ⟨lifecycle_stop_semantics.1 true, (lifecycle_stop_semantics).2.2 true (some false)⟩

end Keyflare
